import Mathlib

/-!
# Secret backends (AWS Secrets Manager, Azure Key Vault)

A shallow embedding of `backend/aws/secretsmanager.go` and
`backend/azure/keyvault.go`.

* Go maps `map[string]string` are association lists with the two Go read
  forms (`v, ok := m[k]` and `m[k]`) and the write form `m[k] = v`.
* A Go pointer `*string` is an `Option String`; dereferencing `nil` is the
  outcome `Outcome.fault`.
* The calls that leave the two files (session factories, provider clients,
  `mapstructure.Decode`) are fields of an environment record; they return
  `Except Error _` for Go's `(value, err)` pairs, the value of a call that
  returns a nil error being non-nil.
* `json.Unmarshal` into a `map[string]string` is modelled in full: the JSON
  grammar of the scanner of `encoding/json` (as a lexical automaton over the
  characters followed by a pushdown automaton over the tokens, which together
  accept the texts `checkValid` accepts) and then the decoding rules for a map
  of strings. A payload is a `String`, that is, valid UTF-8 text.
* What a well-formed JSON text is, and which value it has, is stated apart from
  the scanner, by the grammar of RFC 8259 (namespace `Rfc8259`). The scanner
  is proved sound and complete for that grammar (`jsonText_of_parse`,
  `parse_of_jsonText`), and the statements about payloads are made in terms of
  the grammar.
* The package-level logger is a list of emitted records returned next to the
  result.
* A method with a pointer receiver returns the receiver after the call next
  to its result.
-/

namespace SecretBackend

/-! ## Go maps -/

/-- A Go `map[string]string`; at most the first entry of a key is visible. -/
structure GoMap where
  entries : List (String × String)
deriving DecidableEq, Repr

namespace GoMap

/-- The result of `make(map[string]string, 0)` (a nil map reads the same). -/
def empty : GoMap := ⟨[]⟩

/-- Scan of the entries for `v, ok := m[k]`. -/
def find (k : String) : List (String × String) → String × Bool
  | [] => ("", false)
  | (k', v) :: rest => if k' = k then (v, true) else find k rest

/-- The two-valued read `v, ok := m[k]`: the zero value and `false` when absent. -/
def lookup2 (m : GoMap) (k : String) : String × Bool := find k m.entries

/-- The one-valued read `m[k]`: the zero value `""` when absent. -/
def index (m : GoMap) (k : String) : String := (m.lookup2 k).1

/-- Replace the entry of `k`, or append one. -/
def put (k v : String) : List (String × String) → List (String × String)
  | [] => [(k, v)]
  | (k', v') :: rest => if k' = k then (k, v) :: rest else (k', v') :: put k v rest

/-- The write `m[k] = v`. -/
def store (m : GoMap) (k v : String) : GoMap := ⟨put k v m.entries⟩

end GoMap

/-! ## Errors, outputs, log records -/

/-- Go `error` values that reach the constructors. -/
inductive Error where
  /-- an error value returned by a collaborator (config decoding, session
  factory, provider client) -/
  | external (msg : String)
  /-- `*json.SyntaxError`: the payload is not JSON text -/
  | jsonSyntaxError
  /-- `*json.UnmarshalTypeError`, with its `Value` field -/
  | jsonUnmarshalTypeError (value : String)
deriving DecidableEq, Repr

/-- The struct `secret.SecretOutput` with its two `*string` fields. -/
structure SecretOutput where
  Value : Option String
  Error : Option String
deriving DecidableEq, Repr

/-- One logrus entry: `log.WithFields(fields).WithError(err).Error(msg)`. -/
structure LogRecord where
  fields : List (String × String)
  err : Option Error
  level : String
  msg : String
deriving DecidableEq, Repr

/-- The names of the fields a record is keyed by. -/
def LogRecord.keys (r : LogRecord) : List String := r.fields.map Prod.fst

/-- What a call of a method with a pointer receiver leaves behind: the
receiver after the call, the returned output, the records logged. -/
structure LookupResult (β : Type) where
  backend : β
  output : SecretOutput
  log : List LogRecord
deriving DecidableEq, Repr

/-- The message of the miss path, `errors.New(...).Error()`. -/
def errNoSecretKey : String := "backend does not provide secret key"

/-- Run `n` lookups of the same key one after the other, threading the receiver. -/
def repeatLookup {β : Type} (get : β → String → LookupResult β) (key : String) :
    Nat → β → β × List SecretOutput × List LogRecord
  | 0, b => (b, [], [])
  | n + 1, b =>
    let r := get b key
    let rest := repeatLookup get key n r.backend
    (rest.1, r.output :: rest.2.1, r.log ++ rest.2.2)

/-! ## Lookup (`GetSecretOutput`) -/

namespace Aws

/-- The handle `*aws.Config` produced by the session factory. -/
structure AwsConfig where
  handle : String
deriving DecidableEq, Repr

/-- The client `*secretsmanager.Client`, `secretsmanager.NewFromConfig(*cfg)`. -/
structure Client where
  cfg : AwsConfig
deriving DecidableEq, Repr

/-- The struct `AwsSecretsManagerBackend`. -/
structure AwsSecretsManagerBackend where
  BackendId : String
  Client : Client
  Config : GoMap
  Secret : GoMap
deriving DecidableEq, Repr

/-- The record of the miss path of the AWS lookup. -/
def missRecord (b : AwsSecretsManagerBackend) : LogRecord :=
  { fields := [("backend_id", b.BackendId),
               ("backend_type", b.Config.index "backend_type"),
               ("secret_id", b.Config.index "secret_id")],
    err := none, level := "error", msg := "backend does not provide secret key" }

/-- The method `(b *AwsSecretsManagerBackend) GetSecretOutput(secretKey)`. -/
def GetSecretOutput (b : AwsSecretsManagerBackend) (secretKey : String) :
    LookupResult AwsSecretsManagerBackend :=
  match b.Secret.lookup2 secretKey with
  | (val, true) => { backend := b, output := { Value := some val, Error := none }, log := [] }
  | (_, false) =>
    let es := errNoSecretKey
    { backend := b, output := { Value := none, Error := some es }, log := [missRecord b] }

end Aws

namespace Azure

/-- Modelled from the spec: the struct `AzureSessionBackendConfig` is declared
outside the two source files (the nested `azure_session` object of tenant and
client credentials); the code here only passes it on to the session factory. -/
structure AzureSessionBackendConfig where
  settings : List (String × String)
deriving DecidableEq, Repr

/-- The struct `AzureKeyVaultBackendConfig`. -/
structure AzureKeyVaultBackendConfig where
  AzureSession : AzureSessionBackendConfig
  BackendType : String
  KeyVaultURL : String
  SecretId : String
deriving DecidableEq, Repr

/-- The zero value `AzureKeyVaultBackendConfig{}`. -/
def AzureKeyVaultBackendConfig.zero : AzureKeyVaultBackendConfig :=
  { AzureSession := ⟨[]⟩, BackendType := "", KeyVaultURL := "", SecretId := "" }

/-- The struct `AzureKeyVaultBackend`. -/
structure AzureKeyVaultBackend where
  BackendId : String
  Config : AzureKeyVaultBackendConfig
  Secret : GoMap
deriving DecidableEq, Repr

/-- The record of the miss path of the Azure lookup. -/
def missRecord (b : AzureKeyVaultBackend) (secretKey : String) : LogRecord :=
  { fields := [("backend_id", b.BackendId),
               ("backend_type", b.Config.BackendType),
               ("secret_id", b.Config.SecretId),
               ("keyvaulturl", b.Config.KeyVaultURL),
               ("secret_key", secretKey)],
    err := none, level := "error", msg := "backend does not provide secret key" }

/-- The method `(b *AzureKeyVaultBackend) GetSecretOutput(secretKey)`. -/
def GetSecretOutput (b : AzureKeyVaultBackend) (secretKey : String) :
    LookupResult AzureKeyVaultBackend :=
  match b.Secret.lookup2 secretKey with
  | (val, true) => { backend := b, output := { Value := some val, Error := none }, log := [] }
  | (_, false) =>
    let es := errNoSecretKey
    { backend := b, output := { Value := none, Error := some es },
      log := [missRecord b secretKey] }

end Azure

/-! ## `encoding/json`: scanning -/

namespace Json

/-- A JSON value as the scanner delimits it. An object keeps its members in
the order of the text, repeated names included. -/
inductive JsonValue where
  | null
  | bool (b : Bool)
  | number
  | string (s : String)
  | array (elems : List JsonValue)
  | object (members : List (String × JsonValue))

/-- The lexical items of JSON text. -/
inductive Token where
  | beginObject
  | endObject
  | beginArray
  | endArray
  | colon
  | comma
  | string (s : String)
  | number
  | litTrue
  | litFalse
  | litNull
deriving DecidableEq, Repr

/-- One unit of a string literal before unquoting: a character, or the code
unit of a `\uXXXX` escape. -/
inductive StrUnit where
  | chr (c : Char)
  | u16 (n : Nat)
deriving DecidableEq, Repr

/-- The number states of the scanner: `stateNeg`, `state0`, `state1`,
`stateDot`, `stateDot0`, `stateE`, `stateESign`, `stateE0`. -/
inductive NumState where
  | neg
  | zero
  | int
  | dot
  | dot0
  | e
  | eSign
  | e0
deriving DecidableEq, Repr

/-- Where the scanner stands between two characters. -/
inductive LexState where
  /-- between two tokens -/
  | start
  /-- inside a string literal; the units read so far, last first -/
  | inString (acc : List StrUnit)
  /-- after a backslash inside a string literal -/
  | inStringEsc (acc : List StrUnit)
  /-- after `\u`; the hexadecimal digits read so far -/
  | inStringEscU (acc : List StrUnit) (hex : List Nat)
  /-- inside `true`, `false` or `null`; the characters still to come -/
  | inLiteral (tok : Token) (rest : List Nat)
  /-- inside a number -/
  | inNumber (st : NumState)
deriving DecidableEq, Repr

/-- The function `isSpace` of the scanner: space, tab, carriage return, line feed. -/
def isSpace (c : Nat) : Bool := c == 32 || c == 9 || c == 13 || c == 10

/-- A decimal digit `0` to `9`. -/
def isDigit (c : Nat) : Bool := 48 ≤ c && c ≤ 57

/-- The value of a hexadecimal digit (`0-9`, `a-f`, `A-F`). -/
def hexVal (c : Nat) : Option Nat :=
  if 48 ≤ c && c ≤ 57 then some (c - 48)
  else if 97 ≤ c && c ≤ 102 then some (c - 97 + 10)
  else if 65 ≤ c && c ≤ 70 then some (c - 65 + 10)
  else none

/-- The code unit of four hexadecimal digits, as `getu4` computes it. -/
def hex4 (ds : List Nat) : Nat := ds.foldl (fun acc d => acc * 16 + d) 0

/-- The character a one-letter escape stands for: the cases
`"`, `\`, `/`, `b`, `f`, `n`, `r`, `t` of `stateInStringEsc` and `unquoteBytes`. -/
def simpleEscape (c : Nat) : Option Char :=
  if c == 34 then some (Char.ofNat 34)
  else if c == 92 then some (Char.ofNat 92)
  else if c == 47 then some (Char.ofNat 47)
  else if c == 98 then some (Char.ofNat 8)
  else if c == 102 then some (Char.ofNat 12)
  else if c == 110 then some (Char.ofNat 10)
  else if c == 114 then some (Char.ofNat 13)
  else if c == 116 then some (Char.ofNat 9)
  else none

/-- The replacement character U+FFFD, `unicode.ReplacementChar`. -/
def replacementChar : Char := Char.ofNat 0xFFFD

/-- The predicate `utf16.IsSurrogate`. -/
def isSurrogate (n : Nat) : Bool := 0xD800 ≤ n && n < 0xE000

/-- The function `utf16.DecodeRune`: the code point of a surrogate pair, or
the replacement character. -/
def decodeSurrogates (r1 r2 : Nat) : Char :=
  if 0xD800 ≤ r1 && r1 < 0xDC00 && 0xDC00 ≤ r2 && r2 < 0xE000 then
    Char.ofNat ((r1 - 0xD800) * 1024 + (r2 - 0xDC00) + 0x10000)
  else replacementChar

/-- The function `unquoteBytes` on the units of a literal: characters are
copied, a `\u` escape gives its code point, two escapes that form a surrogate
pair give one code point, any other surrogate gives U+FFFD. -/
def unquoteUnits : List StrUnit → List Char
  | [] => []
  | .chr c :: rest => c :: unquoteUnits rest
  | .u16 a :: rest =>
    if isSurrogate a then
      match rest with
      | .u16 b :: rest2 =>
        if decodeSurrogates a b ≠ replacementChar then decodeSurrogates a b :: unquoteUnits rest2
        else replacementChar :: unquoteUnits (.u16 b :: rest2)
      | [] => [replacementChar]
      | .chr c :: rest2 => replacementChar :: c :: unquoteUnits rest2
    else Char.ofNat a :: unquoteUnits rest

/-- The string a literal denotes, from its units read last first. -/
def unquote (acc : List StrUnit) : String := String.mk (unquoteUnits acc.reverse)

/-- The scanner at the first character of a token (`stateBeginValue` and the
punctuation cases of `stateEndValue`), blanks skipped. -/
def lexStart (c : Nat) : Option (LexState × List Token) :=
  if isSpace c then some (.start, [])
  else if c == 123 then some (.start, [.beginObject])
  else if c == 125 then some (.start, [.endObject])
  else if c == 91 then some (.start, [.beginArray])
  else if c == 93 then some (.start, [.endArray])
  else if c == 58 then some (.start, [.colon])
  else if c == 44 then some (.start, [.comma])
  else if c == 34 then some (.inString [], [])
  else if c == 45 then some (.inNumber .neg, [])
  else if c == 48 then some (.inNumber .zero, [])
  else if 49 ≤ c && c ≤ 57 then some (.inNumber .int, [])
  else if c == 116 then some (.inLiteral .litTrue [114, 117, 101], [])
  else if c == 102 then some (.inLiteral .litFalse [97, 108, 115, 101], [])
  else if c == 110 then some (.inLiteral .litNull [117, 108, 108], [])
  else none

/-- The number states on one more character: `some` the next number state,
or `none` when the character does not continue the number. -/
def numStep (st : NumState) (c : Nat) : Option NumState :=
  match st with
  | .neg => if c == 48 then some .zero else if 49 ≤ c && c ≤ 57 then some .int else none
  | .zero =>
    if c == 46 then some .dot else if c == 101 || c == 69 then some .e else none
  | .int =>
    if isDigit c then some .int
    else if c == 46 then some .dot else if c == 101 || c == 69 then some .e else none
  | .dot => if isDigit c then some .dot0 else none
  | .dot0 => if isDigit c then some .dot0 else if c == 101 || c == 69 then some .e else none
  | .e => if c == 43 || c == 45 then some .eSign else if isDigit c then some .e0 else none
  | .eSign => if isDigit c then some .e0 else none
  | .e0 => if isDigit c then some .e0 else none

/-- The number states in which the number may end. -/
def numFinal (st : NumState) : Bool :=
  match st with
  | .zero | .int | .dot0 | .e0 => true
  | _ => false

/-- One step of the scanner: the next state and the tokens completed by this
character; `none` is a syntax error. -/
def lexStep (s : LexState) (ch : Char) : Option (LexState × List Token) :=
  let c := ch.toNat
  match s with
  | .start => lexStart c
  | .inString acc =>
    if c == 34 then some (.start, [.string (unquote acc)])
    else if c == 92 then some (.inStringEsc acc, [])
    else if c < 32 then none
    else some (.inString (.chr ch :: acc), [])
  | .inStringEsc acc =>
    if c == 117 then some (.inStringEscU acc [], [])
    else match simpleEscape c with
      | some e => some (.inString (.chr e :: acc), [])
      | none => none
  | .inStringEscU acc hex =>
    match hexVal c with
    | none => none
    | some d =>
      if hex.length == 3 then some (.inString (.u16 (hex4 (hex ++ [d])) :: acc), [])
      else some (.inStringEscU acc (hex ++ [d]), [])
  | .inLiteral tok rest =>
    match rest with
    | [] => none
    | [x] => if c == x then some (.start, [tok]) else none
    | x :: more => if c == x then some (.inLiteral tok more, []) else none
  | .inNumber st =>
    match numStep st c with
    | some st2 => some (.inNumber st2, [])
    | none =>
      if numFinal st then
        match lexStart c with
        | some (s2, toks) => some (s2, .number :: toks)
        | none => none
      else none

/-- The scanner at the end of the input (`scanner.eof`): a number may end
there, a string or a literal may not. -/
def lexEnd (s : LexState) : Option (List Token) :=
  match s with
  | .start => some []
  | .inNumber st => if numFinal st then some [.number] else none
  | _ => none

/-- Scan the characters from state `s`. -/
def lexFrom : LexState → List Char → Option (List Token)
  | s, [] => lexEnd s
  | s, ch :: rest =>
    match lexStep s ch with
    | none => none
    | some (s2, toks) =>
      match lexFrom s2 rest with
      | none => none
      | some more => some (toks ++ more)

/-- The tokens of a text, or `none` on a lexical error. -/
def lex (data : List Char) : Option (List Token) := lexFrom .start data

/-- An open object or array (an entry of `parseState`) with what it holds so
far, last first; an object also holds the name read for the next member. -/
inductive Frame where
  | object (members : List (String × JsonValue)) (key : Option String)
  | array (elems : List JsonValue)

/-- What the scanner expects next: `stateBeginValue`,
`stateBeginValueOrEmpty`, `stateBeginStringOrEmpty`, `stateBeginString`,
`stateEndValue`, `stateEndTop`. -/
inductive Expect where
  | beginValue
  | beginValueOrEmpty
  | beginStringOrEmpty
  | beginString
  | endValue
  | endTop
deriving DecidableEq, Repr

/-- The state of the scanner over tokens. -/
structure ParseState where
  stack : List Frame
  expect : Expect
  result : Option JsonValue

/-- The constant `maxNestingDepth`. -/
def maxNestingDepth : Nat := 10000

/-- A value is complete: it is the top-level value, the value of the pending
member, or the next element. -/
def pushValue (stack : List Frame) (v : JsonValue) : Option ParseState :=
  match stack with
  | [] => some { stack := [], expect := .endTop, result := some v }
  | .object ms (some k) :: rest =>
    some { stack := .object ((k, v) :: ms) none :: rest, expect := .endValue, result := none }
  | .object _ none :: _ => none
  | .array es :: rest =>
    some { stack := .array (v :: es) :: rest, expect := .endValue, result := none }

/-- The scanner where a value may begin. -/
def beginValue (stack : List Frame) (tok : Token) : Option ParseState :=
  match tok with
  | .beginObject =>
    if stack.length + 1 ≤ maxNestingDepth then
      some { stack := .object [] none :: stack, expect := .beginStringOrEmpty, result := none }
    else none
  | .beginArray =>
    if stack.length + 1 ≤ maxNestingDepth then
      some { stack := .array [] :: stack, expect := .beginValueOrEmpty, result := none }
    else none
  | .string s => pushValue stack (.string s)
  | .number => pushValue stack .number
  | .litTrue => pushValue stack (.bool true)
  | .litFalse => pushValue stack (.bool false)
  | .litNull => pushValue stack .null
  | _ => none

/-- The scanner where the name of a member must begin. -/
def beginString (stack : List Frame) (tok : Token) : Option ParseState :=
  match tok, stack with
  | .string k, .object ms none :: rest =>
    some { stack := .object ms (some k) :: rest, expect := .endValue, result := none }
  | _, _ => none

/-- The scanner after a name or a value (`stateEndValue`): a colon after a
name, a comma or the closing bracket after a value. -/
def endValue (stack : List Frame) (tok : Token) : Option ParseState :=
  match stack, tok with
  | .object ms (some k) :: rest, .colon =>
    some { stack := .object ms (some k) :: rest, expect := .beginValue, result := none }
  | .object ms none :: rest, .comma =>
    some { stack := .object ms none :: rest, expect := .beginString, result := none }
  | .object ms none :: rest, .endObject => pushValue rest (.object ms.reverse)
  | .array es :: rest, .comma =>
    some { stack := .array es :: rest, expect := .beginValue, result := none }
  | .array es :: rest, .endArray => pushValue rest (.array es.reverse)
  | _, _ => none

/-- One step of the scanner over tokens; `none` is a syntax error. -/
def parseStep (s : ParseState) (tok : Token) : Option ParseState :=
  match s.expect with
  | .beginValue => beginValue s.stack tok
  | .beginValueOrEmpty =>
    match tok, s.stack with
    | .endArray, .array es :: rest => pushValue rest (.array es.reverse)
    | _, _ => beginValue s.stack tok
  | .beginStringOrEmpty =>
    match tok, s.stack with
    | .endObject, .object ms none :: rest => pushValue rest (.object ms.reverse)
    | _, _ => beginString s.stack tok
  | .beginString => beginString s.stack tok
  | .endValue => endValue s.stack tok
  | .endTop => none

/-- Run the scanner over the tokens. -/
def parseTokens : ParseState → List Token → Option JsonValue
  | s, [] => match s.expect with
    | .endTop => s.result
    | _ => none
  | s, tok :: rest =>
    match parseStep s tok with
    | none => none
    | some s2 => parseTokens s2 rest

/-- The value of a JSON text: `none` when `checkValid` rejects the text. -/
def parse (data : List Char) : Option JsonValue :=
  match lex data with
  | none => none
  | some toks => parseTokens { stack := [], expect := .beginValue, result := none } toks

end Json

/-! ## `encoding/json`: decoding into a `map[string]string` -/

namespace Json

/-- The method `decodeState.saveError`: only the first error is kept. -/
def saveError (saved : Option Error) (err : Error) : Option Error :=
  match saved with
  | none => some err
  | some e => some e

/-- The value of one member stored into an element of type `string`
(`decodeState.value` on the fresh `mapElem`): a string is stored, `null`
leaves the zero value and is no error, anything else leaves the zero value
and saves an `UnmarshalTypeError`. -/
def decodeElem (v : JsonValue) (saved : Option Error) : String × Option Error :=
  match v with
  | .string s => (s, saved)
  | .null => ("", saved)
  | .bool _ => ("", saveError saved (.jsonUnmarshalTypeError "bool"))
  | .number => ("", saveError saved (.jsonUnmarshalTypeError "number"))
  | .array _ => ("", saveError saved (.jsonUnmarshalTypeError "array"))
  | .object _ => ("", saveError saved (.jsonUnmarshalTypeError "object"))

/-- The loop of `decodeState.object` over the members of an object, for a map
target: each member is decoded and written with `SetMapIndex`. -/
def decodeMembers : List (String × JsonValue) → GoMap → Option Error → GoMap × Option Error
  | [], m, saved => (m, saved)
  | (k, v) :: rest, m, saved =>
    let r := decodeElem v saved
    decodeMembers rest (m.store k r.1) r.2

/-- The method `decodeState.value` on a target of type `map[string]string`:
`null` sets the map to nil, an object fills it, any other value is an
`UnmarshalTypeError`. -/
def decodeMap (v : JsonValue) (m : GoMap) : GoMap × Option Error :=
  match v with
  | .null => (GoMap.empty, none)
  | .object ms => decodeMembers ms m none
  | .string _ => (m, some (.jsonUnmarshalTypeError "string"))
  | .number => (m, some (.jsonUnmarshalTypeError "number"))
  | .bool _ => (m, some (.jsonUnmarshalTypeError "bool"))
  | .array _ => (m, some (.jsonUnmarshalTypeError "array"))

/-- The call `json.Unmarshal([]byte(data), &m)` for `m` of type
`map[string]string`: the map after the call and the returned error. -/
def Unmarshal (data : String) (m : GoMap) : GoMap × Option Error :=
  match parse data.toList with
  | none => (m, some .jsonSyntaxError)
  | some v => decodeMap v m

end Json

/-! ## Construction -/

/-- What a call of a constructor does: it returns the Go pair
`(backend, err)`, or it faults on a nil pointer dereference. -/
inductive Outcome (β : Type) where
  | fault
  | ret (backend : Option β) (err : Option Error)
deriving DecidableEq, Repr

namespace Aws

/-- The response `*secretsmanager.GetSecretValueOutput`; only the field the
constructor reads. -/
structure GetSecretValueOutput where
  SecretString : Option String
deriving DecidableEq, Repr

/-- The collaborators of the AWS constructor: the session factory
`NewAwsConfigFromBackendConfig(backendId, backendConfig)` and the provider
call `client.GetSecretValue(ctx, {SecretId})`. -/
structure Env where
  NewAwsConfigFromBackendConfig : String → GoMap → Except Error AwsConfig
  GetSecretValue : Client → String → Except Error GetSecretValueOutput

/-- The fields logged when the fetch or the parse fails. -/
def failureFields (backendId : String) (backendConfig : GoMap) : List (String × String) :=
  [("backend_id", backendId),
   ("backend_type", backendConfig.index "backend_type"),
   ("secret_id", backendConfig.index "secret_id"),
   ("aws_access_key_id", backendConfig.index "aws_access_key_id"),
   ("aws_profile", backendConfig.index "aws_profile")]

/-- The function `NewAwsSecretsManagerBackend(backendId, backendConfig)`. -/
def NewAwsSecretsManagerBackend (env : Env) (backendId : String) (backendConfig : GoMap) :
    Outcome AwsSecretsManagerBackend × List LogRecord :=
  match env.NewAwsConfigFromBackendConfig backendId backendConfig with
  | .error err =>
    (.ret none (some err),
      [{ fields := [("backend_id", backendId)], err := some err, level := "error",
         msg := "failed to initialize aws session" }])
  | .ok cfg =>
    let client : Client := ⟨cfg⟩
    match env.GetSecretValue client (backendConfig.index "secret_id") with
    | .error err =>
      (.ret none (some err),
        [{ fields := failureFields backendId backendConfig, err := some err, level := "error",
           msg := "failed to retrieve secret value" }])
    | .ok out =>
      match out.SecretString with
      | none => (.fault, [])
      | some secretString =>
        match Json.Unmarshal secretString GoMap.empty with
        | (_, some err) =>
          (.ret none (some err),
            [{ fields := failureFields backendId backendConfig, err := some err,
               level := "error", msg := "failed to retrieve secret value" }])
        | (secretValue, none) =>
          (.ret (some { BackendId := backendId, Client := client, Config := backendConfig,
                        Secret := secretValue }) none, [])

end Aws

namespace Azure

/-- A value of Go type `interface{}` in a raw configuration mapping. -/
inductive RawValue where
  | nil
  | str (s : String)
  | num (n : Int)
  | bool (b : Bool)
  | map (entries : List (String × RawValue))

/-- The authorizer `*autorest.Authorizer` produced by the session factory. -/
structure Authorizer where
  handle : String
deriving DecidableEq, Repr

/-- The response `keyvault.SecretBundle`; only the field the constructor reads. -/
structure SecretBundle where
  Value : Option String
deriving DecidableEq, Repr

/-- The collaborators of the Azure constructor: `mapstructure.Decode(bc, &backendConfig)`
(from the raw mapping and the value it fills to the filled value), the session
factory `NewAzureConfigFromBackendConfig(backendId, session)` and the provider
call `client.GetSecret(ctx, vaultURL, secretName, version)`. -/
structure Env where
  Decode : List (String × RawValue) → AzureKeyVaultBackendConfig →
    Except Error AzureKeyVaultBackendConfig
  NewAzureConfigFromBackendConfig : String → AzureSessionBackendConfig → Except Error Authorizer
  GetSecret : Authorizer → String → String → String → Except Error SecretBundle

/-- The fields logged when the fetch or the parse fails. -/
def failureFields (backendId : String) (backendConfig : AzureKeyVaultBackendConfig) :
    List (String × String) :=
  [("backend_id", backendId),
   ("backend_type", backendConfig.BackendType),
   ("secret_id", backendConfig.SecretId),
   ("keyvaulturl", backendConfig.KeyVaultURL)]

/-- The function `NewAzureKeyVaultBackend(backendId, bc)`. -/
def NewAzureKeyVaultBackend (env : Env) (backendId : String) (bc : List (String × RawValue)) :
    Outcome AzureKeyVaultBackend × List LogRecord :=
  let backendConfig := AzureKeyVaultBackendConfig.zero
  match env.Decode bc backendConfig with
  | .error err =>
    (.ret none (some err),
      [{ fields := [], err := some err, level := "error",
         msg := "failed to map backend configuration" }])
  | .ok backendConfig =>
    match env.NewAzureConfigFromBackendConfig backendId backendConfig.AzureSession with
    | .error err =>
      (.ret none (some err),
        [{ fields := [("backend_id", backendId)], err := some err, level := "error",
           msg := "failed to initialize Azure session" }])
    | .ok cfg =>
      match env.GetSecret cfg backendConfig.KeyVaultURL backendConfig.SecretId "latest" with
      | .error err =>
        (.ret none (some err),
          [{ fields := failureFields backendId backendConfig, err := some err,
             level := "error", msg := "failed to retrieve secret value" }])
      | .ok out =>
        match out.Value with
        | none => (.fault, [])
        | some value =>
          match Json.Unmarshal value GoMap.empty with
          | (_, some err) =>
            (.ret none (some err),
              [{ fields := failureFields backendId backendConfig, err := some err,
                 level := "error", msg := "failed to retrieve secret value" }])
          | (secretValue, none) =>
            (.ret (some { BackendId := backendId, Config := backendConfig,
                          Secret := secretValue }) none, [])

end Azure

/-! ## Sample inputs -/

/-- A sample AWS backend holding the document `db_password = hunter2`. -/
def sampleAws : Aws.AwsSecretsManagerBackend :=
  { BackendId := "aws1", Client := ⟨⟨"session"⟩⟩,
    Config := ⟨[("backend_type", "aws.secretsmanager"), ("secret_id", "s1"),
                ("aws_profile", "default")]⟩,
    Secret := ⟨[("db_password", "hunter2")]⟩ }

/-- The sample AWS backend with another value under the same key. -/
def sampleAwsOther : Aws.AwsSecretsManagerBackend :=
  { sampleAws with Secret := ⟨[("db_password", "correct horse")]⟩ }

/-- A sample Azure backend holding the document `db_password = hunter2`. -/
def sampleAzure : Azure.AzureKeyVaultBackend :=
  { BackendId := "az1",
    Config := { AzureSession := ⟨[("azure_tenant_id", "t1")]⟩, BackendType := "azure.keyvault",
                KeyVaultURL := "https://vault.example", SecretId := "s1" },
    Secret := ⟨[("db_password", "hunter2")]⟩ }

/-- The sample Azure backend with another value under the same key. -/
def sampleAzureOther : Azure.AzureKeyVaultBackend :=
  { sampleAzure with Secret := ⟨[("db_password", "correct horse")]⟩ }

/-! ## Documents -/

/-- The JSON object whose members are the given names with string values, in
the given order. -/
def flatObject (ms : List (String × String)) : Json.JsonValue :=
  .object (ms.map fun p => (p.1, .string p.2))

/-- The value a flat document gives to the name `k`: the value of its last
member named `k` (for a name that occurs once, the value of that member). -/
def memberValue (k : String) : List (String × String) → Option String
  | [] => none
  | (k', v) :: rest =>
    match memberValue k rest with
    | some w => some w
    | none => if k' = k then some v else none

/-- A member value that a `string` element accepts: a string or `null`. -/
def Json.JsonValue.isStringOrNull : Json.JsonValue → Bool
  | .string _ => true
  | .null => true
  | _ => false

/-- The payloads `json.Unmarshal` refuses for a `map[string]string`: text that
is not JSON, a top-level value that is neither an object nor `null`, an object
with a member whose value is neither a string nor `null`. -/
def refused : Option Json.JsonValue → Bool
  | none => true
  | some .null => false
  | some (.object ms) => ms.any fun p => !p.2.isStringOrNull
  | some _ => true

/-- The errors of `json.Unmarshal`: a syntax error or a type error. -/
def Error.isParseError : Error → Bool
  | .jsonSyntaxError => true
  | .jsonUnmarshalTypeError _ => true
  | .external _ => false

/-- The configuration of the scenario: an AWS backend reading secret `s1`. -/
def sampleConfig : GoMap :=
  ⟨[("backend_type", "aws.secretsmanager"), ("secret_id", "s1"), ("aws_profile", "default")]⟩

/-- The payload of the scenario, `{"db_password":"hunter2"}`. -/
def scenarioPayload : String := "\x7b\"db_password\":\"hunter2\"\x7d"

/-- A payload with a nested object, `{"a": {"nested": 1}}`. -/
def nestedPayload : String := "\x7b\"a\": \x7b\"nested\": 1\x7d\x7d"

/-- A payload with a `null` member, `{"a":null}`. -/
def nullMemberPayload : String := "\x7b\"a\":null\x7d"

/-- An AWS environment whose session factory succeeds and whose provider
answers every fetch with `resp`. -/
def awsEnv (resp : Except Error Aws.GetSecretValueOutput) : Aws.Env :=
  { NewAwsConfigFromBackendConfig := fun _ _ => .ok ⟨"session"⟩,
    GetSecretValue := fun _ _ => resp }

/-- An AWS environment whose session factory fails. -/
def awsEnvNoSession : Aws.Env :=
  { NewAwsConfigFromBackendConfig := fun _ _ => .error (.external "no credentials"),
    GetSecretValue := fun _ _ => .error (.external "not reached") }

/-- A raw Azure configuration mapping. -/
def sampleRaw : List (String × Azure.RawValue) :=
  [("backend_type", .str "azure.keyvault"), ("keyvaulturl", .str "https://vault.example"),
   ("secret_id", .str "s1"), ("azure_session", .map [("azure_tenant_id", .str "t1")])]

/-- An Azure environment whose decoding and session factory succeed and whose
provider answers every fetch with `resp`. -/
def azureEnv (resp : Except Error Azure.SecretBundle) : Azure.Env :=
  { Decode := fun _ _ => .ok sampleAzure.Config,
    NewAzureConfigFromBackendConfig := fun _ _ => .ok ⟨"authorizer"⟩,
    GetSecret := fun _ _ _ _ => resp }

/-- An Azure environment in which the decoding of the configuration fails. -/
def azureEnvNoDecode : Azure.Env :=
  { Decode := fun _ _ => .error (.external "expected a map"),
    NewAzureConfigFromBackendConfig := fun _ _ => .error (.external "not reached"),
    GetSecret := fun _ _ _ _ => .error (.external "not reached") }

/-- An Azure environment whose session factory fails. -/
def azureEnvNoSession : Azure.Env :=
  { Decode := fun _ _ => .ok sampleAzure.Config,
    NewAzureConfigFromBackendConfig := fun _ _ => .error (.external "no credentials"),
    GetSecret := fun _ _ _ _ => .error (.external "not reached") }

/-! ## Writing a document as JSON text -/

/-- The hexadecimal digit (lower case) of a value below sixteen. -/
def hexDigit (d : Nat) : Char := if d < 10 then Char.ofNat (48 + d) else Char.ofNat (87 + d)

/-- The characters that write `c` inside a JSON string literal: the quote and
the backslash are escaped with a backslash, a control character is written
`\u00XX`, any other character stands for itself. -/
def escapeChar (c : Char) : List Char :=
  if c.toNat = 34 then [Char.ofNat 92, Char.ofNat 34]
  else if c.toNat = 92 then [Char.ofNat 92, Char.ofNat 92]
  else if c.toNat < 32 then
    [Char.ofNat 92, Char.ofNat 117, Char.ofNat 48, Char.ofNat 48,
      hexDigit (c.toNat / 16), hexDigit (c.toNat % 16)]
  else [c]

/-- The string literal that denotes `s`. -/
def quoteString (s : String) : List Char :=
  Char.ofNat 34 :: (s.data.flatMap escapeChar ++ [Char.ofNat 34])

/-- One member, `"name":"value"`. -/
def renderMember (p : String × String) : List Char :=
  quoteString p.1 ++ Char.ofNat 58 :: quoteString p.2

/-- The members after the first, each after a comma. -/
def renderRest : List (String × String) → List Char
  | [] => []
  | p :: rest => Char.ofNat 44 :: (renderMember p ++ renderRest rest)

/-- The compact JSON text of a flat document, the payload a provider holds
for it. -/
def renderDocument : List (String × String) → String
  | [] => String.mk [Char.ofNat 123, Char.ofNat 125]
  | p :: rest =>
    String.mk (Char.ofNat 123 :: (renderMember p ++ (renderRest rest ++ [Char.ofNat 125])))

/-- The unit the scanner collects for a character written by `escapeChar`:
the code unit of the `\u00XX` escape of a control character, the character
itself otherwise. -/
def unitOf (c : Char) : Json.StrUnit := if c.toNat < 32 then .u16 c.toNat else .chr c

/-- The tokens of one member. -/
def memberTokens (p : String × String) : List Json.Token :=
  [.string p.1, .colon, .string p.2]

/-- The tokens of the members after the first, each after a comma. -/
def restTokens : List (String × String) → List Json.Token
  | [] => []
  | p :: rest => .comma :: (memberTokens p ++ restTokens rest)

/-- The tokens of the text of a flat document. -/
def documentTokens : List (String × String) → List Json.Token
  | [] => [.beginObject, .endObject]
  | p :: rest => .beginObject :: (memberTokens p ++ (restTokens rest ++ [.endObject]))

/-! ## The JSON grammar (RFC 8259)

The specification speaks of well-formed and of malformed JSON payloads. That
notion is stated here on its own, from the grammar of RFC 8259, as relations
between texts and what they denote; nothing in this section refers to the
scanner of `encoding/json`. The scanner is compared with the grammar further
down: it accepts exactly the texts of the grammar, with the values the grammar
gives them, up to its limit on nesting. -/

namespace Rfc8259

/-- The rule `ws`: space, horizontal tab, line feed, carriage return. -/
def IsWs (c : Char) : Prop :=
  c.toNat = 0x20 ∨ c.toNat = 0x09 ∨ c.toNat = 0x0A ∨ c.toNat = 0x0D

/-- Insignificant whitespace: any number of `ws` characters. -/
def Ws (t : List Char) : Prop := ∀ c ∈ t, IsWs c

/-- The rule `DIGIT`. -/
def IsDigit (c : Char) : Prop := 0x30 ≤ c.toNat ∧ c.toNat ≤ 0x39

/-- The rule `digit1-9`. -/
def IsDigit19 (c : Char) : Prop := 0x31 ≤ c.toNat ∧ c.toNat ≤ 0x39

/-- The rule `*DIGIT`. -/
def DigitStar (t : List Char) : Prop := ∀ c ∈ t, IsDigit c

/-- The rule `1*DIGIT`. -/
def DigitPlus (t : List Char) : Prop := t ≠ [] ∧ DigitStar t

/-- The rule `int = zero / ( digit1-9 *DIGIT )`. -/
inductive IntPart : List Char → Prop
  | zero : IntPart [Char.ofNat 0x30]
  | digits (d : Char) (ds : List Char) : IsDigit19 d → DigitStar ds → IntPart (d :: ds)

/-- The rule `[ frac ]`, with `frac = decimal-point 1*DIGIT`. -/
inductive FracOpt : List Char → Prop
  | absent : FracOpt []
  | present (ds : List Char) : DigitPlus ds → FracOpt (Char.ofNat 0x2E :: ds)

/-- The rule `[ exp ]`, with `exp = e [ minus / plus ] 1*DIGIT`. -/
inductive ExpOpt : List Char → Prop
  | absent : ExpOpt []
  | unsigned (e : Char) (ds : List Char) :
      (e.toNat = 0x65 ∨ e.toNat = 0x45) → DigitPlus ds → ExpOpt (e :: ds)
  | signed (e s : Char) (ds : List Char) :
      (e.toNat = 0x65 ∨ e.toNat = 0x45) → (s.toNat = 0x2B ∨ s.toNat = 0x2D) →
      DigitPlus ds → ExpOpt (e :: s :: ds)

/-- The rule `number = [ minus ] int [ frac ] [ exp ]`. -/
inductive NumberText : List Char → Prop
  | positive (i f e : List Char) : IntPart i → FracOpt f → ExpOpt e →
      NumberText (i ++ (f ++ e))
  | negative (i f e : List Char) : IntPart i → FracOpt f → ExpOpt e →
      NumberText (Char.ofNat 0x2D :: (i ++ (f ++ e)))

/-- The rule `HEXDIG` with the value of the digit. -/
inductive HexDigit : Char → Nat → Prop
  | digit (c : Char) : 0x30 ≤ c.toNat → c.toNat ≤ 0x39 → HexDigit c (c.toNat - 0x30)
  | lower (c : Char) : 0x61 ≤ c.toNat → c.toNat ≤ 0x66 → HexDigit c (c.toNat - 0x57)
  | upper (c : Char) : 0x41 ≤ c.toNat → c.toNat ≤ 0x46 → HexDigit c (c.toNat - 0x37)

/-- The rule `char`: an unescaped character, a two-character escape, or
`\uXXXX`, with the character or the UTF-16 code unit it stands for. -/
inductive CharText : List Char → Json.StrUnit → Prop
  | unescaped (c : Char) : 0x20 ≤ c.toNat → c.toNat ≠ 0x22 → c.toNat ≠ 0x5C →
      CharText [c] (.chr c)
  | quotationMark : CharText [Char.ofNat 0x5C, Char.ofNat 0x22] (.chr (Char.ofNat 0x22))
  | reverseSolidus : CharText [Char.ofNat 0x5C, Char.ofNat 0x5C] (.chr (Char.ofNat 0x5C))
  | solidus : CharText [Char.ofNat 0x5C, Char.ofNat 0x2F] (.chr (Char.ofNat 0x2F))
  | backspace : CharText [Char.ofNat 0x5C, Char.ofNat 0x62] (.chr (Char.ofNat 0x08))
  | formFeed : CharText [Char.ofNat 0x5C, Char.ofNat 0x66] (.chr (Char.ofNat 0x0C))
  | lineFeed : CharText [Char.ofNat 0x5C, Char.ofNat 0x6E] (.chr (Char.ofNat 0x0A))
  | carriageReturn : CharText [Char.ofNat 0x5C, Char.ofNat 0x72] (.chr (Char.ofNat 0x0D))
  | tab : CharText [Char.ofNat 0x5C, Char.ofNat 0x74] (.chr (Char.ofNat 0x09))
  | hex (h1 h2 h3 h4 : Char) (d1 d2 d3 d4 : Nat) :
      HexDigit h1 d1 → HexDigit h2 d2 → HexDigit h3 d3 → HexDigit h4 d4 →
      CharText [Char.ofNat 0x5C, Char.ofNat 0x75, h1, h2, h3, h4]
        (.u16 (((d1 * 16 + d2) * 16 + d3) * 16 + d4))

/-- The rule `*char`, with the characters and code units written. -/
inductive CharsText : List Char → List Json.StrUnit → Prop
  | nil : CharsText [] []
  | cons (t ts : List Char) (u : Json.StrUnit) (us : List Json.StrUnit) :
      CharText t u → CharsText ts us → CharsText (t ++ ts) (u :: us)

/-- The string that characters and escaped code units denote: a code unit
outside the surrogate range is its code point, a high surrogate followed by
a low surrogate is the code point of the pair, and a surrogate that is not
part of a pair stands for U+FFFD (it denotes no character of its own). -/
inductive Denotes : List Json.StrUnit → List Char → Prop
  | nil : Denotes [] []
  | chr (c : Char) (us : List Json.StrUnit) (cs : List Char) :
      Denotes us cs → Denotes (.chr c :: us) (c :: cs)
  | scalar (n : Nat) (us : List Json.StrUnit) (cs : List Char) :
      ¬ (0xD800 ≤ n ∧ n ≤ 0xDFFF) → Denotes us cs →
      Denotes (.u16 n :: us) (Char.ofNat n :: cs)
  | pair (hi lo : Nat) (us : List Json.StrUnit) (cs : List Char) :
      0xD800 ≤ hi → hi ≤ 0xDBFF → 0xDC00 ≤ lo → lo ≤ 0xDFFF → Denotes us cs →
      Denotes (.u16 hi :: .u16 lo :: us)
        (Char.ofNat (0x10000 + (hi - 0xD800) * 0x400 + (lo - 0xDC00)) :: cs)
  | unpaired (n : Nat) (us : List Json.StrUnit) (cs : List Char) :
      0xD800 ≤ n → n ≤ 0xDFFF →
      ¬ (n ≤ 0xDBFF ∧ ∃ lo rest, us = .u16 lo :: rest ∧ 0xDC00 ≤ lo ∧ lo ≤ 0xDFFF) →
      Denotes us cs → Denotes (.u16 n :: us) (Char.ofNat 0xFFFD :: cs)

/-- The rule `string = quotation-mark *char quotation-mark`, with the string
denoted. -/
inductive StringText : List Char → String → Prop
  | mk (body : List Char) (units : List Json.StrUnit) (cs : List Char) :
      CharsText body units → Denotes units cs →
      StringText (Char.ofNat 0x22 :: (body ++ [Char.ofNat 0x22])) (String.mk cs)

/-- The tokens of the grammar with their texts: the six structural
characters, the three literal names, numbers and strings. -/
inductive Lexeme : Json.Token → List Char → Prop
  | beginObject : Lexeme .beginObject [Char.ofNat 0x7B]
  | endObject : Lexeme .endObject [Char.ofNat 0x7D]
  | beginArray : Lexeme .beginArray [Char.ofNat 0x5B]
  | endArray : Lexeme .endArray [Char.ofNat 0x5D]
  | colon : Lexeme .colon [Char.ofNat 0x3A]
  | comma : Lexeme .comma [Char.ofNat 0x2C]
  | litTrue : Lexeme .litTrue [Char.ofNat 0x74, Char.ofNat 0x72, Char.ofNat 0x75, Char.ofNat 0x65]
  | litFalse : Lexeme .litFalse
      [Char.ofNat 0x66, Char.ofNat 0x61, Char.ofNat 0x6C, Char.ofNat 0x73, Char.ofNat 0x65]
  | litNull : Lexeme .litNull [Char.ofNat 0x6E, Char.ofNat 0x75, Char.ofNat 0x6C, Char.ofNat 0x6C]
  | number (t : List Char) : NumberText t → Lexeme .number t
  | string (t : List Char) (s : String) : StringText t s → Lexeme (.string s) t

/-- A text as a sequence of tokens: whitespace may stand before and after
every token. -/
inductive Lexes : List Char → List Json.Token → Prop
  | done (ws : List Char) : Ws ws → Lexes ws []
  | token (ws t rest : List Char) (tok : Json.Token) (toks : List Json.Token) :
      Ws ws → Lexeme tok t → Lexes rest toks → Lexes (ws ++ (t ++ rest)) (tok :: toks)

mutual

/-- The tokens of a value: `value = false / null / true / object / array /
number / string`. -/
def tokensOf : Json.JsonValue → List Json.Token
  | .null => [.litNull]
  | .bool true => [.litTrue]
  | .bool false => [.litFalse]
  | .number => [.number]
  | .string s => [.string s]
  | .array es => .beginArray :: (elementTokens es ++ [.endArray])
  | .object ms => .beginObject :: (memberTokens ms ++ [.endObject])

/-- The rule `[ value *( value-separator value ) ]`. -/
def elementTokens : List Json.JsonValue → List Json.Token
  | [] => []
  | e :: es => tokensOf e ++ moreElementTokens es

/-- The rule `*( value-separator value )`. -/
def moreElementTokens : List Json.JsonValue → List Json.Token
  | [] => []
  | e :: es => .comma :: (tokensOf e ++ moreElementTokens es)

/-- The rule `[ member *( value-separator member ) ]`, with
`member = string name-separator value`. -/
def memberTokens : List (String × Json.JsonValue) → List Json.Token
  | [] => []
  | (k, v) :: ms => .string k :: .colon :: (tokensOf v ++ moreMemberTokens ms)

/-- The rule `*( value-separator member )`. -/
def moreMemberTokens : List (String × Json.JsonValue) → List Json.Token
  | [] => []
  | (k, v) :: ms => .comma :: .string k :: .colon :: (tokensOf v ++ moreMemberTokens ms)

end

/-- The rule `JSON-text = ws value ws`: the text is the tokens of the value,
with whitespace before and after any of them. -/
def JsonText (text : List Char) (v : Json.JsonValue) : Prop := Lexes text (tokensOf v)

mutual

/-- How deep the arrays and objects of a value are nested. -/
def depth : Json.JsonValue → Nat
  | .array es => depthElements es + 1
  | .object ms => depthMembers ms + 1
  | _ => 0

/-- The deepest of the elements. -/
def depthElements : List Json.JsonValue → Nat
  | [] => 0
  | e :: es => max (depth e) (depthElements es)

/-- The deepest of the member values. -/
def depthMembers : List (String × Json.JsonValue) → Nat
  | [] => 0
  | (_, v) :: ms => max (depth v) (depthMembers ms)

end

end Rfc8259

/-! ## The scanner against the grammar: invariants

The definitions of this section relate the states of the scanner to the
grammar. They serve the proofs that the scanner accepts exactly the texts of
the grammar, and are no part of the grammar. -/

namespace Rfc8259

/-- The texts that complete a number from each state of the scanner. -/
def NumTail : Json.NumState → List Char → Prop
  | .neg, t => ∃ i f e, IntPart i ∧ FracOpt f ∧ ExpOpt e ∧ t = i ++ (f ++ e)
  | .zero, t => ∃ f e, FracOpt f ∧ ExpOpt e ∧ t = f ++ e
  | .int, t => ∃ ds f e, DigitStar ds ∧ FracOpt f ∧ ExpOpt e ∧ t = ds ++ (f ++ e)
  | .dot, t => ∃ ds e, DigitPlus ds ∧ ExpOpt e ∧ t = ds ++ e
  | .dot0, t => ∃ ds e, DigitStar ds ∧ ExpOpt e ∧ t = ds ++ e
  | .e, t => DigitPlus t ∨
      ∃ s ds, (s.toNat = 0x2B ∨ s.toNat = 0x2D) ∧ DigitPlus ds ∧ t = s :: ds
  | .eSign, t => DigitPlus t
  | .e0, t => DigitStar t

/-- A character that can stand inside a number. -/
def NumChar (c : Char) : Prop :=
  IsDigit c ∨ c.toNat = 0x2E ∨ c.toNat = 0x65 ∨ c.toNat = 0x45 ∨ c.toNat = 0x2B ∨
    c.toNat = 0x2D

/-- A text that does not go on with a character of a number. -/
def HeadOk (rest : List Char) : Prop := ∀ c r, rest = c :: r → ¬ NumChar c

/-- No number token is directly followed by a number token. -/
def NoAdj : List Json.Token → Prop
  | [] => True
  | [_] => True
  | a :: b :: rest => ¬ (a = .number ∧ b = .number) ∧ NoAdj (b :: rest)

/-- What is left of a text when the scanner stands in a state: the rest of the
token begun, then a sequence of tokens. -/
def Pending : Json.LexState → List Char → List Json.Token → Prop
  | .start, text, toks => Lexes text toks
  | .inString acc, text, toks =>
    ∃ body units rest toks2, text = body ++ Char.ofNat 0x22 :: rest ∧ CharsText body units ∧
      toks = .string (String.mk (Json.unquoteUnits (acc.reverse ++ units))) :: toks2 ∧
      Lexes rest toks2
  | .inStringEsc acc, text, toks =>
    ∃ piece u body units rest toks2, text = piece ++ (body ++ Char.ofNat 0x22 :: rest) ∧
      CharText (Char.ofNat 0x5C :: piece) u ∧ CharsText body units ∧
      toks = .string (String.mk (Json.unquoteUnits (acc.reverse ++ u :: units))) :: toks2 ∧
      Lexes rest toks2
  | .inStringEscU acc hex, text, toks =>
    hex.length ≤ 3 →
    ∃ hs ds body units rest toks2, text = hs ++ (body ++ Char.ofNat 0x22 :: rest) ∧
      List.Forall₂ HexDigit hs ds ∧ hex.length + hs.length = 4 ∧ CharsText body units ∧
      toks = .string (String.mk (Json.unquoteUnits
        (acc.reverse ++ .u16 (Json.hex4 (hex ++ ds)) :: units))) :: toks2 ∧
      Lexes rest toks2
  | .inLiteral tok codes, text, toks =>
    codes ≠ [] →
    ∃ rest toks2, text = codes.map Char.ofNat ++ rest ∧ toks = tok :: toks2 ∧ Lexes rest toks2
  | .inNumber st, text, toks =>
    ∃ tail rest toks2, text = tail ++ rest ∧ NumTail st tail ∧ toks = .number :: toks2 ∧
      Lexes rest toks2

/-- The tokens of elements that are each followed by a comma. -/
def sepElements : List Json.JsonValue → List Json.Token
  | [] => []
  | e :: es => tokensOf e ++ .comma :: sepElements es

/-- The tokens of members that are each followed by a comma. -/
def sepMembers : List (String × Json.JsonValue) → List Json.Token
  | [] => []
  | (k, v) :: ms => .string k :: .colon :: (tokensOf v ++ .comma :: sepMembers ms)

/-- The tokens read for an open array or object that waits for its next value
(or, for an object without a pending name, for its next name). -/
def openTokens : Json.Frame → List Json.Token
  | .array acc => .beginArray :: sepElements acc.reverse
  | .object acc (some k) => .beginObject :: (sepMembers acc.reverse ++ [.string k, .colon])
  | .object acc none => .beginObject :: sepMembers acc.reverse

/-- The tokens read for the open arrays and objects, outermost first. -/
def below : List Json.Frame → List Json.Token
  | [] => []
  | f :: fs => below fs ++ openTokens f

/-- An open array or object that can take a value: an array, or an object
with a pending name. -/
def Awaiting : Json.Frame → Prop
  | .object _ none => False
  | _ => True

/-- The states of the scanner over tokens with the tokens read to reach them. -/
inductive Reached : Json.ParseState → List Json.Token → Prop
  | awaiting (stack : List Json.Frame) (r : Option Json.JsonValue) :
      (∀ f ∈ stack, Awaiting f) → Reached ⟨stack, .beginValue, r⟩ (below stack)
  | emptyArray (fs : List Json.Frame) (r : Option Json.JsonValue) :
      (∀ f ∈ fs, Awaiting f) →
      Reached ⟨.array [] :: fs, .beginValueOrEmpty, r⟩ (below fs ++ [.beginArray])
  | emptyObject (fs : List Json.Frame) (r : Option Json.JsonValue) :
      (∀ f ∈ fs, Awaiting f) →
      Reached ⟨.object [] none :: fs, .beginStringOrEmpty, r⟩ (below fs ++ [.beginObject])
  | nextName (fs : List Json.Frame) (acc : List (String × Json.JsonValue))
      (r : Option Json.JsonValue) :
      (∀ f ∈ fs, Awaiting f) →
      Reached ⟨.object acc none :: fs, .beginString, r⟩
        (below fs ++ .beginObject :: sepMembers acc.reverse)
  | afterElement (fs : List Json.Frame) (acc : List Json.JsonValue) (v : Json.JsonValue)
      (r : Option Json.JsonValue) :
      (∀ f ∈ fs, Awaiting f) →
      Reached ⟨.array (v :: acc) :: fs, .endValue, r⟩
        (below fs ++ .beginArray :: (sepElements acc.reverse ++ tokensOf v))
  | afterName (fs : List Json.Frame) (acc : List (String × Json.JsonValue)) (k : String)
      (r : Option Json.JsonValue) :
      (∀ f ∈ fs, Awaiting f) →
      Reached ⟨.object acc (some k) :: fs, .endValue, r⟩
        (below fs ++ .beginObject :: (sepMembers acc.reverse ++ [.string k]))
  | afterMember (fs : List Json.Frame) (acc : List (String × Json.JsonValue)) (k : String)
      (v : Json.JsonValue) (r : Option Json.JsonValue) :
      (∀ f ∈ fs, Awaiting f) →
      Reached ⟨.object ((k, v) :: acc) none :: fs, .endValue, r⟩
        (below fs ++ .beginObject ::
          (sepMembers acc.reverse ++ .string k :: .colon :: tokensOf v))
  | top (v : Json.JsonValue) : Reached ⟨[], .endTop, some v⟩ (tokensOf v)

/-- What the scanner over tokens does with the tokens of a value where a
value may begin, for values of at most `n` tokens. -/
def ValueStep (n : Nat) : Prop :=
  ∀ v : Json.JsonValue, (tokensOf v).length ≤ n →
    ∀ (stack : List Json.Frame) (ex : Json.Expect) (r : Option Json.JsonValue)
      (rest : List Json.Token),
      (ex = .beginValue ∨ ex = .beginValueOrEmpty) → stack.length ≤ Json.maxNestingDepth →
      Json.parseTokens ⟨stack, ex, r⟩ (tokensOf v ++ rest) =
        if stack.length + depth v ≤ Json.maxNestingDepth then
          (Json.pushValue stack v).bind fun s2 => Json.parseTokens s2 rest
        else none

end Rfc8259

/-! ## Sample payloads -/

/-- A payload with blanks between its tokens and escapes in its strings:
`{ "db_password" : "hunter2" ,` line feed, tab, `"pa\"th" : "C:\\dir\u0041" }`. -/
def spacedPayload : String :=
  "\x7b \"db_password\" : \"hunter2\" ,\n\t\"pa\\\"th\" : \"C:\\\\dir\\u0041\" \x7d"

/-- The members of `spacedPayload`: `db_password` is `hunter2`, and `pa"th`
is `C:\dirA`. -/
def spacedMembers : List (String × String) :=
  [("db_password", "hunter2"), ("pa\"th", "C:\\dirA")]

/-- A payload that repeats a name, `{"a":"1","a":"2"}`. -/
def repeatedPayload : String := "\x7b\"a\":\"1\",\"a\":\"2\"\x7d"

/-- A payload with text after its object, `{"a":"b"} x`. -/
def trailingPayload : String := "\x7b\"a\":\"b\"\x7d x"

/-- A payload whose top-level value is an array, `["a"]`. -/
def arrayPayload : String := "[\"a\"]"

/-! ## Lookup: auxiliary facts -/

theorem aws_getSecretOutput_of_hit (b : Aws.AwsSecretsManagerBackend) (k v : String)
    (h : b.Secret.lookup2 k = (v, true)) :
    Aws.GetSecretOutput b k = { backend := b, output := ⟨some v, none⟩, log := [] } := by
  simp [Aws.GetSecretOutput, h]

theorem aws_getSecretOutput_of_miss (b : Aws.AwsSecretsManagerBackend) (k : String)
    (h : (b.Secret.lookup2 k).2 = false) :
    Aws.GetSecretOutput b k =
      { backend := b, output := ⟨none, some errNoSecretKey⟩, log := [Aws.missRecord b] } := by
  unfold Aws.GetSecretOutput
  cases hl : b.Secret.lookup2 k with
  | mk val ok =>
    rw [hl] at h
    cases ok with
    | false => rfl
    | true => cases h

theorem azure_getSecretOutput_of_hit (b : Azure.AzureKeyVaultBackend) (k v : String)
    (h : b.Secret.lookup2 k = (v, true)) :
    Azure.GetSecretOutput b k = { backend := b, output := ⟨some v, none⟩, log := [] } := by
  simp [Azure.GetSecretOutput, h]

theorem azure_getSecretOutput_of_miss (b : Azure.AzureKeyVaultBackend) (k : String)
    (h : (b.Secret.lookup2 k).2 = false) :
    Azure.GetSecretOutput b k =
      { backend := b, output := ⟨none, some errNoSecretKey⟩,
        log := [Azure.missRecord b k] } := by
  unfold Azure.GetSecretOutput
  cases hl : b.Secret.lookup2 k with
  | mk val ok =>
    rw [hl] at h
    cases ok with
    | false => rfl
    | true => cases h

/-- Every read of a map either finds the key or does not. -/
theorem goMap_lookup2_cases (m : GoMap) (k : String) :
    (∃ v, m.lookup2 k = (v, true)) ∨ (m.lookup2 k).2 = false := by
  cases hl : m.lookup2 k with
  | mk val ok =>
    cases ok with
    | false => exact Or.inr rfl
    | true => exact Or.inl ⟨val, rfl⟩

theorem aws_getSecretOutput_backend (b : Aws.AwsSecretsManagerBackend) (k : String) :
    (Aws.GetSecretOutput b k).backend = b := by
  rcases goMap_lookup2_cases b.Secret k with ⟨v, h⟩ | h
  · rw [aws_getSecretOutput_of_hit b k v h]
  · rw [aws_getSecretOutput_of_miss b k h]

theorem azure_getSecretOutput_backend (b : Azure.AzureKeyVaultBackend) (k : String) :
    (Azure.GetSecretOutput b k).backend = b := by
  rcases goMap_lookup2_cases b.Secret k with ⟨v, h⟩ | h
  · rw [azure_getSecretOutput_of_hit b k v h]
  · rw [azure_getSecretOutput_of_miss b k h]

/-- Repeating a lookup that returns its receiver unchanged gives the same
output every time. -/
theorem repeatLookup_of_frame {β : Type} (get : β → String → LookupResult β) (key : String)
    (b : β) (hframe : (get b key).backend = b) (n : Nat) :
    (repeatLookup get key n b).1 = b ∧
      (repeatLookup get key n b).2.1 = List.replicate n (get b key).output := by
  induction n with
  | zero => exact ⟨rfl, rfl⟩
  | succ n ih =>
    simp only [repeatLookup, hframe, List.replicate_succ]
    exact ⟨ih.1, by rw [ih.2]⟩

/-! ## Lookup: the claims -/

/-- C1: for the AWS and the Azure backend alike, when the key `k` is present
in the parsed `Secret` mapping with value `v`, `GetSecretOutput(k)` returns the
output whose `Value` is present and equal to `v` and whose `Error` is absent. -/
theorem getSecretOutput_present (k v : String) :
    (∀ b : Aws.AwsSecretsManagerBackend, b.Secret.lookup2 k = (v, true) →
        (Aws.GetSecretOutput b k).output = { Value := some v, Error := none }) ∧
    (∀ b : Azure.AzureKeyVaultBackend, b.Secret.lookup2 k = (v, true) →
        (Azure.GetSecretOutput b k).output = { Value := some v, Error := none }) :=
  ⟨fun b h => by rw [aws_getSecretOutput_of_hit b k v h],
   fun b h => by rw [azure_getSecretOutput_of_hit b k v h]⟩

/-- C1 at the sample backends: `db_password` is present with value `hunter2`
and is returned as such. -/
theorem getSecretOutput_present_witness :
    (sampleAws.Secret.lookup2 "db_password" = ("hunter2", true) ∧
      (Aws.GetSecretOutput sampleAws "db_password").output =
        { Value := some "hunter2", Error := none }) ∧
    (sampleAzure.Secret.lookup2 "db_password" = ("hunter2", true) ∧
      (Azure.GetSecretOutput sampleAzure "db_password").output =
        { Value := some "hunter2", Error := none }) :=
  ⟨⟨by decide, (getSecretOutput_present "db_password" "hunter2").1 sampleAws (by decide)⟩,
   ⟨by decide, (getSecretOutput_present "db_password" "hunter2").2 sampleAzure (by decide)⟩⟩

/-- C2: for the AWS and the Azure backend alike, when the key `k` is absent
from the parsed `Secret` mapping, `GetSecretOutput(k)` returns (the lookup is a
total function, there is no fault) the output whose `Value` is absent and whose
`Error` is the string "backend does not provide secret key". -/
theorem getSecretOutput_absent (k : String) :
    (∀ b : Aws.AwsSecretsManagerBackend, (b.Secret.lookup2 k).2 = false →
        (Aws.GetSecretOutput b k).output =
          { Value := none, Error := some "backend does not provide secret key" }) ∧
    (∀ b : Azure.AzureKeyVaultBackend, (b.Secret.lookup2 k).2 = false →
        (Azure.GetSecretOutput b k).output =
          { Value := none, Error := some "backend does not provide secret key" }) :=
  ⟨fun b h => by rw [aws_getSecretOutput_of_miss b k h]; rfl,
   fun b h => by rw [azure_getSecretOutput_of_miss b k h]; rfl⟩

/-- C2 at the sample backends: the key `missing` is absent and the lookup
returns the error output. -/
theorem getSecretOutput_absent_witness :
    ((sampleAws.Secret.lookup2 "missing").2 = false ∧
      (Aws.GetSecretOutput sampleAws "missing").output =
        { Value := none, Error := some "backend does not provide secret key" }) ∧
    ((sampleAzure.Secret.lookup2 "missing").2 = false ∧
      (Azure.GetSecretOutput sampleAzure "missing").output =
        { Value := none, Error := some "backend does not provide secret key" }) :=
  ⟨⟨by decide, (getSecretOutput_absent "missing").1 sampleAws (by decide)⟩,
   ⟨by decide, (getSecretOutput_absent "missing").2 sampleAzure (by decide)⟩⟩

/-- C6: for every backend and every key, present or absent, the output of
`GetSecretOutput` has exactly one of `Value` and `Error` present: they are
never both present and never both absent. -/
theorem getSecretOutput_exactly_one (k : String) :
    (∀ b : Aws.AwsSecretsManagerBackend,
        ¬ ((Aws.GetSecretOutput b k).output.Value.isSome = true ∧
            (Aws.GetSecretOutput b k).output.Error.isSome = true) ∧
        ¬ ((Aws.GetSecretOutput b k).output.Value = none ∧
            (Aws.GetSecretOutput b k).output.Error = none)) ∧
    (∀ b : Azure.AzureKeyVaultBackend,
        ¬ ((Azure.GetSecretOutput b k).output.Value.isSome = true ∧
            (Azure.GetSecretOutput b k).output.Error.isSome = true) ∧
        ¬ ((Azure.GetSecretOutput b k).output.Value = none ∧
            (Azure.GetSecretOutput b k).output.Error = none)) := by
  refine ⟨fun b => ?_, fun b => ?_⟩
  · rcases goMap_lookup2_cases b.Secret k with ⟨v, h⟩ | h
    · rw [aws_getSecretOutput_of_hit b k v h]; simp
    · rw [aws_getSecretOutput_of_miss b k h]; simp
  · rcases goMap_lookup2_cases b.Secret k with ⟨v, h⟩ | h
    · rw [azure_getSecretOutput_of_hit b k v h]; simp
    · rw [azure_getSecretOutput_of_miss b k h]; simp

/-- C7: lookup is read-only and idempotent. For every backend and key, on the
hit and on the miss path, the receiver after `GetSecretOutput` is the receiver
before it (`BackendId`, `Config` and `Secret` included), and `n` calls in a row
with the same key leave the backend unchanged and return `n` times the result
of the first call. -/
theorem getSecretOutput_read_only (k : String) :
    (∀ b : Aws.AwsSecretsManagerBackend,
        (Aws.GetSecretOutput b k).backend = b ∧
        ∀ n : Nat, (repeatLookup Aws.GetSecretOutput k n b).1 = b ∧
          (repeatLookup Aws.GetSecretOutput k n b).2.1 =
            List.replicate n (Aws.GetSecretOutput b k).output) ∧
    (∀ b : Azure.AzureKeyVaultBackend,
        (Azure.GetSecretOutput b k).backend = b ∧
        ∀ n : Nat, (repeatLookup Azure.GetSecretOutput k n b).1 = b ∧
          (repeatLookup Azure.GetSecretOutput k n b).2.1 =
            List.replicate n (Azure.GetSecretOutput b k).output) :=
  ⟨fun b => ⟨aws_getSecretOutput_backend b k,
      repeatLookup_of_frame Aws.GetSecretOutput k b (aws_getSecretOutput_backend b k)⟩,
   fun b => ⟨azure_getSecretOutput_backend b k,
      repeatLookup_of_frame Azure.GetSecretOutput k b (azure_getSecretOutput_backend b k)⟩⟩

/-- C9: lookup never logs secret values. For every two backends that agree on
`BackendId`, on `Config` and on which keys `Secret` holds, whatever the values
stored under those keys, and for every key, `GetSecretOutput` emits the same
records: none on a hit, and on a miss one record whose fields are identifiers
only (`backend_id`, `backend_type`, `secret_id`, and for Azure `keyvaulturl`
and the requested `secret_key`). -/
theorem getSecretOutput_log_independent_of_values (k : String) :
    (∀ b₁ b₂ : Aws.AwsSecretsManagerBackend,
        b₁.BackendId = b₂.BackendId → b₁.Config = b₂.Config →
        (∀ key, (b₁.Secret.lookup2 key).2 = (b₂.Secret.lookup2 key).2) →
        (Aws.GetSecretOutput b₁ k).log = (Aws.GetSecretOutput b₂ k).log ∧
        ((b₁.Secret.lookup2 k).2 = true → (Aws.GetSecretOutput b₁ k).log = []) ∧
        ((b₁.Secret.lookup2 k).2 = false → (Aws.GetSecretOutput b₁ k).log =
          [{ fields := [("backend_id", b₁.BackendId),
                        ("backend_type", b₁.Config.index "backend_type"),
                        ("secret_id", b₁.Config.index "secret_id")],
             err := none, level := "error",
             msg := "backend does not provide secret key" }])) ∧
    (∀ b₁ b₂ : Azure.AzureKeyVaultBackend,
        b₁.BackendId = b₂.BackendId → b₁.Config = b₂.Config →
        (∀ key, (b₁.Secret.lookup2 key).2 = (b₂.Secret.lookup2 key).2) →
        (Azure.GetSecretOutput b₁ k).log = (Azure.GetSecretOutput b₂ k).log ∧
        ((b₁.Secret.lookup2 k).2 = true → (Azure.GetSecretOutput b₁ k).log = []) ∧
        ((b₁.Secret.lookup2 k).2 = false → (Azure.GetSecretOutput b₁ k).log =
          [{ fields := [("backend_id", b₁.BackendId),
                        ("backend_type", b₁.Config.BackendType),
                        ("secret_id", b₁.Config.SecretId),
                        ("keyvaulturl", b₁.Config.KeyVaultURL),
                        ("secret_key", k)],
             err := none, level := "error",
             msg := "backend does not provide secret key" }])) := by
  refine ⟨fun b₁ b₂ hid hcfg hkeys => ?_, fun b₁ b₂ hid hcfg hkeys => ?_⟩
  · have hk := hkeys k
    rcases goMap_lookup2_cases b₁.Secret k with ⟨v₁, h₁⟩ | h₁
    · rcases goMap_lookup2_cases b₂.Secret k with ⟨v₂, h₂⟩ | h₂
      · rw [aws_getSecretOutput_of_hit b₁ k v₁ h₁, aws_getSecretOutput_of_hit b₂ k v₂ h₂]
        simp [h₁]
      · rw [h₁, h₂] at hk; cases hk
    · have h₂ : (b₂.Secret.lookup2 k).2 = false := by rw [← hk]; exact h₁
      rw [aws_getSecretOutput_of_miss b₁ k h₁, aws_getSecretOutput_of_miss b₂ k h₂]
      simp [h₁, Aws.missRecord, hid, hcfg]
  · have hk := hkeys k
    rcases goMap_lookup2_cases b₁.Secret k with ⟨v₁, h₁⟩ | h₁
    · rcases goMap_lookup2_cases b₂.Secret k with ⟨v₂, h₂⟩ | h₂
      · rw [azure_getSecretOutput_of_hit b₁ k v₁ h₁, azure_getSecretOutput_of_hit b₂ k v₂ h₂]
        simp [h₁]
      · rw [h₁, h₂] at hk; cases hk
    · have h₂ : (b₂.Secret.lookup2 k).2 = false := by rw [← hk]; exact h₁
      rw [azure_getSecretOutput_of_miss b₁ k h₁, azure_getSecretOutput_of_miss b₂ k h₂]
      simp [h₁, Azure.missRecord, hid, hcfg]

/-- The two sample backends of a provider hold the same keys. -/
theorem sample_same_keys :
    (∀ key, (sampleAws.Secret.lookup2 key).2 = (sampleAwsOther.Secret.lookup2 key).2) ∧
    (∀ key, (sampleAzure.Secret.lookup2 key).2 = (sampleAzureOther.Secret.lookup2 key).2) := by
  constructor <;> intro key <;>
    by_cases h : "db_password" = key <;>
    simp [sampleAws, sampleAwsOther, sampleAzure, sampleAzureOther, GoMap.lookup2, GoMap.find, h]

/-- C9 at the sample backends, which differ only in the value stored under
`db_password`: a lookup of `db_password` and a lookup of `missing` log the same
records on both. -/
theorem getSecretOutput_log_independent_of_values_witness :
    sampleAws.Secret ≠ sampleAwsOther.Secret ∧ sampleAzure.Secret ≠ sampleAzureOther.Secret ∧
    (Aws.GetSecretOutput sampleAws "db_password").log =
      (Aws.GetSecretOutput sampleAwsOther "db_password").log ∧
    (Aws.GetSecretOutput sampleAws "missing").log =
      (Aws.GetSecretOutput sampleAwsOther "missing").log ∧
    (Azure.GetSecretOutput sampleAzure "db_password").log =
      (Azure.GetSecretOutput sampleAzureOther "db_password").log ∧
    (Azure.GetSecretOutput sampleAzure "missing").log =
      (Azure.GetSecretOutput sampleAzureOther "missing").log :=
  ⟨by decide, by decide,
   ((getSecretOutput_log_independent_of_values "db_password").1 sampleAws sampleAwsOther
      rfl rfl sample_same_keys.1).1,
   ((getSecretOutput_log_independent_of_values "missing").1 sampleAws sampleAwsOther
      rfl rfl sample_same_keys.1).1,
   ((getSecretOutput_log_independent_of_values "db_password").2 sampleAzure sampleAzureOther
      rfl rfl sample_same_keys.2).1,
   ((getSecretOutput_log_independent_of_values "missing").2 sampleAzure sampleAzureOther
      rfl rfl sample_same_keys.2).1⟩


/-! ## Decoding: auxiliary facts -/

theorem goMap_find_put (k v k' : String) (l : List (String × String)) :
    GoMap.find k' (GoMap.put k v l) = if k = k' then (v, true) else GoMap.find k' l := by
  induction l with
  | nil => simp [GoMap.put, GoMap.find]
  | cons p rest ih =>
    obtain ⟨a, b⟩ := p
    by_cases hak : a = k
    · subst hak
      by_cases hk : a = k' <;> simp [GoMap.put, GoMap.find, hk]
    · simp only [GoMap.put, if_neg hak, GoMap.find]
      by_cases hak' : a = k'
      · have hk : ¬ k = k' := fun h => hak (hak'.trans h.symm)
        simp [hak', hk]
      · simp [hak', ih]

theorem goMap_lookup2_store (m : GoMap) (k v k' : String) :
    (m.store k v).lookup2 k' = if k = k' then (v, true) else m.lookup2 k' := by
  simp [GoMap.store, GoMap.lookup2, goMap_find_put]

/-- Decoding an object of string members stores them one after the other and
saves no error. -/
theorem decodeMembers_flat (ms : List (String × String)) (m : GoMap) (saved : Option Error) :
    Json.decodeMembers (ms.map fun p => (p.1, Json.JsonValue.string p.2)) m saved =
      (ms.foldl (fun acc p => acc.store p.1 p.2) m, saved) := by
  induction ms generalizing m with
  | nil => rfl
  | cons p rest ih => simp [Json.decodeMembers, Json.decodeElem, ih]

/-- A read of the map filled from a flat document finds the value of the last
member of that name, or what the map held before. -/
theorem lookup2_foldl_store (ms : List (String × String)) (m : GoMap) (k : String) :
    (ms.foldl (fun acc p => acc.store p.1 p.2) m).lookup2 k =
      match memberValue k ms with
      | some v => (v, true)
      | none => m.lookup2 k := by
  induction ms generalizing m with
  | nil => rfl
  | cons p rest ih =>
    obtain ⟨a, b⟩ := p
    simp only [List.foldl_cons, memberValue]
    rw [ih]
    cases hmv : memberValue k rest with
    | some w => rfl
    | none =>
      by_cases hak : a = k <;> simp [goMap_lookup2_store, hak]

/-- A name that occurs in a flat document with one value only is given that value. -/
theorem memberValue_of_mem (k v : String) (ms : List (String × String))
    (hmem : (k, v) ∈ ms) (huniq : ∀ v', (k, v') ∈ ms → v' = v) :
    memberValue k ms = some v := by
  induction ms with
  | nil => cases hmem
  | cons p rest ih =>
    obtain ⟨a, b⟩ := p
    simp only [memberValue]
    by_cases hin : (k, v) ∈ rest
    · rw [ih hin (fun v' h => huniq v' (List.mem_cons_of_mem _ h))]
    · have hab : (k, v) = (a, b) := by
        rcases List.mem_cons.mp hmem with h | h
        · exact h
        · exact absurd h hin
      cases hab
      cases hmv : memberValue k rest with
      | none => simp
      | some w =>
        have : ∀ (l : List (String × String)) (w : String), memberValue k l = some w →
            (k, w) ∈ l := by
          intro l
          induction l with
          | nil => intro w h; cases h
          | cons q tl ihl =>
            obtain ⟨c, d⟩ := q
            intro w h
            simp only [memberValue] at h
            cases hq : memberValue k tl with
            | some x =>
              rw [hq] at h
              have hx : x = w := Option.some.inj h
              subst hx
              exact List.mem_cons_of_mem _ (ihl x hq)
            | none =>
              rw [hq] at h
              by_cases hc : c = k
              · subst hc
                simp at h
                subst h
                exact List.mem_cons_self _ _
              · simp [hc] at h
        have hw := huniq w (List.mem_cons_of_mem _ (this rest w hmv))
        simp [hw]

/-- The payload of a flat document of strings is unmarshalled without error
into the map of its members. -/
theorem unmarshal_flat (data : String) (ms : List (String × String))
    (h : Json.parse data.toList = some (flatObject ms)) :
    Json.Unmarshal data GoMap.empty =
      (ms.foldl (fun acc p => acc.store p.1 p.2) GoMap.empty, none) := by
  unfold Json.Unmarshal
  rw [h]
  simp only [flatObject, Json.decodeMap, decodeMembers_flat]


/-! ## Construction: auxiliary facts -/

/-- The AWS constructor once the session and the fetch have succeeded with a
string payload: the outcome is decided by `json.Unmarshal`. -/
theorem aws_new_of_payload (env : Aws.Env) (backendId : String) (backendConfig : GoMap)
    (cfg : Aws.AwsConfig) (secretString : String)
    (hs : env.NewAwsConfigFromBackendConfig backendId backendConfig = .ok cfg)
    (hf : env.GetSecretValue ⟨cfg⟩ (backendConfig.index "secret_id") =
      .ok ⟨some secretString⟩) :
    Aws.NewAwsSecretsManagerBackend env backendId backendConfig =
      match Json.Unmarshal secretString GoMap.empty with
      | (_, some err) =>
        (.ret none (some err),
          [{ fields := Aws.failureFields backendId backendConfig, err := some err,
             level := "error", msg := "failed to retrieve secret value" }])
      | (secretValue, none) =>
        (.ret (some { BackendId := backendId, Client := ⟨cfg⟩, Config := backendConfig,
                      Secret := secretValue }) none, []) := by
  simp only [Aws.NewAwsSecretsManagerBackend, hs, hf]

/-- The Azure constructor once the decoding, the session and the fetch have
succeeded with a string payload: the outcome is decided by `json.Unmarshal`. -/
theorem azure_new_of_payload (env : Azure.Env) (backendId : String)
    (bc : List (String × Azure.RawValue)) (backendConfig : Azure.AzureKeyVaultBackendConfig)
    (cfg : Azure.Authorizer) (value : String)
    (hd : env.Decode bc .zero = .ok backendConfig)
    (hs : env.NewAzureConfigFromBackendConfig backendId backendConfig.AzureSession = .ok cfg)
    (hf : env.GetSecret cfg backendConfig.KeyVaultURL backendConfig.SecretId "latest" =
      .ok ⟨some value⟩) :
    Azure.NewAzureKeyVaultBackend env backendId bc =
      match Json.Unmarshal value GoMap.empty with
      | (_, some err) =>
        (.ret none (some err),
          [{ fields := Azure.failureFields backendId backendConfig, err := some err,
             level := "error", msg := "failed to retrieve secret value" }])
      | (secretValue, none) =>
        (.ret (some { BackendId := backendId, Config := backendConfig,
                      Secret := secretValue }) none, []) := by
  simp only [Azure.NewAzureKeyVaultBackend, hd, hs, hf]

/-- A lookup in a map filled from a flat document returns the value the
document gives to the name. -/
theorem lookup2_of_memberValue (ms : List (String × String)) (k v : String)
    (h : memberValue k ms = some v) :
    (ms.foldl (fun acc p => acc.store p.1 p.2) GoMap.empty).lookup2 k = (v, true) := by
  rw [lookup2_foldl_store, h]

/-! ## Writing and scanning -/

theorem lexFrom_cons_silent (s s2 : Json.LexState) (ch : Char) (rest : List Char)
    (h : Json.lexStep s ch = some (s2, [])) :
    Json.lexFrom s (ch :: rest) = Json.lexFrom s2 rest := by
  simp only [Json.lexFrom, h]
  cases Json.lexFrom s2 rest <;> rfl

theorem lexFrom_cons_emit (s s2 : Json.LexState) (ch : Char) (rest : List Char)
    (t : Json.Token) (h : Json.lexStep s ch = some (s2, [t])) :
    Json.lexFrom s (ch :: rest) = (Json.lexFrom s2 rest).map (t :: ·) := by
  simp only [Json.lexFrom, h]
  cases Json.lexFrom s2 rest <;> rfl

theorem hexVal_hexDigit (d : Nat) (h : d < 16) :
    Json.hexVal (hexDigit d).toNat = some d := by
  interval_cases d <;> rfl

theorem lexStep_backslash (acc : List Json.StrUnit) :
    Json.lexStep (.inString acc) (Char.ofNat 92) = some (.inStringEsc acc, []) := rfl

theorem lexStep_escaped_quote (acc : List Json.StrUnit) :
    Json.lexStep (.inStringEsc acc) (Char.ofNat 34) =
      some (.inString (.chr (Char.ofNat 34) :: acc), []) := rfl

theorem lexStep_escaped_backslash (acc : List Json.StrUnit) :
    Json.lexStep (.inStringEsc acc) (Char.ofNat 92) =
      some (.inString (.chr (Char.ofNat 92) :: acc), []) := rfl

theorem lexStep_escaped_u (acc : List Json.StrUnit) :
    Json.lexStep (.inStringEsc acc) (Char.ofNat 117) = some (.inStringEscU acc [], []) := rfl

theorem lexStep_hex_zero_first (acc : List Json.StrUnit) :
    Json.lexStep (.inStringEscU acc []) (Char.ofNat 48) =
      some (.inStringEscU acc [0], []) := rfl

theorem lexStep_hex_zero_second (acc : List Json.StrUnit) :
    Json.lexStep (.inStringEscU acc [0]) (Char.ofNat 48) =
      some (.inStringEscU acc [0, 0], []) := rfl

theorem lexStep_hex_third (acc : List Json.StrUnit) (d : Nat) (hd : d < 16) :
    Json.lexStep (.inStringEscU acc [0, 0]) (hexDigit d) =
      some (.inStringEscU acc [0, 0, d], []) := by
  simp [Json.lexStep, hexVal_hexDigit d hd]

theorem lexStep_hex_fourth (acc : List Json.StrUnit) (a d : Nat) (hd : d < 16) :
    Json.lexStep (.inStringEscU acc [0, 0, a]) (hexDigit d) =
      some (.inString (.u16 (a * 16 + d) :: acc), []) := by
  simp [Json.lexStep, hexVal_hexDigit d hd, Json.hex4]

/-- The scanner reads `\u00XX` as the code unit `XX`. -/
theorem lexFrom_control (n : Nat) (hn : n < 32) (acc : List Json.StrUnit)
    (rest : List Char) :
    Json.lexFrom (.inString acc)
        (Char.ofNat 92 :: Char.ofNat 117 :: Char.ofNat 48 :: Char.ofNat 48 ::
          hexDigit (n / 16) :: hexDigit (n % 16) :: rest) =
      Json.lexFrom (.inString (.u16 n :: acc)) rest := by
  rw [lexFrom_cons_silent _ _ _ _ (lexStep_backslash acc),
    lexFrom_cons_silent _ _ _ _ (lexStep_escaped_u acc),
    lexFrom_cons_silent _ _ _ _ (lexStep_hex_zero_first acc),
    lexFrom_cons_silent _ _ _ _ (lexStep_hex_zero_second acc),
    lexFrom_cons_silent _ _ _ _ (lexStep_hex_third acc (n / 16) (by omega)),
    lexFrom_cons_silent _ _ _ _
      (lexStep_hex_fourth acc (n / 16) (n % 16) (Nat.mod_lt _ (by decide)))]
  have h : n / 16 * 16 + n % 16 = n := by omega
  rw [h]

/-- The unit the scanner collects for a character written by `escapeChar`. -/
theorem lexFrom_escapeChar (c : Char) (acc : List Json.StrUnit) (rest : List Char) :
    Json.lexFrom (.inString acc) (escapeChar c ++ rest) =
      Json.lexFrom
        (.inString ((if c.toNat < 32 then Json.StrUnit.u16 c.toNat else .chr c) :: acc))
        rest := by
  unfold escapeChar
  by_cases h34 : c.toNat = 34
  · have hc : c = Char.ofNat 34 := by rw [← h34, Char.ofNat_toNat]
    subst hc
    simp only [if_pos h34]
    rw [List.cons_append, List.cons_append, List.nil_append,
      lexFrom_cons_silent _ _ _ _ (lexStep_backslash acc),
      lexFrom_cons_silent _ _ _ _ (lexStep_escaped_quote acc)]
    rfl
  · by_cases h92 : c.toNat = 92
    · have hc : c = Char.ofNat 92 := by rw [← h92, Char.ofNat_toNat]
      subst hc
      simp only [if_neg h34, if_pos h92]
      rw [List.cons_append, List.cons_append, List.nil_append,
        lexFrom_cons_silent _ _ _ _ (lexStep_backslash acc),
        lexFrom_cons_silent _ _ _ _ (lexStep_escaped_backslash acc)]
      rfl
    · by_cases h32 : c.toNat < 32
      · simp only [if_neg h34, if_neg h92, if_pos h32]
        exact lexFrom_control c.toNat h32 acc rest
      · simp only [if_neg h34, if_neg h92, if_neg h32]
        have hstep : Json.lexStep (.inString acc) c =
            some (.inString (.chr c :: acc), []) := by
          simp [Json.lexStep, h34, h92, h32]
        rw [List.cons_append, List.nil_append, lexFrom_cons_silent _ _ _ _ hstep]

theorem lexFrom_escaped (cs : List Char) (acc : List Json.StrUnit) (rest : List Char) :
    Json.lexFrom (.inString acc) (cs.flatMap escapeChar ++ rest) =
      Json.lexFrom (.inString ((cs.map unitOf).reverse ++ acc)) rest := by
  induction cs generalizing acc with
  | nil => rfl
  | cons c cs ih =>
    rw [List.flatMap_cons, List.append_assoc, lexFrom_escapeChar, ih]
    simp [unitOf]

theorem unquoteUnits_u16 (a : Nat) (rest : List Json.StrUnit)
    (h : Json.isSurrogate a = false) :
    Json.unquoteUnits (.u16 a :: rest) = Char.ofNat a :: Json.unquoteUnits rest := by
  rw [Json.unquoteUnits.eq_def]
  simp [h]

/-- Unquoting the units of an escaped string gives the string back. -/
theorem unquoteUnits_unitOf (cs : List Char) :
    Json.unquoteUnits (cs.map unitOf) = cs := by
  induction cs with
  | nil => rfl
  | cons c cs ih =>
    by_cases h : c.toNat < 32
    · have hs : Json.isSurrogate c.toNat = false := by
        simp [Json.isSurrogate]; omega
      rw [List.map_cons, unitOf, if_pos h, unquoteUnits_u16 _ _ hs, ih, Char.ofNat_toNat]
    · rw [List.map_cons, unitOf, if_neg h, Json.unquoteUnits, ih]

theorem lexStep_open_quote :
    Json.lexStep .start (Char.ofNat 34) = some (.inString [], []) := rfl

theorem lexStep_close_quote (acc : List Json.StrUnit) :
    Json.lexStep (.inString acc) (Char.ofNat 34) =
      some (.start, [.string (Json.unquote acc)]) := rfl

/-- The scanner reads the literal written for `s` as the string `s`. -/
theorem lexFrom_quoteString (s : String) (rest : List Char) :
    Json.lexFrom .start (quoteString s ++ rest) =
      (Json.lexFrom .start rest).map (Json.Token.string s :: ·) := by
  unfold quoteString
  rw [List.cons_append, List.append_assoc, lexFrom_cons_silent _ _ _ _ lexStep_open_quote,
    lexFrom_escaped, List.singleton_append,
    lexFrom_cons_emit _ _ _ _ _ (lexStep_close_quote _)]
  simp [Json.unquote, unquoteUnits_unitOf]

theorem lexFrom_colon (rest : List Char) :
    Json.lexFrom .start (Char.ofNat 58 :: rest) =
      (Json.lexFrom .start rest).map (Json.Token.colon :: ·) :=
  lexFrom_cons_emit _ _ _ _ _ rfl

theorem lexFrom_comma (rest : List Char) :
    Json.lexFrom .start (Char.ofNat 44 :: rest) =
      (Json.lexFrom .start rest).map (Json.Token.comma :: ·) :=
  lexFrom_cons_emit _ _ _ _ _ rfl

theorem lexFrom_open_brace (rest : List Char) :
    Json.lexFrom .start (Char.ofNat 123 :: rest) =
      (Json.lexFrom .start rest).map (Json.Token.beginObject :: ·) :=
  lexFrom_cons_emit _ _ _ _ _ rfl

theorem lexFrom_close_brace :
    Json.lexFrom .start [Char.ofNat 125] = some [Json.Token.endObject] := rfl

theorem lexFrom_renderMember (p : String × String) (rest : List Char) :
    Json.lexFrom .start (renderMember p ++ rest) =
      (Json.lexFrom .start rest).map (memberTokens p ++ ·) := by
  unfold renderMember
  rw [List.append_assoc, lexFrom_quoteString, List.cons_append, lexFrom_colon,
    lexFrom_quoteString]
  cases Json.lexFrom .start rest <;> rfl

theorem lexFrom_renderRest (ms : List (String × String)) (rest : List Char) :
    Json.lexFrom .start (renderRest ms ++ rest) =
      (Json.lexFrom .start rest).map (restTokens ms ++ ·) := by
  induction ms with
  | nil => cases h : Json.lexFrom .start rest <;> simp [renderRest, restTokens, h]
  | cons p ms ih =>
    rw [renderRest, List.cons_append, lexFrom_comma, List.append_assoc, lexFrom_renderMember, ih]
    cases Json.lexFrom .start rest <;> simp [restTokens]

/-- The tokens of the text of a flat document. -/
theorem lex_renderDocument (ms : List (String × String)) :
    Json.lex (renderDocument ms).toList = some (documentTokens ms) := by
  cases ms with
  | nil => rfl
  | cons p ms =>
    simp only [renderDocument, String.toList, Json.lex]
    rw [lexFrom_open_brace, lexFrom_renderMember, lexFrom_renderRest, lexFrom_close_brace]
    simp [documentTokens]

/-- The scanner over the tokens of the members after the first, up to the
closing brace. -/
theorem parseTokens_restTokens (ms : List (String × String))
    (acc : List (String × Json.JsonValue)) :
    Json.parseTokens { stack := [.object acc none], expect := .endValue, result := none }
        (restTokens ms ++ [.endObject]) =
      some (.object (acc.reverse ++ ms.map fun p => (p.1, Json.JsonValue.string p.2))) := by
  induction ms generalizing acc with
  | nil => simp [restTokens, Json.parseTokens, Json.parseStep, Json.endValue, Json.pushValue]
  | cons p ms ih =>
    obtain ⟨k, v⟩ := p
    simp only [restTokens, memberTokens, List.cons_append, List.nil_append, Json.parseTokens,
      Json.parseStep, Json.endValue, Json.beginString, Json.beginValue, Json.pushValue]
    have h := ih ((k, Json.JsonValue.string v) :: acc)
    simpa using h

/-- The scanner over the tokens of the text of a flat document. -/
theorem parseTokens_documentTokens (ms : List (String × String)) :
    Json.parseTokens { stack := [], expect := .beginValue, result := none }
        (documentTokens ms) = some (flatObject ms) := by
  cases ms with
  | nil => rfl
  | cons p ms =>
    obtain ⟨k, v⟩ := p
    simp only [documentTokens, memberTokens, List.cons_append, List.nil_append,
      Json.parseTokens, Json.parseStep, Json.endValue, Json.beginString, Json.beginValue,
      Json.pushValue, Json.maxNestingDepth, List.length_nil]
    simp only [Nat.zero_add, Nat.one_le_ofNat, if_true]
    have h := parseTokens_restTokens ms [(k, Json.JsonValue.string v)]
    simpa [flatObject] using h

/-- Every flat document has a payload: its compact JSON text scans as the
flat object of its members, whatever characters the names and values hold. -/
theorem parse_renderDocument (ms : List (String × String)) :
    Json.parse (renderDocument ms).toList = some (flatObject ms) := by
  rw [Json.parse, lex_renderDocument]
  exact parseTokens_documentTokens ms

/-! ## Numbers: the scanner and the grammar -/

namespace Rfc8259

theorem isDigit_of (c : Char) (h : IsDigit c) : Json.isDigit c.toNat = true := by
  simp [Json.isDigit, h.1, h.2]

theorem of_isDigit (c : Char) (h : Json.isDigit c.toNat = true) : IsDigit c := by
  simpa [Json.isDigit, IsDigit] using h

theorem intPart_ne_nil (i : List Char) (h : IntPart i) : i ≠ [] := by
  cases h <;> simp

/-- From a text that completes a number, the scanner takes the first
character and what follows completes the number from the next state. -/
theorem numStep_of_numTail (st : Json.NumState) (c : Char) (t : List Char)
    (h : NumTail st (c :: t)) :
    ∃ st2, Json.numStep st c.toNat = some st2 ∧ NumTail st2 t := by
  have expCase : ∀ e : List Char, ExpOpt e → e = c :: t →
      (c.toNat = 0x65 ∨ c.toNat = 0x45) ∧ NumTail .e t := by
    intro e he heq
    cases he with
    | absent => cases heq
    | unsigned e' ds hE hds =>
      injection heq with h1 h2
      subst h1; subst h2
      exact ⟨hE, Or.inl hds⟩
    | signed e' s ds hE hs hds =>
      injection heq with h1 h2
      subst h1; subst h2
      exact ⟨hE, Or.inr ⟨s, ds, hs, hds, rfl⟩⟩
  have fracExpCase : ∀ f e : List Char, FracOpt f → ExpOpt e → c :: t = f ++ e →
      (c.toNat = 0x2E ∧ NumTail .dot t) ∨ ((c.toNat = 0x65 ∨ c.toNat = 0x45) ∧ NumTail .e t) := by
    intro f e hf he heq
    cases hf with
    | absent => exact Or.inr (expCase e he (by simpa using heq.symm))
    | present ds hds =>
      injection heq with h1 h2
      subst h1
      exact Or.inl ⟨rfl, ds, e, hds, he, h2⟩
  cases st with
  | e0 =>
    have hc : IsDigit c := h c (List.mem_cons_self _ _)
    refine ⟨.e0, ?_, fun x hx => h x (List.mem_cons_of_mem _ hx)⟩
    simp [Json.numStep, isDigit_of c hc]
  | eSign =>
    have hc : IsDigit c := h.2 c (List.mem_cons_self _ _)
    refine ⟨.e0, ?_, fun x hx => h.2 x (List.mem_cons_of_mem _ hx)⟩
    simp [Json.numStep, isDigit_of c hc]
  | e =>
    rcases h with h | ⟨s, ds, hs, hds, heq⟩
    · have hc : IsDigit c := h.2 c (List.mem_cons_self _ _)
      refine ⟨.e0, ?_, fun x hx => h.2 x (List.mem_cons_of_mem _ hx)⟩
      have h1 : c.toNat ≠ 43 := by have := hc.1; omega
      have h2 : c.toNat ≠ 45 := by have := hc.1; omega
      simp [Json.numStep, isDigit_of c hc, h1, h2]
    · injection heq with h1 h2
      subst h1; subst h2
      refine ⟨.eSign, ?_, hds⟩
      rcases hs with hs | hs <;> simp [Json.numStep, hs]
  | dot0 =>
    obtain ⟨ds, e, hds, he, heq⟩ := h
    rcases List.cons_eq_append_iff.mp heq with ⟨h1, h2⟩ | ⟨ds', h1, h2⟩
    · obtain ⟨hE, htail⟩ := expCase e he h2
      refine ⟨.e, ?_, htail⟩
      rcases hE with hE | hE <;> simp [Json.numStep, Json.isDigit, hE]
    · subst h1
      have hc : IsDigit c := hds c (List.mem_cons_self _ _)
      refine ⟨.dot0, ?_, ds', e, fun x hx => hds x (List.mem_cons_of_mem _ hx), he, h2⟩
      simp [Json.numStep, isDigit_of c hc]
  | dot =>
    obtain ⟨ds, e, hds, he, heq⟩ := h
    rcases List.cons_eq_append_iff.mp heq with ⟨h1, _⟩ | ⟨ds', h1, h2⟩
    · exact absurd h1 hds.1
    · subst h1
      have hc : IsDigit c := hds.2 c (List.mem_cons_self _ _)
      refine ⟨.dot0, ?_, ds', e, fun x hx => hds.2 x (List.mem_cons_of_mem _ hx), he, h2⟩
      simp [Json.numStep, isDigit_of c hc]
  | int =>
    obtain ⟨ds, f, e, hds, hf, he, heq⟩ := h
    rcases List.cons_eq_append_iff.mp heq with ⟨h1, h2⟩ | ⟨ds', h1, h2⟩
    · rcases fracExpCase f e hf he h2.symm with ⟨hc, htail⟩ | ⟨hE, htail⟩
      · exact ⟨.dot, by simp [Json.numStep, Json.isDigit, hc], htail⟩
      · refine ⟨.e, ?_, htail⟩
        rcases hE with hE | hE <;> simp [Json.numStep, Json.isDigit, hE]
    · subst h1
      have hc : IsDigit c := hds c (List.mem_cons_self _ _)
      refine ⟨.int, ?_, ds', f, e, fun x hx => hds x (List.mem_cons_of_mem _ hx), hf, he, h2⟩
      simp [Json.numStep, isDigit_of c hc]
  | zero =>
    obtain ⟨f, e, hf, he, heq⟩ := h
    rcases fracExpCase f e hf he heq with ⟨hc, htail⟩ | ⟨hE, htail⟩
    · exact ⟨.dot, by simp [Json.numStep, hc], htail⟩
    · refine ⟨.e, ?_, htail⟩
      rcases hE with hE | hE <;> simp [Json.numStep, hE]
  | neg =>
    obtain ⟨i, f, e, hi, hf, he, heq⟩ := h
    cases hi with
    | zero =>
      injection heq with h1 h2
      subst h1
      exact ⟨.zero, rfl, f, e, hf, he, by simpa using h2⟩
    | digits d ds hd hds =>
      injection heq with h1 h2
      subst h1
      refine ⟨.int, ?_, ds, f, e, hds, hf, he, h2⟩
      have h48 : c.toNat ≠ 48 := by have := hd.1; omega
      simp [Json.numStep, h48, hd.1, hd.2]

/-- A text that completes a number may be empty only in a state in which the
scanner lets a number end. -/
theorem numFinal_of_numTail_nil (st : Json.NumState) (h : NumTail st []) :
    Json.numFinal st = true := by
  cases st with
  | neg =>
    obtain ⟨i, f, e, hi, _, _, heq⟩ := h
    have := intPart_ne_nil i hi
    cases i with
    | nil => exact absurd rfl this
    | cons a b => cases heq
  | zero => rfl
  | int => rfl
  | dot =>
    obtain ⟨ds, e, hds, _, heq⟩ := h
    cases ds with
    | nil => exact absurd rfl hds.1
    | cons a b => cases heq
  | dot0 => rfl
  | e =>
    rcases h with h | ⟨s, ds, _, _, heq⟩
    · exact absurd rfl h.1
    · cases heq
  | eSign => exact absurd rfl h.1
  | e0 => rfl

end Rfc8259

namespace Rfc8259

theorem digitStar_nil : DigitStar [] := by
  intro c hc
  cases hc

theorem digitStar_cons (c : Char) (t : List Char) (hc : IsDigit c) (ht : DigitStar t) :
    DigitStar (c :: t) := by
  intro x hx
  rcases List.mem_cons.mp hx with h | h
  · exact h ▸ hc
  · exact ht x h

theorem digitPlus_cons (c : Char) (t : List Char) (hc : IsDigit c) (ht : DigitStar t) :
    DigitPlus (c :: t) :=
  ⟨by simp, digitStar_cons c t hc ht⟩

/-- The exponent that the scanner reads after `e` or `E`. -/
theorem expOpt_of_numTail_e (c : Char) (t : List Char) (hE : c.toNat = 0x65 ∨ c.toNat = 0x45)
    (h : NumTail .e t) : ExpOpt (c :: t) := by
  rcases h with h | ⟨s, ds, hs, hds, heq⟩
  · exact ExpOpt.unsigned c t hE h
  · subst heq
    exact ExpOpt.signed c s ds hE hs hds

/-- In a state in which the scanner lets a number end, nothing need follow. -/
theorem numTail_nil_of_numFinal (st : Json.NumState) (h : Json.numFinal st = true) :
    NumTail st [] := by
  cases st with
  | neg => cases h
  | zero => exact ⟨[], [], FracOpt.absent, ExpOpt.absent, rfl⟩
  | int => exact ⟨[], [], [], digitStar_nil, FracOpt.absent, ExpOpt.absent, rfl⟩
  | dot => cases h
  | dot0 => exact ⟨[], [], digitStar_nil, ExpOpt.absent, rfl⟩
  | e => cases h
  | eSign => cases h
  | e0 => exact digitStar_nil

/-- A character the scanner takes inside a number, followed by a text that
completes the number from the next state, completes it from this state. -/
theorem numTail_cons_of_numStep (st st2 : Json.NumState) (c : Char) (t : List Char)
    (hstep : Json.numStep st c.toNat = some st2) (h : NumTail st2 t) :
    NumTail st (c :: t) := by
  have hdot : c.toNat = 46 → c = Char.ofNat 0x2E := fun h => by rw [← h, Char.ofNat_toNat]
  cases st with
  | neg =>
    simp only [Json.numStep] at hstep
    by_cases h0 : c.toNat = 48
    · simp [h0] at hstep
      subst hstep
      obtain ⟨f, e, hf, he, heq⟩ := h
      have hc : c = Char.ofNat 0x30 := by rw [← h0, Char.ofNat_toNat]
      exact ⟨[c], f, e, hc ▸ IntPart.zero, hf, he, by simp [heq]⟩
    · by_cases h19 : 49 ≤ c.toNat ∧ c.toNat ≤ 57
      · simp [h0, h19.1, h19.2] at hstep
        subst hstep
        obtain ⟨ds, f, e, hds, hf, he, heq⟩ := h
        exact ⟨c :: ds, f, e, IntPart.digits c ds h19 hds, hf, he, by simp [heq]⟩
      · simp [h0] at hstep
        exact absurd ⟨hstep.1.1, hstep.1.2⟩ h19
  | zero =>
    simp only [Json.numStep] at hstep
    by_cases hd : c.toNat = 46
    · simp [hd] at hstep
      subst hstep
      obtain ⟨ds, e, hds, he, heq⟩ := h
      exact ⟨c :: ds, e, hdot hd ▸ FracOpt.present ds hds, he, by simp [heq]⟩
    · by_cases hE : c.toNat = 101 ∨ c.toNat = 69
      · simp [hd, hE] at hstep
        subst hstep
        exact ⟨[], c :: t, FracOpt.absent, expOpt_of_numTail_e c t hE h, rfl⟩
      · simp [hd] at hstep
        exact absurd hstep.1 hE
  | int =>
    simp only [Json.numStep] at hstep
    by_cases hdg : Json.isDigit c.toNat = true
    · simp [hdg] at hstep
      subst hstep
      obtain ⟨ds, f, e, hds, hf, he, heq⟩ := h
      exact ⟨c :: ds, f, e, digitStar_cons c ds (of_isDigit c hdg) hds, hf, he, by simp [heq]⟩
    · by_cases hd : c.toNat = 46
      · simp [Json.isDigit, hd] at hstep
        subst hstep
        obtain ⟨ds, e, hds, he, heq⟩ := h
        exact ⟨[], c :: ds, e, digitStar_nil, hdot hd ▸ FracOpt.present ds hds, he,
          by simp [heq]⟩
      · by_cases hE : c.toNat = 101 ∨ c.toNat = 69
        · simp [hdg, hd, hE] at hstep
          subst hstep
          exact ⟨[], [], c :: t, digitStar_nil, FracOpt.absent,
            expOpt_of_numTail_e c t hE h, rfl⟩
        · simp [hdg, hd] at hstep
          exact absurd hstep.1 hE
  | dot =>
    simp only [Json.numStep] at hstep
    by_cases hdg : Json.isDigit c.toNat = true
    · simp [hdg] at hstep
      subst hstep
      obtain ⟨ds, e, hds, he, heq⟩ := h
      exact ⟨c :: ds, e, digitPlus_cons c ds (of_isDigit c hdg) hds, he, by simp [heq]⟩
    · simp [hdg] at hstep
  | dot0 =>
    simp only [Json.numStep] at hstep
    by_cases hdg : Json.isDigit c.toNat = true
    · simp [hdg] at hstep
      subst hstep
      obtain ⟨ds, e, hds, he, heq⟩ := h
      exact ⟨c :: ds, e, digitStar_cons c ds (of_isDigit c hdg) hds, he, by simp [heq]⟩
    · by_cases hE : c.toNat = 101 ∨ c.toNat = 69
      · simp [hdg, hE] at hstep
        subst hstep
        exact ⟨[], c :: t, digitStar_nil, expOpt_of_numTail_e c t hE h, rfl⟩
      · simp [hdg] at hstep
        exact absurd hstep.1 hE
  | e =>
    simp only [Json.numStep] at hstep
    by_cases hs : c.toNat = 43 ∨ c.toNat = 45
    · simp [hs] at hstep
      subst hstep
      exact Or.inr ⟨c, t, hs, h, rfl⟩
    · by_cases hdg : Json.isDigit c.toNat = true
      · simp [hs, hdg] at hstep
        subst hstep
        exact Or.inl (digitPlus_cons c t (of_isDigit c hdg) h)
      · simp [hdg] at hstep
        exact absurd hstep.1 hs
  | eSign =>
    simp only [Json.numStep] at hstep
    by_cases hdg : Json.isDigit c.toNat = true
    · simp [hdg] at hstep
      subst hstep
      exact digitPlus_cons c t (of_isDigit c hdg) h
    · simp [hdg] at hstep
  | e0 =>
    simp only [Json.numStep] at hstep
    by_cases hdg : Json.isDigit c.toNat = true
    · simp [hdg] at hstep
      subst hstep
      exact digitStar_cons c t (of_isDigit c hdg) h
    · simp [hdg] at hstep

end Rfc8259

/-! ## From the grammar to the scanner -/

namespace Rfc8259

theorem numStep_none_of_not_numChar (st : Json.NumState) (c : Char) (h : ¬ NumChar c) :
    Json.numStep st c.toNat = none := by
  have h1 : ¬ (48 ≤ c.toNat ∧ c.toNat ≤ 57) := fun hd => h (Or.inl hd)
  have h2 : c.toNat ≠ 46 := fun hd => h (Or.inr (Or.inl hd))
  have h3 : c.toNat ≠ 101 := fun hd => h (Or.inr (Or.inr (Or.inl hd)))
  have h4 : c.toNat ≠ 69 := fun hd => h (Or.inr (Or.inr (Or.inr (Or.inl hd))))
  have h5 : c.toNat ≠ 43 := fun hd => h (Or.inr (Or.inr (Or.inr (Or.inr (Or.inl hd)))))
  have h6 : c.toNat ≠ 45 := fun hd => h (Or.inr (Or.inr (Or.inr (Or.inr (Or.inr hd)))))
  have h7 : c.toNat ≠ 48 := fun hd => h1 (by omega)
  have h8 : ¬ (49 ≤ c.toNat ∧ c.toNat ≤ 57) := fun hd => h1 (by omega)
  have h9 : Json.isDigit c.toNat = false := by
    simp only [Json.isDigit, Bool.and_eq_false_imp, decide_eq_true_eq, decide_eq_false_iff_not]
    intro ha hb
    exact h1 ⟨ha, hb⟩
  cases st <;> simp [Json.numStep, h9, h2, h3, h4, h5, h6, h7]
  omega

/-- The scanner ends a number where the text does not go on with a character
of a number. -/
theorem lexFrom_number_end (st : Json.NumState) (rest : List Char)
    (hfin : Json.numFinal st = true) (hrest : HeadOk rest) :
    Json.lexFrom (.inNumber st) rest = (Json.lexFrom .start rest).map (.number :: ·) := by
  cases rest with
  | nil => simp [Json.lexFrom, Json.lexEnd, hfin]
  | cons c r =>
    have hnone := numStep_none_of_not_numChar st c (hrest c r rfl)
    cases hl : Json.lexStart c.toNat with
    | none => simp [Json.lexFrom, Json.lexStep, hnone, hfin, hl]
    | some p =>
      obtain ⟨s2, toks⟩ := p
      simp only [Json.lexFrom, Json.lexStep, hnone, hfin, hl, if_true]
      cases Json.lexFrom s2 r <;> rfl

theorem lexFrom_numTail (st : Json.NumState) (tail rest : List Char)
    (h : NumTail st tail) (hrest : HeadOk rest) :
    Json.lexFrom (.inNumber st) (tail ++ rest) =
      (Json.lexFrom .start rest).map (.number :: ·) := by
  induction tail generalizing st with
  | nil => exact lexFrom_number_end st rest (numFinal_of_numTail_nil st h) hrest
  | cons c t ih =>
    obtain ⟨st2, hstep, htail⟩ := numStep_of_numTail st c t h
    have hs : Json.lexStep (.inNumber st) c = some (.inNumber st2, []) := by
      simp [Json.lexStep, hstep]
    rw [List.cons_append, lexFrom_cons_silent _ _ _ _ hs]
    exact ih st2 htail

theorem lexStep_start_digit19 (d : Char) (hd : IsDigit19 d) :
    Json.lexStep .start d = some (.inNumber .int, []) := by
  have h1 := hd.1
  have h2 := hd.2
  have e : ∀ n : Nat, n < 49 ∨ 57 < n → d.toNat ≠ n := by intro n hn; omega
  simp [Json.lexStep, Json.lexStart, Json.isSpace, e, h1, h2]

theorem lexStep_start_zero :
    Json.lexStep .start (Char.ofNat 0x30) = some (.inNumber .zero, []) := rfl

theorem lexStep_start_minus :
    Json.lexStep .start (Char.ofNat 0x2D) = some (.inNumber .neg, []) := rfl

/-- The scanner reads the text of a number as a number token. -/
theorem lexFrom_numberText (t rest : List Char) (h : NumberText t) (hrest : HeadOk rest) :
    Json.lexFrom .start (t ++ rest) = (Json.lexFrom .start rest).map (.number :: ·) := by
  cases h with
  | positive i f e hi hf he =>
    cases hi with
    | zero =>
      simp only [List.cons_append, List.nil_append]
      rw [lexFrom_cons_silent _ _ _ _ lexStep_start_zero]
      exact lexFrom_numTail .zero _ rest ⟨f, e, hf, he, rfl⟩ hrest
    | digits d ds hd hds =>
      simp only [List.cons_append]
      rw [lexFrom_cons_silent _ _ _ _ (lexStep_start_digit19 d hd)]
      exact lexFrom_numTail .int _ rest ⟨ds, f, e, hds, hf, he, rfl⟩ hrest
  | negative i f e hi hf he =>
    simp only [List.cons_append]
    rw [lexFrom_cons_silent _ _ _ _ lexStep_start_minus]
    exact lexFrom_numTail .neg _ rest ⟨i, f, e, hi, hf, he, rfl⟩ hrest

end Rfc8259

namespace Rfc8259

theorem hexVal_of_hexDigit (h : Char) (d : Nat) (hd : HexDigit h d) :
    Json.hexVal h.toNat = some d := by
  cases hd with
  | digit h1 h2 => simp [Json.hexVal, h1, h2]
  | lower h1 h2 =>
    have e1 : ¬ (48 ≤ h.toNat ∧ h.toNat ≤ 57) := by omega
    simp [Json.hexVal, e1, h1, h2]
    omega
  | upper h1 h2 =>
    have e1 : ¬ (48 ≤ h.toNat ∧ h.toNat ≤ 57) := by omega
    have e2 : ¬ (97 ≤ h.toNat ∧ h.toNat ≤ 102) := by omega
    simp [Json.hexVal, e1, e2, h1, h2]
    omega

theorem lexStep_hexDigit (acc : List Json.StrUnit) (hex : List Nat) (h : Char) (d : Nat)
    (hd : HexDigit h d) :
    Json.lexStep (.inStringEscU acc hex) h =
      if hex.length == 3 then some (.inString (.u16 (Json.hex4 (hex ++ [d])) :: acc), [])
      else some (.inStringEscU acc (hex ++ [d]), []) := by
  simp [Json.lexStep, hexVal_of_hexDigit h d hd]

theorem lexStep_unescaped (acc : List Json.StrUnit) (c : Char) (h1 : 0x20 ≤ c.toNat)
    (h2 : c.toNat ≠ 0x22) (h3 : c.toNat ≠ 0x5C) :
    Json.lexStep (.inString acc) c = some (.inString (.chr c :: acc), []) := by
  have h4 : ¬ c.toNat < 32 := by omega
  simp [Json.lexStep, h2, h3, h4]

theorem lexStep_escape (acc : List Json.StrUnit) (c e : Char)
    (h : Json.simpleEscape c.toNat = some e) (hu : c.toNat ≠ 117) :
    Json.lexStep (.inStringEsc acc) c = some (.inString (.chr e :: acc), []) := by
  simp [Json.lexStep, h, hu]

/-- The scanner reads the text of one `char` as its character or code unit. -/
theorem lexFrom_charText (t : List Char) (u : Json.StrUnit) (acc : List Json.StrUnit)
    (more : List Char) (h : CharText t u) :
    Json.lexFrom (.inString acc) (t ++ more) = Json.lexFrom (.inString (u :: acc)) more := by
  have two : ∀ c e : Char, Json.simpleEscape c.toNat = some e → c.toNat ≠ 117 →
      Json.lexFrom (.inString acc) ([Char.ofNat 0x5C, c] ++ more) =
        Json.lexFrom (.inString (.chr e :: acc)) more := by
    intro c e he hu
    simp only [List.cons_append, List.nil_append]
    rw [lexFrom_cons_silent _ _ _ _ (lexStep_backslash acc),
      lexFrom_cons_silent _ _ _ _ (lexStep_escape acc c e he hu)]
  cases h with
  | unescaped c h1 h2 h3 =>
    simp only [List.cons_append, List.nil_append]
    rw [lexFrom_cons_silent _ _ _ _ (lexStep_unescaped acc c h1 h2 h3)]
  | quotationMark => exact two _ _ rfl (by decide)
  | reverseSolidus => exact two _ _ rfl (by decide)
  | solidus => exact two _ _ rfl (by decide)
  | backspace => exact two _ _ rfl (by decide)
  | formFeed => exact two _ _ rfl (by decide)
  | lineFeed => exact two _ _ rfl (by decide)
  | carriageReturn => exact two _ _ rfl (by decide)
  | tab => exact two _ _ rfl (by decide)
  | hex h1 h2 h3 h4 d1 d2 d3 d4 e1 e2 e3 e4 =>
    simp only [List.cons_append, List.nil_append]
    rw [lexFrom_cons_silent _ _ _ _ (lexStep_backslash acc),
      lexFrom_cons_silent _ _ _ _ (lexStep_escaped_u acc),
      lexFrom_cons_silent _ (.inStringEscU acc [d1]) _ _
        (by rw [lexStep_hexDigit acc [] h1 d1 e1]; rfl),
      lexFrom_cons_silent _ (.inStringEscU acc [d1, d2]) _ _
        (by rw [lexStep_hexDigit acc [d1] h2 d2 e2]; rfl),
      lexFrom_cons_silent _ (.inStringEscU acc [d1, d2, d3]) _ _
        (by rw [lexStep_hexDigit acc [d1, d2] h3 d3 e3]; rfl),
      lexFrom_cons_silent _ (.inString (.u16 (((d1 * 16 + d2) * 16 + d3) * 16 + d4) :: acc))
        _ _ (by rw [lexStep_hexDigit acc [d1, d2, d3] h4 d4 e4]; simp [Json.hex4])]

/-- The scanner reads the text of `*char` up to the closing quotation mark
as a string token. -/
theorem lexFrom_charsText (body : List Char) (units acc : List Json.StrUnit)
    (rest : List Char) (h : CharsText body units) :
    Json.lexFrom (.inString acc) (body ++ Char.ofNat 0x22 :: rest) =
      (Json.lexFrom .start rest).map
        (Json.Token.string (Json.unquote (units.reverse ++ acc)) :: ·) := by
  induction h generalizing acc with
  | nil =>
    rw [List.nil_append, lexFrom_cons_emit _ _ _ _ _ (lexStep_close_quote acc)]
    rfl
  | cons t ts u us ht _ ih =>
    rw [List.append_assoc, lexFrom_charText t u acc _ ht, ih (u :: acc)]
    simp

theorem toNat_ofNat_of_valid (n : Nat) (h : n.isValidChar) : (Char.ofNat n).toNat = n := by
  simp [Char.ofNat, h, Char.ofNatAux, Char.toNat, UInt32.toNat]

/-- The string the scanner gives for characters and code units is the string
they denote. -/
theorem unquoteUnits_of_denotes (units : List Json.StrUnit) (cs : List Char)
    (h : Denotes units cs) : Json.unquoteUnits units = cs := by
  induction h with
  | nil => rfl
  | chr c us cs _ ih => rw [Json.unquoteUnits, ih]
  | scalar n us cs hn _ ih =>
    have hs : Json.isSurrogate n = false := by
      simp only [Json.isSurrogate, Bool.and_eq_false_imp, decide_eq_true_eq,
        decide_eq_false_iff_not]
      intro h1 h2
      exact hn ⟨h1, by omega⟩
    rw [unquoteUnits_u16 n us hs, ih]
  | pair hi lo us cs h1 h2 h3 h4 _ ih =>
    have hs : Json.isSurrogate hi = true := by
      simp [Json.isSurrogate]; omega
    have a : hi < 56320 := by omega
    have d : lo < 57344 := by omega
    have e : (hi - 0xD800) * 1024 + (lo - 0xDC00) + 0x10000 =
        0x10000 + (hi - 0xD800) * 0x400 + (lo - 0xDC00) := by omega
    have hdec : Json.decodeSurrogates hi lo =
        Char.ofNat (0x10000 + (hi - 0xD800) * 0x400 + (lo - 0xDC00)) := by
      simp only [Json.decodeSurrogates, h1, a, h3, d, decide_True, Bool.and_self, if_true]
      rw [e]
    have hne : Json.decodeSurrogates hi lo ≠ Json.replacementChar := by
      rw [hdec]
      intro heq
      have hv : (0x10000 + (hi - 0xD800) * 0x400 + (lo - 0xDC00)).isValidChar := by
        right
        constructor <;> omega
      have h6 := congrArg Char.toNat heq
      rw [toNat_ofNat_of_valid _ hv] at h6
      have h5 : Json.replacementChar.toNat = 0xFFFD := rfl
      rw [h5] at h6
      omega
    rw [Json.unquoteUnits.eq_def]
    simp only [hs, if_true]
    rw [if_pos hne, hdec, ih]
  | unpaired n us cs h1 h2 hnp _ ih =>
    have hs : Json.isSurrogate n = true := by
      simp [Json.isSurrogate]; omega
    rw [Json.unquoteUnits.eq_def]
    simp only [hs, if_true]
    cases us with
    | nil =>
      rw [← ih]
      rfl
    | cons u rest =>
      cases u with
      | chr c =>
        rw [← ih]
        simp [Json.unquoteUnits, Json.replacementChar]
      | u16 b =>
        have hdec : Json.decodeSurrogates n b = Json.replacementChar := by
          simp only [Json.decodeSurrogates]
          rw [if_neg]
          intro hc
          simp only [Bool.and_eq_true, decide_eq_true_eq] at hc
          exact hnp ⟨by omega, b, rest, rfl, by omega, by omega⟩
        simp only [hdec, ne_eq, not_true_eq_false, if_false]
        rw [ih]
        rfl

end Rfc8259

namespace Rfc8259

theorem lexStep_ws (c : Char) (h : IsWs c) : Json.lexStep .start c = some (.start, []) := by
  rcases h with h | h | h | h <;> simp [Json.lexStep, Json.lexStart, Json.isSpace, h]

theorem lexFrom_ws (ws rest : List Char) (h : Ws ws) :
    Json.lexFrom .start (ws ++ rest) = Json.lexFrom .start rest := by
  induction ws with
  | nil => rfl
  | cons c t ih =>
    rw [List.cons_append, lexFrom_cons_silent _ _ _ _ (lexStep_ws c (h c (List.mem_cons_self _ _)))]
    exact ih (fun x hx => h x (List.mem_cons_of_mem _ hx))

/-- The scanner reads the text of a string as a string token with the string
denoted. -/
theorem lexFrom_stringText (t : List Char) (s : String) (rest : List Char)
    (h : StringText t s) :
    Json.lexFrom .start (t ++ rest) =
      (Json.lexFrom .start rest).map (Json.Token.string s :: ·) := by
  cases h with
  | mk body units cs hbody hden =>
    simp only [List.cons_append, List.append_assoc, List.singleton_append, List.nil_append]
    rw [lexFrom_cons_silent _ _ _ _ lexStep_open_quote, lexFrom_charsText body units [] rest hbody]
    simp [Json.unquote, unquoteUnits_of_denotes units cs hden]

theorem lexFrom_emit_one (c : Char) (tok : Json.Token) (rest : List Char)
    (h : Json.lexStep .start c = some (.start, [tok])) :
    Json.lexFrom .start ([c] ++ rest) = (Json.lexFrom .start rest).map (tok :: ·) :=
  lexFrom_cons_emit _ _ _ _ _ h

/-- The scanner reads the text of a token as that token, provided a number is
not directly followed by a character of a number. -/
theorem lexFrom_lexeme (tok : Json.Token) (t rest : List Char) (h : Lexeme tok t)
    (hrest : tok = .number → HeadOk rest) :
    Json.lexFrom .start (t ++ rest) = (Json.lexFrom .start rest).map (tok :: ·) := by
  cases h with
  | beginObject => exact lexFrom_emit_one _ _ _ rfl
  | endObject => exact lexFrom_emit_one _ _ _ rfl
  | beginArray => exact lexFrom_emit_one _ _ _ rfl
  | endArray => exact lexFrom_emit_one _ _ _ rfl
  | colon => exact lexFrom_emit_one _ _ _ rfl
  | comma => exact lexFrom_emit_one _ _ _ rfl
  | litTrue =>
    simp only [List.cons_append, List.nil_append]
    rw [lexFrom_cons_silent .start (.inLiteral .litTrue [114, 117, 101])
        (Char.ofNat 0x74) _ rfl,
      lexFrom_cons_silent (.inLiteral .litTrue [114, 117, 101]) (.inLiteral .litTrue [117, 101])
        (Char.ofNat 0x72) _ rfl,
      lexFrom_cons_silent (.inLiteral .litTrue [117, 101]) (.inLiteral .litTrue [101])
        (Char.ofNat 0x75) _ rfl,
      lexFrom_cons_emit (.inLiteral .litTrue [101]) .start
        (Char.ofNat 0x65) _ .litTrue rfl]
  | litFalse =>
    simp only [List.cons_append, List.nil_append]
    rw [lexFrom_cons_silent .start (.inLiteral .litFalse [97, 108, 115, 101])
        (Char.ofNat 0x66) _ rfl,
      lexFrom_cons_silent (.inLiteral .litFalse [97, 108, 115, 101]) (.inLiteral .litFalse [108, 115, 101])
        (Char.ofNat 0x61) _ rfl,
      lexFrom_cons_silent (.inLiteral .litFalse [108, 115, 101]) (.inLiteral .litFalse [115, 101])
        (Char.ofNat 0x6C) _ rfl,
      lexFrom_cons_silent (.inLiteral .litFalse [115, 101]) (.inLiteral .litFalse [101])
        (Char.ofNat 0x73) _ rfl,
      lexFrom_cons_emit (.inLiteral .litFalse [101]) .start
        (Char.ofNat 0x65) _ .litFalse rfl]
  | litNull =>
    simp only [List.cons_append, List.nil_append]
    rw [lexFrom_cons_silent .start (.inLiteral .litNull [117, 108, 108])
        (Char.ofNat 0x6E) _ rfl,
      lexFrom_cons_silent (.inLiteral .litNull [117, 108, 108]) (.inLiteral .litNull [108, 108])
        (Char.ofNat 0x75) _ rfl,
      lexFrom_cons_silent (.inLiteral .litNull [108, 108]) (.inLiteral .litNull [108])
        (Char.ofNat 0x6C) _ rfl,
      lexFrom_cons_emit (.inLiteral .litNull [108]) .start
        (Char.ofNat 0x6C) _ .litNull rfl]
  | number t hn => exact lexFrom_numberText t rest hn (hrest rfl)
  | string t s hs => exact lexFrom_stringText t s rest hs

theorem not_numChar_of_ws (c : Char) (h : IsWs c) : ¬ NumChar c := by
  intro hn
  rcases h with h | h | h | h <;>
    rcases hn with ⟨h1, h2⟩ | hn | hn | hn | hn | hn <;> omega

/-- The first character of a token that is not a number is not a character of
a number. -/
theorem not_numChar_of_lexeme (tok : Json.Token) (c : Char) (r : List Char)
    (h : Lexeme tok (c :: r)) (hne : tok ≠ .number) : ¬ NumChar c := by
  have key : ∀ n : Nat, (n = 0x7B ∨ n = 0x7D ∨ n = 0x5B ∨ n = 0x5D ∨ n = 0x3A ∨ n = 0x2C ∨
      n = 0x74 ∨ n = 0x66 ∨ n = 0x6E ∨ n = 0x22) → c.toNat = n → ¬ NumChar c := by
    intro n hn hc hnum
    rcases hnum with hd | hd | hd | hd | hd | hd
    · have := hd.1; have := hd.2; omega
    all_goals omega
  generalize hcr : c :: r = t at h
  cases h with
  | beginObject => injection hcr with h1 _; exact key 0x7B (by simp) (by rw [h1]; rfl)
  | endObject => injection hcr with h1 _; exact key 0x7D (by simp) (by rw [h1]; rfl)
  | beginArray => injection hcr with h1 _; exact key 0x5B (by simp) (by rw [h1]; rfl)
  | endArray => injection hcr with h1 _; exact key 0x5D (by simp) (by rw [h1]; rfl)
  | colon => injection hcr with h1 _; exact key 0x3A (by simp) (by rw [h1]; rfl)
  | comma => injection hcr with h1 _; exact key 0x2C (by simp) (by rw [h1]; rfl)
  | litTrue => injection hcr with h1 _; exact key 0x74 (by simp) (by rw [h1]; rfl)
  | litFalse => injection hcr with h1 _; exact key 0x66 (by simp) (by rw [h1]; rfl)
  | litNull => injection hcr with h1 _; exact key 0x6E (by simp) (by rw [h1]; rfl)
  | number t hn => exact absurd rfl hne
  | string t s hs =>
    cases hs with
    | mk body units cs _ _ => injection hcr with h1 _; exact key 0x22 (by simp) (by rw [h1]; rfl)

theorem lexeme_ne_nil (tok : Json.Token) (t : List Char) (h : Lexeme tok t) : t ≠ [] := by
  cases h with
  | number t hn =>
    cases hn with
    | positive i f e hi _ _ =>
      have := intPart_ne_nil i hi
      simp [this]
    | negative i f e _ _ _ => simp
  | string t s hs => cases hs; simp
  | _ => simp

/-- After the tokens of a text that does not begin with a number token, the
text does not begin with a character of a number. -/
theorem headOk_of_lexes (rest : List Char) (toks : List Json.Token) (h : Lexes rest toks)
    (hne : ∀ ts, toks ≠ .number :: ts) : HeadOk rest := by
  intro c r hcr
  cases h with
  | done ws hws => exact not_numChar_of_ws c (hws c (hcr ▸ List.mem_cons_self _ _))
  | token ws t rest2 tok toks2 hws hlex _ =>
    cases ws with
    | cons w ws2 =>
      injection hcr with h1 _
      exact not_numChar_of_ws c (h1 ▸ hws w (List.mem_cons_self _ _))
    | nil =>
      cases t with
      | nil => exact absurd rfl (lexeme_ne_nil tok [] hlex)
      | cons a t2 =>
        injection hcr with h1 _
        subst h1
        exact not_numChar_of_lexeme tok a t2 hlex (fun he => hne toks2 (he ▸ rfl))

/-- The scanner reads every text of a sequence of tokens as that sequence,
provided no two numbers are adjacent in it. -/
theorem lexFrom_of_lexes (text : List Char) (toks : List Json.Token) (h : Lexes text toks)
    (hadj : NoAdj toks) : Json.lexFrom .start text = some toks := by
  induction h with
  | done ws hws =>
    have := lexFrom_ws ws [] hws
    rw [List.append_nil] at this
    rw [this]
    rfl
  | token ws t rest tok toks hws hlex hrest ih =>
    have hadj2 : NoAdj toks := by
      cases toks with
      | nil => trivial
      | cons b bs => exact hadj.2
    have hhead : tok = .number → HeadOk rest := by
      intro htok
      refine headOk_of_lexes rest toks hrest (fun ts hts => ?_)
      subst hts
      exact hadj.1 ⟨htok, rfl⟩
    rw [lexFrom_ws ws _ hws, lexFrom_lexeme tok t rest hlex hhead, ih hadj2]
    rfl

end Rfc8259

/-! ## From the scanner to the grammar -/

namespace Rfc8259

theorem hexDigit_of_hexVal (c : Char) (d : Nat) (h : Json.hexVal c.toNat = some d) :
    HexDigit c d := by
  unfold Json.hexVal at h
  simp only [Bool.and_eq_true, decide_eq_true_eq] at h
  by_cases h1 : 48 ≤ c.toNat ∧ c.toNat ≤ 57
  · rw [if_pos h1] at h
    injection h with h
    subst h
    exact HexDigit.digit c h1.1 h1.2
  · by_cases h2 : 97 ≤ c.toNat ∧ c.toNat ≤ 102
    · rw [if_neg h1, if_pos h2] at h
      injection h with h
      have hd : d = c.toNat - 0x57 := by omega
      subst hd
      exact HexDigit.lower c h2.1 h2.2
    · by_cases h3 : 65 ≤ c.toNat ∧ c.toNat ≤ 70
      · rw [if_neg h1, if_neg h2, if_pos h3] at h
        injection h with h
        have hd : d = c.toNat - 0x37 := by omega
        subst hd
        exact HexDigit.upper c h3.1 h3.2
      · rw [if_neg h1, if_neg h2, if_neg h3] at h
        cases h

theorem charText_of_simpleEscape (c e : Char) (h : Json.simpleEscape c.toNat = some e) :
    CharText [Char.ofNat 0x5C, c] (.chr e) := by
  have hc : ∀ n, c.toNat = n → c = Char.ofNat n := fun n hn => by rw [← hn, Char.ofNat_toNat]
  unfold Json.simpleEscape at h
  by_cases h1 : c.toNat = 34
  · simp [h1] at h; subst h; rw [hc 34 h1]; exact CharText.quotationMark
  by_cases h2 : c.toNat = 92
  · simp [h2] at h; subst h; rw [hc 92 h2]; exact CharText.reverseSolidus
  by_cases h3 : c.toNat = 47
  · simp [h3] at h; subst h; rw [hc 47 h3]; exact CharText.solidus
  by_cases h4 : c.toNat = 98
  · simp [h4] at h; subst h; rw [hc 98 h4]; exact CharText.backspace
  by_cases h5 : c.toNat = 102
  · simp [h5] at h; subst h; rw [hc 102 h5]; exact CharText.formFeed
  by_cases h6 : c.toNat = 110
  · simp [h6] at h; subst h; rw [hc 110 h6]; exact CharText.lineFeed
  by_cases h7 : c.toNat = 114
  · simp [h7] at h; subst h; rw [hc 114 h7]; exact CharText.carriageReturn
  by_cases h8 : c.toNat = 116
  · simp [h8] at h; subst h; rw [hc 116 h8]; exact CharText.tab
  simp [h1, h2, h3, h4, h5, h6, h7, h8] at h

/-- The string the scanner gives for characters and code units is one they
denote. -/
theorem denotes_unquoteUnits : ∀ (n : Nat) (units : List Json.StrUnit), units.length ≤ n →
    Denotes units (Json.unquoteUnits units) := by
  intro n
  induction n with
  | zero =>
    intro units h
    cases units with
    | nil => exact Denotes.nil
    | cons u us => simp at h
  | succ n ih =>
    intro units h
    cases units with
    | nil => exact Denotes.nil
    | cons u us =>
      have hus : us.length ≤ n := by simpa using h
      cases u with
      | chr c =>
        rw [Json.unquoteUnits]
        exact Denotes.chr c us _ (ih us hus)
      | u16 a =>
        by_cases hs : Json.isSurrogate a = true
        · have ha : 0xD800 ≤ a ∧ a ≤ 0xDFFF := by
            simp [Json.isSurrogate] at hs; omega
          rw [Json.unquoteUnits.eq_def]
          simp only [hs, if_true]
          cases us with
          | nil => exact Denotes.unpaired a [] [] ha.1 ha.2 (by simp) Denotes.nil
          | cons u2 rest2 =>
            cases u2 with
            | chr c =>
              have := Denotes.unpaired a (.chr c :: rest2) _ ha.1 ha.2 (by simp) (ih _ hus)
              rw [Json.unquoteUnits] at this
              exact this
            | u16 b =>
              by_cases hp : (0xD800 ≤ a ∧ a < 0xDC00) ∧ 0xDC00 ≤ b ∧ b < 0xE000
              · have hdec : Json.decodeSurrogates a b =
                    Char.ofNat (0x10000 + (a - 0xD800) * 0x400 + (b - 0xDC00)) := by
                  have e : (a - 0xD800) * 1024 + (b - 0xDC00) + 0x10000 =
                      0x10000 + (a - 0xD800) * 0x400 + (b - 0xDC00) := by omega
                  simp only [Json.decodeSurrogates, hp.1.1, hp.1.2, hp.2.1, hp.2.2, decide_True,
                    Bool.and_self, if_true]
                  rw [e]
                have hne : Json.decodeSurrogates a b ≠ Json.replacementChar := by
                  rw [hdec]
                  intro heq
                  have hv : (0x10000 + (a - 0xD800) * 0x400 + (b - 0xDC00)).isValidChar := by
                    right
                    constructor <;> omega
                  have h6 := congrArg Char.toNat heq
                  rw [toNat_ofNat_of_valid _ hv] at h6
                  have h5 : Json.replacementChar.toNat = 0xFFFD := rfl
                  rw [h5] at h6
                  omega
                dsimp only
                rw [if_pos hne, hdec]
                have hr : rest2.length ≤ n := by simp at hus; omega
                exact Denotes.pair a b rest2 _ hp.1.1 (by omega) hp.2.1 (by omega) (ih rest2 hr)
              · have hdec : Json.decodeSurrogates a b = Json.replacementChar := by
                  simp only [Json.decodeSurrogates]
                  rw [if_neg]
                  intro hc
                  simp only [Bool.and_eq_true, decide_eq_true_eq] at hc
                  exact hp ⟨⟨hc.1.1.1, hc.1.1.2⟩, hc.1.2, hc.2⟩
                simp only [hdec, ne_eq, not_true_eq_false, if_false]
                refine Denotes.unpaired a _ _ ha.1 ha.2 ?_ (ih _ hus)
                rintro ⟨h1, lo, rest, heq, h2, h3⟩
                injection heq with e1 e2
                injection e1 with e3
                subst e3
                exact hp ⟨⟨ha.1, by omega⟩, h2, by omega⟩
        · have hs2 : Json.isSurrogate a = false := by simpa using hs
          rw [unquoteUnits_u16 a us hs2]
          refine Denotes.scalar a us _ ?_ (ih us hus)
          intro hc
          simp [Json.isSurrogate] at hs2
          omega

end Rfc8259

namespace Rfc8259

theorem lexFrom_cons_some (s : Json.LexState) (c : Char) (r : List Char)
    (toks : List Json.Token) (h : Json.lexFrom s (c :: r) = some toks) :
    ∃ s2 em more, Json.lexStep s c = some (s2, em) ∧ Json.lexFrom s2 r = some more ∧
      toks = em ++ more := by
  simp only [Json.lexFrom] at h
  cases hstep : Json.lexStep s c with
  | none => rw [hstep] at h; cases h
  | some p =>
    obtain ⟨s2, em⟩ := p
    rw [hstep] at h
    cases hr : Json.lexFrom s2 r with
    | none => simp only [hr] at h; cases h
    | some more =>
      simp only [hr] at h
      injection h with h
      exact ⟨s2, em, more, rfl, hr, h.symm⟩

theorem lexStart_cases (n : Nat) (s2 : Json.LexState) (em : List Json.Token)
    (h : Json.lexStart n = some (s2, em)) :
    (Json.isSpace n = true ∧ s2 = .start ∧ em = []) ∨
    (n = 123 ∧ s2 = .start ∧ em = [.beginObject]) ∨
    (n = 125 ∧ s2 = .start ∧ em = [.endObject]) ∨
    (n = 91 ∧ s2 = .start ∧ em = [.beginArray]) ∨
    (n = 93 ∧ s2 = .start ∧ em = [.endArray]) ∨
    (n = 58 ∧ s2 = .start ∧ em = [.colon]) ∨
    (n = 44 ∧ s2 = .start ∧ em = [.comma]) ∨
    (n = 34 ∧ s2 = .inString [] ∧ em = []) ∨
    (n = 45 ∧ s2 = .inNumber .neg ∧ em = []) ∨
    (n = 48 ∧ s2 = .inNumber .zero ∧ em = []) ∨
    ((49 ≤ n ∧ n ≤ 57) ∧ s2 = .inNumber .int ∧ em = []) ∨
    (n = 116 ∧ s2 = .inLiteral .litTrue [114, 117, 101] ∧ em = []) ∨
    (n = 102 ∧ s2 = .inLiteral .litFalse [97, 108, 115, 101] ∧ em = []) ∨
    (n = 110 ∧ s2 = .inLiteral .litNull [117, 108, 108] ∧ em = []) := by
  unfold Json.lexStart at h
  by_cases c0 : Json.isSpace n = true
  · rw [if_pos c0] at h
    cases h
    exact Or.inl ⟨c0, rfl, rfl⟩
  rw [if_neg c0] at h
  by_cases c1 : (n == 123) = true
  · rw [if_pos c1] at h
    cases h
    exact Or.inr (Or.inl ⟨by simpa using c1, rfl, rfl⟩)
  rw [if_neg c1] at h
  by_cases c2 : (n == 125) = true
  · rw [if_pos c2] at h
    cases h
    exact Or.inr (Or.inr (Or.inl ⟨by simpa using c2, rfl, rfl⟩))
  rw [if_neg c2] at h
  by_cases c3 : (n == 91) = true
  · rw [if_pos c3] at h
    cases h
    exact Or.inr (Or.inr (Or.inr (Or.inl ⟨by simpa using c3, rfl, rfl⟩)))
  rw [if_neg c3] at h
  by_cases c4 : (n == 93) = true
  · rw [if_pos c4] at h
    cases h
    exact Or.inr (Or.inr (Or.inr (Or.inr (Or.inl ⟨by simpa using c4, rfl, rfl⟩))))
  rw [if_neg c4] at h
  by_cases c5 : (n == 58) = true
  · rw [if_pos c5] at h
    cases h
    exact Or.inr (Or.inr (Or.inr (Or.inr (Or.inr (Or.inl ⟨by simpa using c5, rfl, rfl⟩)))))
  rw [if_neg c5] at h
  by_cases c6 : (n == 44) = true
  · rw [if_pos c6] at h
    cases h
    exact Or.inr (Or.inr (Or.inr (Or.inr (Or.inr (Or.inr (Or.inl ⟨by simpa using c6, rfl, rfl⟩))))))
  rw [if_neg c6] at h
  by_cases c7 : (n == 34) = true
  · rw [if_pos c7] at h
    cases h
    exact Or.inr (Or.inr (Or.inr (Or.inr (Or.inr (Or.inr (Or.inr (Or.inl ⟨by simpa using c7, rfl, rfl⟩)))))))
  rw [if_neg c7] at h
  by_cases c8 : (n == 45) = true
  · rw [if_pos c8] at h
    cases h
    exact Or.inr (Or.inr (Or.inr (Or.inr (Or.inr (Or.inr (Or.inr (Or.inr (Or.inl ⟨by simpa using c8, rfl, rfl⟩))))))))
  rw [if_neg c8] at h
  by_cases c9 : (n == 48) = true
  · rw [if_pos c9] at h
    cases h
    exact Or.inr (Or.inr (Or.inr (Or.inr (Or.inr (Or.inr (Or.inr (Or.inr (Or.inr (Or.inl ⟨by simpa using c9, rfl, rfl⟩)))))))))
  rw [if_neg c9] at h
  by_cases c10 : (decide (49 ≤ n) && decide (n ≤ 57)) = true
  · rw [if_pos c10] at h
    cases h
    exact Or.inr (Or.inr (Or.inr (Or.inr (Or.inr (Or.inr (Or.inr (Or.inr (Or.inr (Or.inr (Or.inl ⟨by simpa using c10, rfl, rfl⟩))))))))))
  rw [if_neg c10] at h
  by_cases c11 : (n == 116) = true
  · rw [if_pos c11] at h
    cases h
    exact Or.inr (Or.inr (Or.inr (Or.inr (Or.inr (Or.inr (Or.inr (Or.inr (Or.inr (Or.inr (Or.inr (Or.inl ⟨by simpa using c11, rfl, rfl⟩)))))))))))
  rw [if_neg c11] at h
  by_cases c12 : (n == 102) = true
  · rw [if_pos c12] at h
    cases h
    exact Or.inr (Or.inr (Or.inr (Or.inr (Or.inr (Or.inr (Or.inr (Or.inr (Or.inr (Or.inr (Or.inr (Or.inr (Or.inl ⟨by simpa using c12, rfl, rfl⟩))))))))))))
  rw [if_neg c12] at h
  by_cases c13 : (n == 110) = true
  · rw [if_pos c13] at h
    cases h
    exact Or.inr (Or.inr (Or.inr (Or.inr (Or.inr (Or.inr (Or.inr (Or.inr (Or.inr (Or.inr (Or.inr (Or.inr (Or.inr (⟨by simpa using c13, rfl, rfl⟩)))))))))))))
  rw [if_neg c13] at h
  cases h

theorem isWs_of_isSpace (c : Char) (h : Json.isSpace c.toNat = true) : IsWs c := by
  simp only [Json.isSpace, Bool.or_eq_true, beq_iff_eq] at h
  rcases h with ((h | h) | h) | h
  · exact Or.inl h
  · exact Or.inr (Or.inl h)
  · exact Or.inr (Or.inr (Or.inr h))
  · exact Or.inr (Or.inr (Or.inl h))

theorem lexes_cons_ws (c : Char) (r : List Char) (toks : List Json.Token) (hc : IsWs c)
    (h : Lexes r toks) : Lexes (c :: r) toks := by
  cases h with
  | done ws hws =>
    exact Lexes.done (c :: r) (fun x hx => by
      rcases List.mem_cons.mp hx with e | e
      · exact e ▸ hc
      · exact hws x e)
  | token ws t rest tok toks2 hws hlex hrest =>
    exact Lexes.token (c :: ws) t rest tok toks2 (fun x hx => by
      rcases List.mem_cons.mp hx with e | e
      · exact e ▸ hc
      · exact hws x e) hlex hrest

theorem lexes_cons_token (t r : List Char) (tok : Json.Token) (toks : List Json.Token)
    (hlex : Lexeme tok t) (h : Lexes r toks) : Lexes (t ++ r) (tok :: toks) :=
  Lexes.token [] t r tok toks (fun x hx => by cases hx) hlex h

end Rfc8259

namespace Rfc8259

theorem numberText_of_numTail_neg (tail : List Char) (h : NumTail .neg tail) :
    NumberText (Char.ofNat 0x2D :: tail) := by
  obtain ⟨i, f, e, hi, hf, he, rfl⟩ := h
  exact NumberText.negative i f e hi hf he

theorem numberText_of_numTail_zero (tail : List Char) (h : NumTail .zero tail) :
    NumberText (Char.ofNat 0x30 :: tail) := by
  obtain ⟨f, e, hf, he, rfl⟩ := h
  exact NumberText.positive [Char.ofNat 0x30] f e IntPart.zero hf he

theorem numberText_of_numTail_int (d : Char) (tail : List Char) (hd : IsDigit19 d)
    (h : NumTail .int tail) : NumberText (d :: tail) := by
  obtain ⟨ds, f, e, hds, hf, he, rfl⟩ := h
  have := NumberText.positive (d :: ds) f e (IntPart.digits d ds hd hds) hf he
  simpa using this

/-- One step of the scanner between two tokens, given what it leaves behind
on the rest of the text. -/
theorem lexes_of_start_step (c : Char) (r : List Char) (toks : List Json.Token)
    (ih : ∀ s toks, Json.lexFrom s r = some toks → Pending s r toks)
    (h : Json.lexFrom .start (c :: r) = some toks) : Lexes (c :: r) toks := by
  obtain ⟨s2, em, more, hstep, hr, rfl⟩ := lexFrom_cons_some _ _ _ _ h
  have hstart : Json.lexStart c.toNat = some (s2, em) := hstep
  have hp := ih s2 more hr
  have hc : ∀ n, c.toNat = n → c = Char.ofNat n := fun n hn => by
    rw [← hn, Char.ofNat_toNat]
  rcases lexStart_cases _ _ _ hstart with ⟨hsp, rfl, rfl⟩ | ⟨hn, rfl, rfl⟩ | ⟨hn, rfl, rfl⟩ |
    ⟨hn, rfl, rfl⟩ | ⟨hn, rfl, rfl⟩ | ⟨hn, rfl, rfl⟩ | ⟨hn, rfl, rfl⟩ | ⟨hn, rfl, rfl⟩ |
    ⟨hn, rfl, rfl⟩ | ⟨hn, rfl, rfl⟩ | ⟨hn, rfl, rfl⟩ | ⟨hn, rfl, rfl⟩ | ⟨hn, rfl, rfl⟩ |
    ⟨hn, rfl, rfl⟩
  · exact lexes_cons_ws c r more (isWs_of_isSpace c hsp) hp
  · rw [hc _ hn]; exact lexes_cons_token [_] r _ more Lexeme.beginObject hp
  · rw [hc _ hn]; exact lexes_cons_token [_] r _ more Lexeme.endObject hp
  · rw [hc _ hn]; exact lexes_cons_token [_] r _ more Lexeme.beginArray hp
  · rw [hc _ hn]; exact lexes_cons_token [_] r _ more Lexeme.endArray hp
  · rw [hc _ hn]; exact lexes_cons_token [_] r _ more Lexeme.colon hp
  · rw [hc _ hn]; exact lexes_cons_token [_] r _ more Lexeme.comma hp
  · obtain ⟨body, units, rest, toks2, rfl, hbody, rfl, hrest⟩ := hp
    rw [hc _ hn]
    have hlex : Lexeme (.string (String.mk (Json.unquoteUnits units)))
        (Char.ofNat 0x22 :: (body ++ [Char.ofNat 0x22])) :=
      Lexeme.string _ _ (StringText.mk body units _ hbody
        (denotes_unquoteUnits units.length units (Nat.le_refl _)))
    have := lexes_cons_token _ rest _ toks2 hlex hrest
    simpa using this
  · obtain ⟨tail, rest, toks2, rfl, htail, rfl, hrest⟩ := hp
    rw [hc _ hn]
    exact lexes_cons_token (_ :: tail) rest _ toks2
      (Lexeme.number _ (numberText_of_numTail_neg tail htail)) hrest
  · obtain ⟨tail, rest, toks2, rfl, htail, rfl, hrest⟩ := hp
    rw [hc _ hn]
    exact lexes_cons_token (_ :: tail) rest _ toks2
      (Lexeme.number _ (numberText_of_numTail_zero tail htail)) hrest
  · obtain ⟨tail, rest, toks2, rfl, htail, rfl, hrest⟩ := hp
    exact lexes_cons_token (c :: tail) rest _ toks2
      (Lexeme.number _ (numberText_of_numTail_int c tail hn htail)) hrest
  · obtain ⟨rest, toks2, rfl, rfl, hrest⟩ := hp (by simp)
    rw [hc _ hn]
    exact lexes_cons_token _ rest _ toks2 Lexeme.litTrue hrest
  · obtain ⟨rest, toks2, rfl, rfl, hrest⟩ := hp (by simp)
    rw [hc _ hn]
    exact lexes_cons_token _ rest _ toks2 Lexeme.litFalse hrest
  · obtain ⟨rest, toks2, rfl, rfl, hrest⟩ := hp (by simp)
    rw [hc _ hn]
    exact lexes_cons_token _ rest _ toks2 Lexeme.litNull hrest

end Rfc8259

namespace Rfc8259

/-- What the scanner returns on a text from a state is what the grammar says
is left in that state. -/
theorem pending_of_lexFrom : ∀ (text : List Char) (s : Json.LexState)
    (toks : List Json.Token), Json.lexFrom s text = some toks → Pending s text toks := by
  intro text
  induction text with
  | nil =>
    intro s toks h
    cases s with
    | start =>
      simp only [Json.lexFrom, Json.lexEnd] at h
      injection h with h
      subst h
      exact Lexes.done [] (fun x hx => by cases hx)
    | inNumber st =>
      simp only [Json.lexFrom, Json.lexEnd] at h
      by_cases hfin : Json.numFinal st = true
      · rw [if_pos hfin] at h
        injection h with h
        subst h
        exact ⟨[], [], [], rfl, numTail_nil_of_numFinal st hfin, rfl,
          Lexes.done [] (fun x hx => by cases hx)⟩
      · rw [if_neg hfin] at h
        cases h
    | inString acc => simp [Json.lexFrom, Json.lexEnd] at h
    | inStringEsc acc => simp [Json.lexFrom, Json.lexEnd] at h
    | inStringEscU acc hex => simp [Json.lexFrom, Json.lexEnd] at h
    | inLiteral tok codes => simp [Json.lexFrom, Json.lexEnd] at h
  | cons c r ih =>
    intro s toks h
    have hc : ∀ n, c.toNat = n → c = Char.ofNat n := fun n hn => by
      rw [← hn, Char.ofNat_toNat]
    cases s with
    | start => exact lexes_of_start_step c r toks ih h
    | inString acc =>
      obtain ⟨s2, em, more, hstep, hr, rfl⟩ := lexFrom_cons_some _ _ _ _ h
      have hp := ih s2 more hr
      simp only [Json.lexStep] at hstep
      by_cases h34 : c.toNat = 34
      · simp [h34] at hstep
        obtain ⟨rfl, rfl⟩ := hstep
        rw [hc _ h34]
        exact ⟨[], [], r, more, rfl, CharsText.nil, by simp [Json.unquote], hp⟩
      · by_cases h92 : c.toNat = 92
        · simp [h92] at hstep
          obtain ⟨rfl, rfl⟩ := hstep
          obtain ⟨piece, u, body, units, rest, toks2, rfl, hpiece, hbody, rfl, hrest⟩ := hp
          rw [hc _ h92]
          refine ⟨(Char.ofNat 0x5C :: piece) ++ body, u :: units, rest, toks2, by simp,
            CharsText.cons _ _ _ _ hpiece hbody, rfl, hrest⟩
        · by_cases h32 : c.toNat < 32
          · simp [h34, h92, h32] at hstep
          · simp [h34, h92, h32] at hstep
            obtain ⟨rfl, rfl⟩ := hstep
            obtain ⟨body, units, rest, toks2, rfl, hbody, rfl, hrest⟩ := hp
            refine ⟨[c] ++ body, .chr c :: units, rest, toks2, by simp,
              CharsText.cons _ _ _ _ (CharText.unescaped c (by omega) h34 h92) hbody,
              by simp, hrest⟩
    | inStringEsc acc =>
      obtain ⟨s2, em, more, hstep, hr, rfl⟩ := lexFrom_cons_some _ _ _ _ h
      have hp := ih s2 more hr
      simp only [Json.lexStep] at hstep
      by_cases hu : c.toNat = 117
      · simp [hu] at hstep
        obtain ⟨rfl, rfl⟩ := hstep
        obtain ⟨hs, ds, body, units, rest, toks2, rfl, hhex, hlen, hbody, rfl, hrest⟩ :=
          hp (by simp)
        rw [hc _ hu]
        cases hhex with
        | nil => simp at hlen
        | cons e1 t1 =>
          cases t1 with
          | nil => simp at hlen
          | cons e2 t2 =>
            cases t2 with
            | nil => simp at hlen
            | cons e3 t3 =>
              cases t3 with
              | nil => simp at hlen
              | cons e4 t4 =>
                cases t4 with
                | cons e5 t5 => simp at hlen
                | nil =>
                  refine ⟨_, _, body, units, rest, toks2, rfl,
                    CharText.hex _ _ _ _ _ _ _ _ e1 e2 e3 e4, hbody, ?_, hrest⟩
                  simp [Json.hex4]
      · cases he : Json.simpleEscape c.toNat with
        | none => simp [hu, he] at hstep
        | some e =>
          simp [hu, he] at hstep
          obtain ⟨rfl, rfl⟩ := hstep
          obtain ⟨body, units, rest, toks2, rfl, hbody, rfl, hrest⟩ := hp
          exact ⟨[c], .chr e, body, units, rest, toks2, rfl,
            charText_of_simpleEscape c e he, hbody, by simp, hrest⟩
    | inStringEscU acc hex =>
      intro hlen
      obtain ⟨s2, em, more, hstep, hr, rfl⟩ := lexFrom_cons_some _ _ _ _ h
      have hp := ih s2 more hr
      simp only [Json.lexStep] at hstep
      cases hv : Json.hexVal c.toNat with
      | none => simp [hv] at hstep
      | some d =>
        have hd := hexDigit_of_hexVal c d hv
        by_cases h3 : hex.length = 3
        · simp [hv, h3] at hstep
          obtain ⟨rfl, rfl⟩ := hstep
          obtain ⟨body, units, rest, toks2, rfl, hbody, rfl, hrest⟩ := hp
          exact ⟨[c], [d], body, units, rest, toks2, rfl,
            List.Forall₂.cons hd List.Forall₂.nil, by simp [h3], hbody, by simp, hrest⟩
        · simp [hv, h3] at hstep
          obtain ⟨rfl, rfl⟩ := hstep
          obtain ⟨hs, ds, body, units, rest, toks2, rfl, hhex, hl, hbody, rfl, hrest⟩ :=
            hp (by simp; omega)
          exact ⟨c :: hs, d :: ds, body, units, rest, toks2, rfl,
            List.Forall₂.cons hd hhex, by simp at hl ⊢; omega, hbody, by simp, hrest⟩
    | inLiteral tok codes =>
      intro hne
      obtain ⟨s2, em, more, hstep, hr, rfl⟩ := lexFrom_cons_some _ _ _ _ h
      have hp := ih s2 more hr
      simp only [Json.lexStep] at hstep
      cases codes with
      | nil => exact absurd rfl hne
      | cons x xs =>
        cases xs with
        | nil =>
          by_cases hx : c.toNat = x
          · simp [hx] at hstep
            obtain ⟨rfl, rfl⟩ := hstep
            exact ⟨r, more, by simp [hc x hx], rfl, hp⟩
          · simp [hx] at hstep
        | cons y ys =>
          by_cases hx : c.toNat = x
          · simp [hx] at hstep
            obtain ⟨rfl, rfl⟩ := hstep
            obtain ⟨rest, toks2, rfl, rfl, hrest⟩ := hp (by simp)
            exact ⟨rest, toks2, by simp [hc x hx], rfl, hrest⟩
          · simp [hx] at hstep
    | inNumber st =>
      obtain ⟨s2, em, more, hstep, hr, rfl⟩ := lexFrom_cons_some _ _ _ _ h
      have hp := ih s2 more hr
      simp only [Json.lexStep] at hstep
      cases hn : Json.numStep st c.toNat with
      | some st2 =>
        simp [hn] at hstep
        obtain ⟨rfl, rfl⟩ := hstep
        obtain ⟨tail, rest, toks2, rfl, htail, rfl, hrest⟩ := hp
        exact ⟨c :: tail, rest, toks2, rfl, numTail_cons_of_numStep st st2 c tail hn htail,
          rfl, hrest⟩
      | none =>
        by_cases hfin : Json.numFinal st = true
        · cases hl : Json.lexStart c.toNat with
          | none => simp [hn, hfin, hl] at hstep
          | some p =>
            obtain ⟨s3, toks1⟩ := p
            simp [hn, hfin, hl] at hstep
            obtain ⟨rfl, rfl⟩ := hstep
            have hfrom : Json.lexFrom .start (c :: r) = some (toks1 ++ more) := by
              have hs : Json.lexStep .start c = some (s3, toks1) := hl
              simp [Json.lexFrom, hs, hr]
            exact ⟨[], c :: r, toks1 ++ more, rfl, numTail_nil_of_numFinal st hfin, rfl,
              lexes_of_start_step c r _ ih hfrom⟩
        · simp [hn, hfin] at hstep

/-- What the scanner reads from a text is a sequence of tokens of the text. -/
theorem lexes_of_lex (text : List Char) (toks : List Json.Token)
    (h : Json.lex text = some toks) : Lexes text toks :=
  pending_of_lexFrom text .start toks h

end Rfc8259

/-! ## From the scanner over tokens to the grammar -/

namespace Rfc8259

theorem sepElements_append (es : List Json.JsonValue) (v : Json.JsonValue) :
    sepElements (es ++ [v]) = sepElements es ++ (tokensOf v ++ [.comma]) := by
  induction es with
  | nil => simp [sepElements]
  | cons e es ih => simp [sepElements, ih]

theorem sepMembers_append (ms : List (String × Json.JsonValue)) (k : String)
    (v : Json.JsonValue) :
    sepMembers (ms ++ [(k, v)]) =
      sepMembers ms ++ (.string k :: .colon :: (tokensOf v ++ [.comma])) := by
  induction ms with
  | nil => simp [sepMembers]
  | cons m ms ih =>
    obtain ⟨a, b⟩ := m
    simp [sepMembers, ih]

theorem moreElementTokens_append (es : List Json.JsonValue) (v : Json.JsonValue) :
    moreElementTokens (es ++ [v]) = .comma :: (sepElements es ++ tokensOf v) := by
  induction es with
  | nil => simp [moreElementTokens, sepElements]
  | cons e es ih => simp [moreElementTokens, sepElements, ih]

theorem elementTokens_append (es : List Json.JsonValue) (v : Json.JsonValue) :
    elementTokens (es ++ [v]) = sepElements es ++ tokensOf v := by
  cases es with
  | nil => simp [elementTokens, moreElementTokens, sepElements]
  | cons e es => simp [elementTokens, sepElements, moreElementTokens_append]

theorem moreMemberTokens_append (ms : List (String × Json.JsonValue)) (k : String)
    (v : Json.JsonValue) :
    moreMemberTokens (ms ++ [(k, v)]) =
      .comma :: (sepMembers ms ++ .string k :: .colon :: tokensOf v) := by
  induction ms with
  | nil => simp [moreMemberTokens, sepMembers]
  | cons m ms ih =>
    obtain ⟨a, b⟩ := m
    simp [moreMemberTokens, sepMembers, ih]

theorem memberTokens_append (ms : List (String × Json.JsonValue)) (k : String)
    (v : Json.JsonValue) :
    memberTokens (ms ++ [(k, v)]) = sepMembers ms ++ .string k :: .colon :: tokensOf v := by
  cases ms with
  | nil => simp [memberTokens, moreMemberTokens, sepMembers]
  | cons m ms =>
    obtain ⟨a, b⟩ := m
    simp [memberTokens, sepMembers, moreMemberTokens_append]

/-- A complete value is taken by the innermost open array or object, or is the
value of the text. -/
theorem reached_pushValue (stack : List Json.Frame) (v : Json.JsonValue)
    (s2 : Json.ParseState) (hw : ∀ f ∈ stack, Awaiting f)
    (h : Json.pushValue stack v = some s2) : Reached s2 (below stack ++ tokensOf v) := by
  cases stack with
  | nil =>
    simp only [Json.pushValue] at h
    injection h with h
    subst h
    simpa [below] using Reached.top v
  | cons f fs =>
    have hfs : ∀ g ∈ fs, Awaiting g := fun g hg => hw g (List.mem_cons_of_mem _ hg)
    cases f with
    | array es =>
      simp only [Json.pushValue] at h
      injection h with h
      subst h
      simpa [below, openTokens] using Reached.afterElement fs es v none hfs
    | object ms key =>
      cases key with
      | none => exact absurd (hw _ (List.mem_cons_self _ _)) (by simp [Awaiting])
      | some k =>
        simp only [Json.pushValue] at h
        injection h with h
        subst h
        simpa [below, openTokens] using Reached.afterMember fs ms k v none hfs

/-- Where a value may begin, one token leads to a state reached by the tokens
read so far and that token. -/
theorem reached_beginValue (stack : List Json.Frame) (tok : Json.Token)
    (s2 : Json.ParseState) (hw : ∀ f ∈ stack, Awaiting f)
    (h : Json.beginValue stack tok = some s2) : Reached s2 (below stack ++ [tok]) := by
  cases tok with
  | beginObject =>
    simp only [Json.beginValue] at h
    split at h
    · injection h with h
      subst h
      exact Reached.emptyObject stack none hw
    · cases h
  | beginArray =>
    simp only [Json.beginValue] at h
    split at h
    · injection h with h
      subst h
      exact Reached.emptyArray stack none hw
    · cases h
  | string s => exact reached_pushValue stack (.string s) s2 hw h
  | number => exact reached_pushValue stack .number s2 hw h
  | litTrue => exact reached_pushValue stack (.bool true) s2 hw h
  | litFalse => exact reached_pushValue stack (.bool false) s2 hw h
  | litNull => exact reached_pushValue stack .null s2 hw h
  | endObject => simp [Json.beginValue] at h
  | endArray => simp [Json.beginValue] at h
  | colon => simp [Json.beginValue] at h
  | comma => simp [Json.beginValue] at h

end Rfc8259

namespace Rfc8259

theorem awaiting_cons (f : Json.Frame) (fs : List Json.Frame) (hf : Awaiting f)
    (hfs : ∀ g ∈ fs, Awaiting g) : ∀ g ∈ f :: fs, Awaiting g := by
  intro g hg
  rcases List.mem_cons.mp hg with e | e
  · exact e ▸ hf
  · exact hfs g e

/-- One step of the scanner over tokens leads from a reached state to a state
reached by one more token. -/
theorem reached_parseStep (s s2 : Json.ParseState) (pre : List Json.Token)
    (tok : Json.Token) (hr : Reached s pre) (h : Json.parseStep s tok = some s2) :
    Reached s2 (pre ++ [tok]) := by
  cases hr with
  | awaiting stack r hw => exact reached_beginValue stack tok s2 hw h
  | emptyArray fs r hw =>
    have hw2 := awaiting_cons (.array []) fs (by simp [Awaiting]) hw
    by_cases htok : tok = .endArray
    · subst htok
      have h2 : Json.pushValue fs (.array []) = some s2 := h
      simpa [tokensOf, elementTokens] using reached_pushValue fs (.array []) s2 hw h2
    · have h2 : Json.beginValue (.array [] :: fs) tok = some s2 := by
        cases tok <;> first | exact absurd rfl htok | exact h
      simpa [below, openTokens, sepElements] using
        reached_beginValue (.array [] :: fs) tok s2 hw2 h2
  | emptyObject fs r hw =>
    by_cases htok : tok = .endObject
    · subst htok
      have h2 : Json.pushValue fs (.object []) = some s2 := h
      simpa [tokensOf, memberTokens] using reached_pushValue fs (.object []) s2 hw h2
    · have h2 : Json.beginString (.object [] none :: fs) tok = some s2 := by
        cases tok <;> first | exact absurd rfl htok | exact h
      cases tok with
      | string k =>
        simp only [Json.beginString] at h2
        injection h2 with h2
        subst h2
        simpa [sepMembers] using Reached.afterName fs [] k none hw
      | _ => simp [Json.beginString] at h2
  | nextName fs acc r hw =>
    have h2 : Json.beginString (.object acc none :: fs) tok = some s2 := h
    cases tok with
    | string k =>
      simp only [Json.beginString] at h2
      injection h2 with h2
      subst h2
      simpa using Reached.afterName fs acc k none hw
    | _ => simp [Json.beginString] at h2
  | afterElement fs acc v r hw =>
    have h2 : Json.endValue (.array (v :: acc) :: fs) tok = some s2 := h
    cases tok with
    | comma =>
      simp only [Json.endValue] at h2
      injection h2 with h2
      subst h2
      have := Reached.awaiting (.array (v :: acc) :: fs) none
        (awaiting_cons _ fs (by simp [Awaiting]) hw)
      simpa [below, openTokens, sepElements_append] using this
    | endArray =>
      simp only [Json.endValue] at h2
      have := reached_pushValue fs (.array (v :: acc).reverse) s2 hw h2
      simpa [tokensOf, elementTokens_append] using this
    | _ => simp [Json.endValue] at h2
  | afterName fs acc k r hw =>
    have h2 : Json.endValue (.object acc (some k) :: fs) tok = some s2 := h
    cases tok with
    | colon =>
      simp only [Json.endValue] at h2
      injection h2 with h2
      subst h2
      have := Reached.awaiting (.object acc (some k) :: fs) none
        (awaiting_cons _ fs (by simp [Awaiting]) hw)
      simpa [below, openTokens] using this
    | _ => simp [Json.endValue] at h2
  | afterMember fs acc k v r hw =>
    have h2 : Json.endValue (.object ((k, v) :: acc) none :: fs) tok = some s2 := h
    cases tok with
    | comma =>
      simp only [Json.endValue] at h2
      injection h2 with h2
      subst h2
      have := Reached.nextName fs ((k, v) :: acc) none hw
      simpa [sepMembers_append] using this
    | endObject =>
      simp only [Json.endValue] at h2
      have := reached_pushValue fs (.object ((k, v) :: acc).reverse) s2 hw h2
      simpa [tokensOf, memberTokens_append] using this
    | _ => simp [Json.endValue] at h2
  | top v => simp [Json.parseStep] at h

/-- The tokens that the scanner over tokens accepts with a value are the
tokens of that value. -/
theorem tokens_of_parseTokens (toks : List Json.Token) (s : Json.ParseState)
    (pre : List Json.Token) (v : Json.JsonValue) (hr : Reached s pre)
    (h : Json.parseTokens s toks = some v) : pre ++ toks = tokensOf v := by
  induction toks generalizing s pre with
  | nil =>
    cases hr with
    | top w =>
      simp only [Json.parseTokens] at h
      injection h with h
      subst h
      simp
    | _ => simp [Json.parseTokens] at h
  | cons tok rest ih =>
    simp only [Json.parseTokens] at h
    cases hs : Json.parseStep s tok with
    | none => simp [hs] at h
    | some s2 =>
      simp only [hs] at h
      have := ih s2 (pre ++ [tok]) (reached_parseStep s s2 pre tok hr hs) h
      simpa using this

/-- Soundness of the scanner: a text it accepts with a value is a JSON text of
that value. -/
theorem jsonText_of_parse (text : List Char) (v : Json.JsonValue)
    (h : Json.parse text = some v) : JsonText text v := by
  unfold Json.parse at h
  cases hl : Json.lex text with
  | none => simp [hl] at h
  | some toks =>
    simp only [hl] at h
    have ht := tokens_of_parseTokens toks _ [] v (Reached.awaiting [] none (by simp)) h
    rw [List.nil_append] at ht
    unfold JsonText
    rw [← ht]
    exact lexes_of_lex text toks hl

end Rfc8259

/-! ## From the grammar to the scanner over tokens -/

namespace Rfc8259

theorem parseTokens_cons (s : Json.ParseState) (tok : Json.Token) (rest : List Json.Token) :
    Json.parseTokens s (tok :: rest) =
      (Json.parseStep s tok).bind fun s2 => Json.parseTokens s2 rest := by
  simp only [Json.parseTokens]
  cases Json.parseStep s tok <;> rfl

theorem parseStep_beginValueOrEmpty (stack : List Json.Frame) (r : Option Json.JsonValue)
    (tok : Json.Token) (h : tok ≠ .endArray) :
    Json.parseStep ⟨stack, .beginValueOrEmpty, r⟩ tok = Json.beginValue stack tok := by
  cases tok <;> first | exact absurd rfl h | rfl

theorem parseStep_beginStringOrEmpty (stack : List Json.Frame) (r : Option Json.JsonValue)
    (tok : Json.Token) (h : tok ≠ .endObject) :
    Json.parseStep ⟨stack, .beginStringOrEmpty, r⟩ tok = Json.beginString stack tok := by
  cases tok <;> first | exact absurd rfl h | rfl

theorem length_tokensOf_le_more (es : List Json.JsonValue) (x : Json.JsonValue)
    (hx : x ∈ es) : (tokensOf x).length ≤ (moreElementTokens es).length := by
  induction es with
  | nil => cases hx
  | cons e es ih =>
    rcases List.mem_cons.mp hx with h | h
    · subst h
      simp [moreElementTokens]
      omega
    · have := ih h
      simp [moreElementTokens]
      omega

theorem length_tokensOf_le_elements (es : List Json.JsonValue) (x : Json.JsonValue)
    (hx : x ∈ es) : (tokensOf x).length ≤ (elementTokens es).length := by
  cases es with
  | nil => cases hx
  | cons e es =>
    rcases List.mem_cons.mp hx with h | h
    · subst h
      simp [elementTokens]
    · have := length_tokensOf_le_more es x h
      simp [elementTokens]
      omega

theorem length_tokensOf_le_moreMembers (ms : List (String × Json.JsonValue))
    (x : String × Json.JsonValue) (hx : x ∈ ms) :
    (tokensOf x.2).length ≤ (moreMemberTokens ms).length := by
  induction ms with
  | nil => cases hx
  | cons m ms ih =>
    obtain ⟨a, b⟩ := m
    rcases List.mem_cons.mp hx with h | h
    · subst h
      simp [moreMemberTokens]
      omega
    · have := ih h
      simp [moreMemberTokens]
      omega

theorem length_tokensOf_le_members (ms : List (String × Json.JsonValue))
    (x : String × Json.JsonValue) (hx : x ∈ ms) :
    (tokensOf x.2).length ≤ (memberTokens ms).length := by
  cases ms with
  | nil => cases hx
  | cons m ms =>
    obtain ⟨a, b⟩ := m
    rcases List.mem_cons.mp hx with h | h
    · subst h
      simp [memberTokens]
      omega
    · have := length_tokensOf_le_moreMembers ms x h
      simp [memberTokens]
      omega

theorem parse_moreElements (n : Nat) (ih : ValueStep n) :
    ∀ (es acc : List Json.JsonValue) (stack : List Json.Frame) (r : Option Json.JsonValue)
      (rest : List Json.Token),
      (∀ x ∈ es, (tokensOf x).length ≤ n) → stack.length + 1 ≤ Json.maxNestingDepth →
      Json.parseTokens ⟨.array acc :: stack, .endValue, r⟩
          (moreElementTokens es ++ .endArray :: rest) =
        if stack.length + 1 + depthElements es ≤ Json.maxNestingDepth then
          (Json.pushValue stack (.array (acc.reverse ++ es))).bind
            fun s2 => Json.parseTokens s2 rest
        else none := by
  intro es
  induction es with
  | nil =>
    intro acc stack r rest _ hlen
    simp only [moreElementTokens, List.nil_append, parseTokens_cons, depthElements,
      Nat.add_zero, if_pos hlen, List.append_nil]
    rfl
  | cons e es ihes =>
    intro acc stack r rest hsize hlen
    have he := hsize e (List.mem_cons_self _ _)
    have hes : ∀ x ∈ es, (tokensOf x).length ≤ n :=
      fun x hx => hsize x (List.mem_cons_of_mem _ hx)
    have hstep : Json.parseStep ⟨.array acc :: stack, .endValue, r⟩ .comma =
        some ⟨.array acc :: stack, .beginValue, none⟩ := rfl
    simp only [moreElementTokens, List.cons_append, List.append_assoc, parseTokens_cons,
      hstep, Option.some_bind]
    rw [ih e he (.array acc :: stack) .beginValue none _ (Or.inl rfl)
      (by simpa using hlen)]
    have hpush : Json.pushValue (.array acc :: stack) e =
        some ⟨.array (e :: acc) :: stack, .endValue, none⟩ := rfl
    simp only [hpush, Option.some_bind, List.length_cons, depthElements]
    rw [ihes (e :: acc) stack none rest hes hlen]
    by_cases h1 : stack.length + 1 + depth e ≤ Json.maxNestingDepth
    · by_cases h2 : stack.length + 1 + depthElements es ≤ Json.maxNestingDepth
      · have h3 : stack.length + 1 + max (depth e) (depthElements es) ≤
            Json.maxNestingDepth := by
          rcases Nat.le_total (depth e) (depthElements es) with h | h
          · rw [Nat.max_eq_right h]; exact h2
          · rw [Nat.max_eq_left h]; exact h1
        simp [h1, h2, h3]
      · have h3 : ¬ stack.length + 1 + max (depth e) (depthElements es) ≤
            Json.maxNestingDepth := by
          have := Nat.le_max_right (depth e) (depthElements es)
          omega
        simp [h1, h2, h3]
    · have h3 : ¬ stack.length + 1 + max (depth e) (depthElements es) ≤
          Json.maxNestingDepth := by
        have := Nat.le_max_left (depth e) (depthElements es)
        omega
      simp [h1, h3]

theorem parse_moreMembers (n : Nat) (ih : ValueStep n) :
    ∀ (ms acc : List (String × Json.JsonValue)) (stack : List Json.Frame)
      (r : Option Json.JsonValue) (rest : List Json.Token),
      (∀ x ∈ ms, (tokensOf x.2).length ≤ n) → stack.length + 1 ≤ Json.maxNestingDepth →
      Json.parseTokens ⟨.object acc none :: stack, .endValue, r⟩
          (moreMemberTokens ms ++ .endObject :: rest) =
        if stack.length + 1 + depthMembers ms ≤ Json.maxNestingDepth then
          (Json.pushValue stack (.object (acc.reverse ++ ms))).bind
            fun s2 => Json.parseTokens s2 rest
        else none := by
  intro ms
  induction ms with
  | nil =>
    intro acc stack r rest _ hlen
    simp only [moreMemberTokens, List.nil_append, parseTokens_cons, depthMembers,
      Nat.add_zero, if_pos hlen, List.append_nil]
    rfl
  | cons m ms ihms =>
    obtain ⟨k, v⟩ := m
    intro acc stack r rest hsize hlen
    have hv : (tokensOf v).length ≤ n := hsize (k, v) (List.mem_cons_self _ _)
    have hms : ∀ x ∈ ms, (tokensOf x.2).length ≤ n :=
      fun x hx => hsize x (List.mem_cons_of_mem _ hx)
    have hstep1 : Json.parseStep ⟨.object acc none :: stack, .endValue, r⟩ .comma =
        some ⟨.object acc none :: stack, .beginString, none⟩ := rfl
    have hstep2 : Json.parseStep ⟨.object acc none :: stack, .beginString, none⟩ (.string k) =
        some ⟨.object acc (some k) :: stack, .endValue, none⟩ := rfl
    have hstep3 : Json.parseStep ⟨.object acc (some k) :: stack, .endValue, none⟩ .colon =
        some ⟨.object acc (some k) :: stack, .beginValue, none⟩ := rfl
    simp only [moreMemberTokens, List.cons_append, List.append_assoc, parseTokens_cons,
      hstep1, hstep2, hstep3, Option.some_bind]
    rw [ih v hv (.object acc (some k) :: stack) .beginValue none _ (Or.inl rfl)
      (by simpa using hlen)]
    have hpush : Json.pushValue (.object acc (some k) :: stack) v =
        some ⟨.object ((k, v) :: acc) none :: stack, .endValue, none⟩ := rfl
    simp only [hpush, Option.some_bind, List.length_cons, depthMembers]
    rw [ihms ((k, v) :: acc) stack none rest hms hlen]
    by_cases h1 : stack.length + 1 + depth v ≤ Json.maxNestingDepth
    · by_cases h2 : stack.length + 1 + depthMembers ms ≤ Json.maxNestingDepth
      · have h3 : stack.length + 1 + max (depth v) (depthMembers ms) ≤
            Json.maxNestingDepth := by
          rcases Nat.le_total (depth v) (depthMembers ms) with h | h
          · rw [Nat.max_eq_right h]; exact h2
          · rw [Nat.max_eq_left h]; exact h1
        simp [h1, h2, h3]
      · have h3 : ¬ stack.length + 1 + max (depth v) (depthMembers ms) ≤
            Json.maxNestingDepth := by
          have := Nat.le_max_right (depth v) (depthMembers ms)
          omega
        simp [h1, h2, h3]
    · have h3 : ¬ stack.length + 1 + max (depth v) (depthMembers ms) ≤
          Json.maxNestingDepth := by
        have := Nat.le_max_left (depth v) (depthMembers ms)
        omega
      simp [h1, h3]

end Rfc8259

namespace Rfc8259

theorem tokensOf_length_pos (v : Json.JsonValue) : 0 < (tokensOf v).length := by
  cases v with
  | bool b => cases b <;> simp [tokensOf]
  | _ => simp [tokensOf]

theorem valueStep_scalar (v : Json.JsonValue) (tok : Json.Token)
    (htoks : tokensOf v = [tok]) (hd : depth v = 0) (hne : tok ≠ .endArray)
    (hbegin : ∀ stack, Json.beginValue stack tok = Json.pushValue stack v)
    (stack : List Json.Frame) (ex : Json.Expect) (r : Option Json.JsonValue)
    (rest : List Json.Token) (hex : ex = .beginValue ∨ ex = .beginValueOrEmpty)
    (hlen : stack.length ≤ Json.maxNestingDepth) :
    Json.parseTokens ⟨stack, ex, r⟩ (tokensOf v ++ rest) =
      if stack.length + depth v ≤ Json.maxNestingDepth then
        (Json.pushValue stack v).bind fun s2 => Json.parseTokens s2 rest
      else none := by
  have hstep : Json.parseStep ⟨stack, ex, r⟩ tok = Json.pushValue stack v := by
    rcases hex with h | h
    · subst h; exact hbegin stack
    · subst h; rw [parseStep_beginValueOrEmpty stack r tok hne]; exact hbegin stack
  rw [htoks, hd, Nat.add_zero, if_pos hlen, List.singleton_append, parseTokens_cons, hstep]

/-- What the scanner over tokens does with the tokens of any value where a
value may begin. -/
theorem valueStep_all : ∀ n, ValueStep n := by
  intro n
  induction n with
  | zero =>
    intro v hv
    have := tokensOf_length_pos v
    omega
  | succ n ih =>
    intro v hv stack ex r rest hex hlen
    cases v with
    | null => exact valueStep_scalar .null .litNull rfl rfl (by simp) (fun _ => rfl) _ _ _ _ hex hlen
    | bool b =>
      cases b with
      | true =>
        exact valueStep_scalar (.bool true) .litTrue rfl rfl (by simp) (fun _ => rfl) _ _ _ _ hex hlen
      | false =>
        exact valueStep_scalar (.bool false) .litFalse rfl rfl (by simp) (fun _ => rfl) _ _ _ _ hex hlen
    | number =>
      exact valueStep_scalar .number .number rfl rfl (by simp) (fun _ => rfl) _ _ _ _ hex hlen
    | string s =>
      exact valueStep_scalar (.string s) (.string s) rfl rfl (by simp) (fun _ => rfl) _ _ _ _ hex hlen
    | array es =>
      have hstep : Json.parseStep ⟨stack, ex, r⟩ .beginArray =
          Json.beginValue stack .beginArray := by
        rcases hex with h | h
        · subst h; rfl
        · subst h; exact parseStep_beginValueOrEmpty stack r _ (by simp)
      simp only [tokensOf, List.cons_append, List.append_assoc, parseTokens_cons, hstep,
        Json.beginValue, depth]
      by_cases hd : stack.length + 1 ≤ Json.maxNestingDepth
      · rw [if_pos hd, Option.some_bind]
        cases es with
        | nil =>
          have h2 : Json.parseStep ⟨.array [] :: stack, .beginValueOrEmpty, none⟩ .endArray =
              Json.pushValue stack (.array []) := rfl
          have h3 : stack.length + (0 + 1) ≤ Json.maxNestingDepth := by omega
          simp only [elementTokens, List.nil_append, List.singleton_append, parseTokens_cons,
            h2, depthElements, if_pos h3]
        | cons e es =>
          have hsize : ∀ x ∈ e :: es, (tokensOf x).length ≤ n := by
            intro x hx
            have h1 := length_tokensOf_le_elements (e :: es) x hx
            simp only [tokensOf, List.length_cons, List.length_append, List.length_nil] at hv
            omega
          simp only [elementTokens, List.append_assoc, List.singleton_append]
          rw [ih e (hsize e (List.mem_cons_self _ _)) (.array [] :: stack) .beginValueOrEmpty
            none _ (Or.inr rfl) (by simpa using hd)]
          have hpush : Json.pushValue (.array [] :: stack) e =
              some ⟨.array [e] :: stack, .endValue, none⟩ := rfl
          simp only [hpush, Option.some_bind, List.length_cons, depthElements, List.nil_append]
          rw [parse_moreElements n ih es [e] stack none rest
            (fun x hx => hsize x (List.mem_cons_of_mem _ hx)) hd]
          simp only [List.reverse_cons, List.reverse_nil, List.nil_append,
            List.singleton_append]
          by_cases h1 : stack.length + 1 + depth e ≤ Json.maxNestingDepth
          · by_cases h2 : stack.length + 1 + depthElements es ≤ Json.maxNestingDepth
            · have h3 : stack.length + (max (depth e) (depthElements es) + 1) ≤
                  Json.maxNestingDepth := by
                rcases Nat.le_total (depth e) (depthElements es) with h | h
                · rw [Nat.max_eq_right h]; omega
                · rw [Nat.max_eq_left h]; omega
              simp [h1, h2, h3]
            · have h3 : ¬ stack.length + (max (depth e) (depthElements es) + 1) ≤
                  Json.maxNestingDepth := by
                have := Nat.le_max_right (depth e) (depthElements es)
                omega
              simp [h1, h2, h3]
          · have h3 : ¬ stack.length + (max (depth e) (depthElements es) + 1) ≤
                Json.maxNestingDepth := by
              have := Nat.le_max_left (depth e) (depthElements es)
              omega
            simp [h1, h3]
      · have h3 : ¬ stack.length + (depthElements es + 1) ≤ Json.maxNestingDepth := by omega
        rw [if_neg hd, if_neg h3]
        rfl
    | object ms =>
      have hstep : Json.parseStep ⟨stack, ex, r⟩ .beginObject =
          Json.beginValue stack .beginObject := by
        rcases hex with h | h
        · subst h; rfl
        · subst h; exact parseStep_beginValueOrEmpty stack r _ (by simp)
      simp only [tokensOf, List.cons_append, List.append_assoc, parseTokens_cons, hstep,
        Json.beginValue, depth]
      by_cases hd : stack.length + 1 ≤ Json.maxNestingDepth
      · rw [if_pos hd, Option.some_bind]
        cases ms with
        | nil =>
          have h2 : Json.parseStep ⟨.object [] none :: stack, .beginStringOrEmpty, none⟩
              .endObject = Json.pushValue stack (.object []) := rfl
          have h3 : stack.length + (0 + 1) ≤ Json.maxNestingDepth := by omega
          simp only [memberTokens, List.nil_append, List.singleton_append, parseTokens_cons,
            h2, depthMembers, if_pos h3]
        | cons m ms =>
          obtain ⟨k, v⟩ := m
          have hsize : ∀ x ∈ (k, v) :: ms, (tokensOf x.2).length ≤ n := by
            intro x hx
            have h1 := length_tokensOf_le_members ((k, v) :: ms) x hx
            simp only [tokensOf, List.length_cons, List.length_append, List.length_nil] at hv
            omega
          have hs1 : Json.parseStep ⟨.object [] none :: stack, .beginStringOrEmpty, none⟩
              (.string k) = some ⟨.object [] (some k) :: stack, .endValue, none⟩ := rfl
          have hs2 : Json.parseStep ⟨.object [] (some k) :: stack, .endValue, none⟩ .colon =
              some ⟨.object [] (some k) :: stack, .beginValue, none⟩ := rfl
          simp only [memberTokens, List.cons_append, List.append_assoc, List.singleton_append,
            parseTokens_cons, hs1, hs2, Option.some_bind]
          rw [ih v (hsize (k, v) (List.mem_cons_self _ _)) (.object [] (some k) :: stack)
            .beginValue none _ (Or.inl rfl) (by simpa using hd)]
          have hpush : Json.pushValue (.object [] (some k) :: stack) v =
              some ⟨.object [(k, v)] none :: stack, .endValue, none⟩ := rfl
          simp only [hpush, Option.some_bind, List.length_cons, depthMembers, List.nil_append]
          rw [parse_moreMembers n ih ms [(k, v)] stack none rest
            (fun x hx => hsize x (List.mem_cons_of_mem _ hx)) hd]
          simp only [List.reverse_cons, List.reverse_nil, List.nil_append,
            List.singleton_append]
          by_cases h1 : stack.length + 1 + depth v ≤ Json.maxNestingDepth
          · by_cases h2 : stack.length + 1 + depthMembers ms ≤ Json.maxNestingDepth
            · have h3 : stack.length + (max (depth v) (depthMembers ms) + 1) ≤
                  Json.maxNestingDepth := by
                rcases Nat.le_total (depth v) (depthMembers ms) with h | h
                · rw [Nat.max_eq_right h]; omega
                · rw [Nat.max_eq_left h]; omega
              simp [h1, h2, h3]
            · have h3 : ¬ stack.length + (max (depth v) (depthMembers ms) + 1) ≤
                  Json.maxNestingDepth := by
                have := Nat.le_max_right (depth v) (depthMembers ms)
                omega
              simp [h1, h2, h3]
          · have h3 : ¬ stack.length + (max (depth v) (depthMembers ms) + 1) ≤
                Json.maxNestingDepth := by
              have := Nat.le_max_left (depth v) (depthMembers ms)
              omega
            simp [h1, h3]
      · have h3 : ¬ stack.length + (depthMembers ms + 1) ≤ Json.maxNestingDepth := by omega
        rw [if_neg hd, if_neg h3]
        rfl

/-- The scanner over tokens accepts the tokens of a value with that value
when the value is nested no deeper than the scanner allows, and refuses them
otherwise. -/
theorem parseTokens_tokensOf (v : Json.JsonValue) :
    Json.parseTokens ⟨[], .beginValue, none⟩ (tokensOf v) =
      if depth v ≤ Json.maxNestingDepth then some v else none := by
  have h := valueStep_all (tokensOf v).length v (Nat.le_refl _) [] .beginValue none []
    (Or.inl rfl) (Nat.zero_le _)
  simp only [List.append_nil, List.length_nil, Nat.zero_add] at h
  rw [h]
  by_cases hd : depth v ≤ Json.maxNestingDepth
  · simp [hd, Json.pushValue, Json.parseTokens]
  · simp [hd]

end Rfc8259

/-! ## The tokens of a value: no two numbers in a row, and depth -/

namespace Rfc8259

theorem noAdj_cons_of_ne (t : Json.Token) (rest : List Json.Token) (ht : t ≠ .number)
    (h : NoAdj rest) : NoAdj (t :: rest) := by
  cases rest with
  | nil => trivial
  | cons b r => exact ⟨fun hc => ht hc.1, h⟩

theorem noAdj_number_cons (rest : List Json.Token) (hh : ∀ r, rest ≠ .number :: r)
    (h : NoAdj rest) : NoAdj (.number :: rest) := by
  cases rest with
  | nil => trivial
  | cons b r => exact ⟨fun hc => hh r (by rw [hc.2]), h⟩

theorem noAdj_scalar (v : Json.JsonValue) (tok : Json.Token) (htoks : tokensOf v = [tok])
    (rest : List Json.Token) (hh : ∀ r, rest ≠ .number :: r) (h : NoAdj rest) :
    NoAdj (tokensOf v ++ rest) := by
  rw [htoks, List.singleton_append]
  by_cases ht : tok = .number
  · subst ht; exact noAdj_number_cons rest hh h
  · exact noAdj_cons_of_ne tok rest ht h

/-- The tokens of values of at most `n` tokens, followed by tokens that do not
start with a number, hold no two numbers in a row. -/
theorem noAdj_tokensOf_append : ∀ (n : Nat) (v : Json.JsonValue), (tokensOf v).length ≤ n →
    ∀ rest : List Json.Token, (∀ r, rest ≠ .number :: r) → NoAdj rest →
      NoAdj (tokensOf v ++ rest) := by
  intro n
  induction n with
  | zero =>
    intro v hv
    have := tokensOf_length_pos v
    omega
  | succ n ih =>
    intro v hv rest hh h
    cases v with
    | null => exact noAdj_scalar .null .litNull rfl rest hh h
    | bool b =>
      cases b with
      | true => exact noAdj_scalar (.bool true) .litTrue rfl rest hh h
      | false => exact noAdj_scalar (.bool false) .litFalse rfl rest hh h
    | number => exact noAdj_scalar .number .number rfl rest hh h
    | string s => exact noAdj_scalar (.string s) (.string s) rfl rest hh h
    | array es =>
      have hmore : ∀ es : List Json.JsonValue, (∀ x ∈ es, (tokensOf x).length ≤ n) →
          NoAdj (moreElementTokens es ++ .endArray :: rest) ∧
          ∀ r, moreElementTokens es ++ .endArray :: rest ≠ .number :: r := by
        intro es
        induction es with
        | nil =>
          intro _
          exact ⟨noAdj_cons_of_ne _ _ (by simp) h, by simp [moreElementTokens]⟩
        | cons e es ihes =>
          intro hs
          have h2 := ihes (fun x hx => hs x (List.mem_cons_of_mem _ hx))
          refine ⟨?_, by simp [moreElementTokens]⟩
          simp only [moreElementTokens, List.cons_append, List.append_assoc]
          exact noAdj_cons_of_ne _ _ (by simp)
            (ih e (hs e (List.mem_cons_self _ _)) _ h2.2 h2.1)
      simp only [tokensOf, List.cons_append, List.append_assoc, List.singleton_append]
      refine noAdj_cons_of_ne _ _ (by simp) ?_
      cases es with
      | nil => exact noAdj_cons_of_ne _ _ (by simp) h
      | cons e es =>
        have hsize : ∀ x ∈ e :: es, (tokensOf x).length ≤ n := by
          intro x hx
          have h1 := length_tokensOf_le_elements (e :: es) x hx
          simp only [tokensOf, List.length_cons, List.length_append, List.length_nil] at hv
          omega
        have h2 := hmore es (fun x hx => hsize x (List.mem_cons_of_mem _ hx))
        simp only [elementTokens, List.append_assoc]
        exact ih e (hsize e (List.mem_cons_self _ _)) _ h2.2 h2.1
    | object ms =>
      have hmore : ∀ ms : List (String × Json.JsonValue),
          (∀ x ∈ ms, (tokensOf x.2).length ≤ n) →
          NoAdj (moreMemberTokens ms ++ .endObject :: rest) ∧
          ∀ r, moreMemberTokens ms ++ .endObject :: rest ≠ .number :: r := by
        intro ms
        induction ms with
        | nil =>
          intro _
          exact ⟨noAdj_cons_of_ne _ _ (by simp) h, by simp [moreMemberTokens]⟩
        | cons m ms ihms =>
          obtain ⟨k, v⟩ := m
          intro hs
          have h2 := ihms (fun x hx => hs x (List.mem_cons_of_mem _ hx))
          refine ⟨?_, by simp [moreMemberTokens]⟩
          simp only [moreMemberTokens, List.cons_append, List.append_assoc]
          exact noAdj_cons_of_ne _ _ (by simp) (noAdj_cons_of_ne _ _ (by simp)
            (noAdj_cons_of_ne _ _ (by simp)
              (ih v (hs (k, v) (List.mem_cons_self _ _)) _ h2.2 h2.1)))
      simp only [tokensOf, List.cons_append, List.append_assoc, List.singleton_append]
      refine noAdj_cons_of_ne _ _ (by simp) ?_
      cases ms with
      | nil => exact noAdj_cons_of_ne _ _ (by simp) h
      | cons m ms =>
        obtain ⟨k, v⟩ := m
        have hsize : ∀ x ∈ (k, v) :: ms, (tokensOf x.2).length ≤ n := by
          intro x hx
          have h1 := length_tokensOf_le_members ((k, v) :: ms) x hx
          simp only [tokensOf, List.length_cons, List.length_append, List.length_nil] at hv
          omega
        have h2 := hmore ms (fun x hx => hsize x (List.mem_cons_of_mem _ hx))
        simp only [memberTokens, List.cons_append, List.append_assoc]
        exact noAdj_cons_of_ne _ _ (by simp) (noAdj_cons_of_ne _ _ (by simp)
          (ih v (hsize (k, v) (List.mem_cons_self _ _)) _ h2.2 h2.1))

/-- The tokens of a value hold no two numbers in a row. -/
theorem noAdj_tokensOf (v : Json.JsonValue) : NoAdj (tokensOf v) := by
  have h := noAdj_tokensOf_append (tokensOf v).length v (Nat.le_refl _) [] (by simp) trivial
  rwa [List.append_nil] at h

/-- A value is nested less deep than it has tokens. -/
theorem depth_lt_length : ∀ (n : Nat) (v : Json.JsonValue), (tokensOf v).length ≤ n →
    depth v < (tokensOf v).length := by
  intro n
  induction n with
  | zero =>
    intro v hv
    have := tokensOf_length_pos v
    omega
  | succ n ih =>
    intro v hv
    cases v with
    | null => simp [depth, tokensOf]
    | bool b => cases b <;> simp [depth, tokensOf]
    | number => simp [depth, tokensOf]
    | string s => simp [depth, tokensOf]
    | array es =>
      have hmore : ∀ es : List Json.JsonValue, (∀ x ∈ es, (tokensOf x).length ≤ n) →
          depthElements es ≤ (moreElementTokens es).length := by
        intro es
        induction es with
        | nil => intro _; simp [depthElements]
        | cons e es ihes =>
          intro hs
          have h1 := ihes (fun x hx => hs x (List.mem_cons_of_mem _ hx))
          have h2 := ih e (hs e (List.mem_cons_self _ _))
          simp only [depthElements, moreElementTokens, List.length_cons, List.length_append]
          rcases Nat.le_total (depth e) (depthElements es) with h | h
          · rw [Nat.max_eq_right h]; omega
          · rw [Nat.max_eq_left h]; omega
      cases es with
      | nil => simp [depth, depthElements, tokensOf, elementTokens]
      | cons e es =>
        have hsize : ∀ x ∈ e :: es, (tokensOf x).length ≤ n := by
          intro x hx
          have h1 := length_tokensOf_le_elements (e :: es) x hx
          simp only [tokensOf, List.length_cons, List.length_append, List.length_nil] at hv
          omega
        have h1 := hmore es (fun x hx => hsize x (List.mem_cons_of_mem _ hx))
        have h2 := ih e (hsize e (List.mem_cons_self _ _))
        simp only [depth, depthElements, tokensOf, elementTokens, List.length_cons,
          List.length_append, List.length_nil]
        rcases Nat.le_total (depth e) (depthElements es) with h | h
        · rw [Nat.max_eq_right h]; omega
        · rw [Nat.max_eq_left h]; omega
    | object ms =>
      have hmore : ∀ ms : List (String × Json.JsonValue),
          (∀ x ∈ ms, (tokensOf x.2).length ≤ n) →
          depthMembers ms ≤ (moreMemberTokens ms).length := by
        intro ms
        induction ms with
        | nil => intro _; simp [depthMembers]
        | cons m ms ihms =>
          obtain ⟨k, v⟩ := m
          intro hs
          have h1 := ihms (fun x hx => hs x (List.mem_cons_of_mem _ hx))
          have h2 := ih v (hs (k, v) (List.mem_cons_self _ _))
          simp only [depthMembers, moreMemberTokens, List.length_cons, List.length_append]
          rcases Nat.le_total (depth v) (depthMembers ms) with h | h
          · rw [Nat.max_eq_right h]; omega
          · rw [Nat.max_eq_left h]; omega
      cases ms with
      | nil => simp [depth, depthMembers, tokensOf, memberTokens]
      | cons m ms =>
        obtain ⟨k, v⟩ := m
        have hsize : ∀ x ∈ (k, v) :: ms, (tokensOf x.2).length ≤ n := by
          intro x hx
          have h1 := length_tokensOf_le_members ((k, v) :: ms) x hx
          simp only [tokensOf, List.length_cons, List.length_append, List.length_nil] at hv
          omega
        have h1 := hmore ms (fun x hx => hsize x (List.mem_cons_of_mem _ hx))
        have h2 := ih v (hsize (k, v) (List.mem_cons_self _ _))
        simp only [depth, depthMembers, tokensOf, memberTokens, List.length_cons,
          List.length_append, List.length_nil]
        rcases Nat.le_total (depth v) (depthMembers ms) with h | h
        · rw [Nat.max_eq_right h]; omega
        · rw [Nat.max_eq_left h]; omega

/-- Every token takes at least one character of the text. -/
theorem length_le_of_lexes (text : List Char) (toks : List Json.Token) (h : Lexes text toks) :
    toks.length ≤ text.length := by
  induction h with
  | done ws _ => simp
  | token ws t rest tok toks _ hlex _ ih =>
    have hne := lexeme_ne_nil tok t hlex
    have : 0 < t.length := List.length_pos.mpr hne
    simp only [List.length_append, List.length_cons]
    omega

/-- A value is nested less deep than its text is long. -/
theorem depth_lt_text_length (text : List Char) (v : Json.JsonValue) (h : JsonText text v) :
    depth v < text.length :=
  Nat.lt_of_lt_of_le (depth_lt_length _ v (Nat.le_refl _)) (length_le_of_lexes text _ h)

/-! ## The scanner accepts exactly the texts of the grammar -/

/-- The scanner is complete for the grammar: the text of a value scans as
that value, unless the value is nested deeper than the scanner allows, when the
text is refused. -/
theorem parse_of_jsonText (text : List Char) (v : Json.JsonValue) (h : JsonText text v) :
    Json.parse text =
      if depth v ≤ Json.maxNestingDepth then some v else none := by
  have hl : Json.lex text = some (tokensOf v) :=
    lexFrom_of_lexes text (tokensOf v) h (noAdj_tokensOf v)
  rw [Json.parse, hl]
  exact parseTokens_tokensOf v

/-- The text of a value nested no deeper than the scanner allows scans as that
value. -/
theorem parse_of_jsonText_of_depth (text : List Char) (v : Json.JsonValue)
    (h : JsonText text v) (hd : depth v ≤ Json.maxNestingDepth) :
    Json.parse text = some v := by
  rw [parse_of_jsonText text v h, if_pos hd]

/-- A text has at most one value, up to the depth the scanner allows. -/
theorem jsonText_unique (text : List Char) (v w : Json.JsonValue)
    (hv : JsonText text v) (hw : JsonText text w) (hlen : text.length ≤ Json.maxNestingDepth) :
    v = w := by
  have h1 := parse_of_jsonText_of_depth text v hv
    (Nat.le_trans (Nat.le_of_lt (depth_lt_text_length text v hv)) hlen)
  have h2 := parse_of_jsonText_of_depth text w hw
    (Nat.le_trans (Nat.le_of_lt (depth_lt_text_length text w hw)) hlen)
  rw [h1] at h2
  exact Option.some.inj h2

/-- A text the scanner refuses is no text of the grammar, unless it is longer
than the depth the scanner allows. -/
theorem not_jsonText_of_parse_none (text : List Char)
    (hlen : text.length ≤ Json.maxNestingDepth) (h : Json.parse text = none) :
    ¬ ∃ v, JsonText text v := by
  rintro ⟨v, hv⟩
  have h1 := parse_of_jsonText_of_depth text v hv
    (Nat.le_trans (Nat.le_of_lt (depth_lt_text_length text v hv)) hlen)
  rw [h] at h1
  cases h1

/-- A text is one of the grammar, of a value nested no deeper than the scanner
allows, exactly when the scanner accepts it with that value. -/
theorem parse_eq_some_iff (text : List Char) (v : Json.JsonValue) :
    Json.parse text = some v ↔ JsonText text v ∧ depth v ≤ Json.maxNestingDepth := by
  constructor
  · intro h
    have hv := jsonText_of_parse text v h
    refine ⟨hv, ?_⟩
    by_contra hd
    rw [parse_of_jsonText text v hv, if_neg hd] at h
    cases h
  · rintro ⟨hv, hd⟩
    exact parse_of_jsonText_of_depth text v hv hd

end Rfc8259

/-! ## Texts of the grammar, written out -/

namespace Rfc8259

theorem charsText_append (a b : List Char) (ua ub : List Json.StrUnit)
    (ha : CharsText a ua) (hb : CharsText b ub) : CharsText (a ++ b) (ua ++ ub) := by
  induction ha with
  | nil => exact hb
  | cons t ts u us ht _ ih =>
    rw [List.append_assoc, List.cons_append]
    exact CharsText.cons t (ts ++ b) u (us ++ ub) ht ih

/-- Characters that need no escape stand for themselves. -/
theorem charsText_plain (cs : List Char)
    (h : ∀ c ∈ cs, 0x20 ≤ c.toNat ∧ c.toNat ≠ 0x22 ∧ c.toNat ≠ 0x5C) :
    CharsText cs (cs.map .chr) := by
  induction cs with
  | nil => exact CharsText.nil
  | cons c cs ih =>
    have hc := h c (List.mem_cons_self _ _)
    exact CharsText.cons [c] cs (.chr c) (cs.map .chr)
      (CharText.unescaped c hc.1 hc.2.1 hc.2.2)
      (ih fun x hx => h x (List.mem_cons_of_mem _ hx))

theorem denotes_plain_append (cs : List Char) (us : List Json.StrUnit) (rest : List Char)
    (h : Denotes us rest) : Denotes (cs.map .chr ++ us) (cs ++ rest) := by
  induction cs with
  | nil => exact h
  | cons c cs ih => exact Denotes.chr c _ _ ih

/-- A string of characters that need no escape, between quotation marks. -/
theorem lexeme_plain (s : String)
    (h : ∀ c ∈ s.data, 0x20 ≤ c.toNat ∧ c.toNat ≠ 0x22 ∧ c.toNat ≠ 0x5C) :
    Lexeme (.string s) (Char.ofNat 0x22 :: (s.data ++ [Char.ofNat 0x22])) := by
  have hd := denotes_plain_append s.data [] [] Denotes.nil
  rw [List.append_nil, List.append_nil] at hd
  exact Lexeme.string _ _ (StringText.mk s.data (s.data.map .chr) s.data
    (charsText_plain s.data h) hd)

/-- A string between quotation marks. -/
theorem lexeme_string (body : List Char) (units : List Json.StrUnit) (cs : List Char)
    (h1 : CharsText body units) (h2 : Denotes units cs) :
    Lexeme (.string (String.mk cs)) (Char.ofNat 0x22 :: (body ++ [Char.ofNat 0x22])) :=
  Lexeme.string _ _ (StringText.mk body units cs h1 h2)

theorem lexes_nil : Lexes [] [] := Lexes.done [] (fun c hc => by cases hc)

end Rfc8259

/-- The payload of the scenario is a text of the grammar. -/
theorem scenarioPayload_jsonText :
    Rfc8259.JsonText scenarioPayload.toList (flatObject [("db_password", "hunter2")]) := by
  have h1 := Rfc8259.lexes_cons_token _ _ _ _ Rfc8259.Lexeme.endObject Rfc8259.lexes_nil
  have h2 := Rfc8259.lexes_cons_token _ _ _ _ (Rfc8259.lexeme_plain "hunter2" (by decide)) h1
  have h3 := Rfc8259.lexes_cons_token _ _ _ _ Rfc8259.Lexeme.colon h2
  have h4 := Rfc8259.lexes_cons_token _ _ _ _
    (Rfc8259.lexeme_plain "db_password" (by decide)) h3
  exact Rfc8259.lexes_cons_token _ _ _ _ Rfc8259.Lexeme.beginObject h4

/-- The payload with blanks and escapes is a text of the grammar: the blanks
are insignificant, `\"` stands for a quotation mark, `\\` for a reverse
solidus and `\u0041` for `A`. -/
theorem spacedPayload_jsonText :
    Rfc8259.JsonText spacedPayload.toList (flatObject spacedMembers) := by
  have h1 := Rfc8259.lexes_cons_ws ' ' _ _ (Or.inl rfl)
    (Rfc8259.lexes_cons_token _ _ _ _ Rfc8259.Lexeme.endObject Rfc8259.lexes_nil)
  have h2 := Rfc8259.lexes_cons_ws ' ' _ _ (Or.inl rfl)
    (Rfc8259.lexes_cons_token _ _ _ _
      (Rfc8259.lexeme_string _ _ ['C', ':', '\\', 'd', 'i', 'r', 'A']
        (Rfc8259.charsText_append _ _ _ _ (Rfc8259.charsText_plain ['C', ':'] (by decide))
          (Rfc8259.CharsText.cons _ _ _ _ Rfc8259.CharText.reverseSolidus
            (Rfc8259.charsText_append _ _ _ _
              (Rfc8259.charsText_plain ['d', 'i', 'r'] (by decide))
              (Rfc8259.CharsText.cons _ _ _ _
                (Rfc8259.CharText.hex '0' '0' '4' '1' 0 0 4 1
                  (Rfc8259.HexDigit.digit '0' (by decide) (by decide))
                  (Rfc8259.HexDigit.digit '0' (by decide) (by decide))
                  (Rfc8259.HexDigit.digit '4' (by decide) (by decide))
                  (Rfc8259.HexDigit.digit '1' (by decide) (by decide)))
                Rfc8259.CharsText.nil))))
        (Rfc8259.denotes_plain_append ['C', ':', '\\', 'd', 'i', 'r'] [.u16 0x41] ['A']
          (Rfc8259.Denotes.scalar 0x41 [] [] (by decide) Rfc8259.Denotes.nil))) h1)
  have h3 := Rfc8259.lexes_cons_ws ' ' _ _ (Or.inl rfl)
    (Rfc8259.lexes_cons_token _ _ _ _ Rfc8259.Lexeme.colon h2)
  have h4 := Rfc8259.lexes_cons_ws '\n' _ _ (Or.inr (Or.inr (Or.inl rfl)))
    (Rfc8259.lexes_cons_ws '\t' _ _ (Or.inr (Or.inl rfl))
      (Rfc8259.lexes_cons_token _ _ _ _
        (Rfc8259.lexeme_string _ _ ['p', 'a', '"', 't', 'h']
          (Rfc8259.charsText_append _ _ _ _ (Rfc8259.charsText_plain ['p', 'a'] (by decide))
            (Rfc8259.CharsText.cons _ _ _ _ Rfc8259.CharText.quotationMark
              (Rfc8259.charsText_plain ['t', 'h'] (by decide))))
          (Rfc8259.denotes_plain_append ['p', 'a', '"', 't', 'h'] [] []
            Rfc8259.Denotes.nil)) h3))
  have h5 := Rfc8259.lexes_cons_ws ' ' _ _ (Or.inl rfl)
    (Rfc8259.lexes_cons_token _ _ _ _ Rfc8259.Lexeme.comma h4)
  have h6 := Rfc8259.lexes_cons_ws ' ' _ _ (Or.inl rfl)
    (Rfc8259.lexes_cons_token _ _ _ _ (Rfc8259.lexeme_plain "hunter2" (by decide)) h5)
  have h7 := Rfc8259.lexes_cons_ws ' ' _ _ (Or.inl rfl)
    (Rfc8259.lexes_cons_token _ _ _ _ Rfc8259.Lexeme.colon h6)
  have h8 := Rfc8259.lexes_cons_ws ' ' _ _ (Or.inl rfl)
    (Rfc8259.lexes_cons_token _ _ _ _
      (Rfc8259.lexeme_plain "db_password" (by decide)) h7)
  exact Rfc8259.lexes_cons_token _ _ _ _ Rfc8259.Lexeme.beginObject h8

/-- The payload that repeats a name is a text of the grammar, of the document
with both members. -/
theorem repeatedPayload_jsonText :
    Rfc8259.JsonText repeatedPayload.toList (flatObject [("a", "1"), ("a", "2")]) := by
  have h1 := Rfc8259.lexes_cons_token _ _ _ _ Rfc8259.Lexeme.endObject Rfc8259.lexes_nil
  have h2 := Rfc8259.lexes_cons_token _ _ _ _ (Rfc8259.lexeme_plain "2" (by decide)) h1
  have h3 := Rfc8259.lexes_cons_token _ _ _ _ Rfc8259.Lexeme.colon h2
  have h4 := Rfc8259.lexes_cons_token _ _ _ _ (Rfc8259.lexeme_plain "a" (by decide)) h3
  have h5 := Rfc8259.lexes_cons_token _ _ _ _ Rfc8259.Lexeme.comma h4
  have h6 := Rfc8259.lexes_cons_token _ _ _ _ (Rfc8259.lexeme_plain "1" (by decide)) h5
  have h7 := Rfc8259.lexes_cons_token _ _ _ _ Rfc8259.Lexeme.colon h6
  have h8 := Rfc8259.lexes_cons_token _ _ _ _ (Rfc8259.lexeme_plain "a" (by decide)) h7
  exact Rfc8259.lexes_cons_token _ _ _ _ Rfc8259.Lexeme.beginObject h8

/-- The payload with a nested object is a text of the grammar, of an object
whose member `a` is an object. -/
theorem nestedPayload_jsonText :
    Rfc8259.JsonText nestedPayload.toList (.object [("a", .object [("nested", .number)])]) := by
  have h1 := Rfc8259.lexes_cons_token _ _ _ _ Rfc8259.Lexeme.endObject
    (Rfc8259.lexes_cons_token _ _ _ _ Rfc8259.Lexeme.endObject Rfc8259.lexes_nil)
  have h2 := Rfc8259.lexes_cons_ws ' ' _ _ (Or.inl rfl)
    (Rfc8259.lexes_cons_token _ _ _ _
      (Rfc8259.Lexeme.number _ (Rfc8259.NumberText.positive ['1'] [] []
        (Rfc8259.IntPart.digits '1' [] ⟨by decide, by decide⟩ (fun c hc => by cases hc))
        Rfc8259.FracOpt.absent Rfc8259.ExpOpt.absent)) h1)
  have h3 := Rfc8259.lexes_cons_token _ _ _ _ Rfc8259.Lexeme.colon h2
  have h4 := Rfc8259.lexes_cons_token _ _ _ _ (Rfc8259.lexeme_plain "nested" (by decide)) h3
  have h5 := Rfc8259.lexes_cons_ws ' ' _ _ (Or.inl rfl)
    (Rfc8259.lexes_cons_token _ _ _ _ Rfc8259.Lexeme.beginObject h4)
  have h6 := Rfc8259.lexes_cons_token _ _ _ _ Rfc8259.Lexeme.colon h5
  have h7 := Rfc8259.lexes_cons_token _ _ _ _ (Rfc8259.lexeme_plain "a" (by decide)) h6
  exact Rfc8259.lexes_cons_token _ _ _ _ Rfc8259.Lexeme.beginObject h7

/-- The payload `["a"]` is a text of the grammar, of an array. -/
theorem arrayPayload_jsonText :
    Rfc8259.JsonText arrayPayload.toList (.array [.string "a"]) := by
  have h1 := Rfc8259.lexes_cons_token _ _ _ _ Rfc8259.Lexeme.endArray Rfc8259.lexes_nil
  have h2 := Rfc8259.lexes_cons_token _ _ _ _ (Rfc8259.lexeme_plain "a" (by decide)) h1
  exact Rfc8259.lexes_cons_token _ _ _ _ Rfc8259.Lexeme.beginArray h2

/-- The payload with text after its object is no text of the grammar. -/
theorem trailingPayload_not_jsonText :
    ¬ ∃ v, Rfc8259.JsonText trailingPayload.toList v :=
  Rfc8259.not_jsonText_of_parse_none _ (by decide) rfl

/-! ## Flat documents -/

theorem depthMembers_flat (ms : List (String × String)) :
    Rfc8259.depthMembers (ms.map fun p => (p.1, Json.JsonValue.string p.2)) = 0 := by
  induction ms with
  | nil => rfl
  | cons p rest ih =>
    simp only [List.map_cons, Rfc8259.depthMembers, Rfc8259.depth, ih, Nat.max_self]

/-- The text of a flat document scans as that document. -/
theorem parse_flat_of_jsonText (text : List Char) (ms : List (String × String))
    (h : Rfc8259.JsonText text (flatObject ms)) :
    Json.parse text = some (flatObject ms) := by
  apply Rfc8259.parse_of_jsonText_of_depth text _ h
  simp only [flatObject, Rfc8259.depth, depthMembers_flat]
  decide

theorem memberValue_none_of_no_name (k : String) (ms : List (String × String))
    (h : ∀ p ∈ ms, p.1 ≠ k) : memberValue k ms = none := by
  induction ms with
  | nil => rfl
  | cons p rest ih =>
    obtain ⟨a, b⟩ := p
    have ha : a ≠ k := h (a, b) (List.mem_cons_self _ _)
    simp only [memberValue, ih (fun q hq => h q (List.mem_cons_of_mem _ hq)), if_neg ha]

/-- The value of a name is the value of the last member of that name. -/
theorem memberValue_last (k v : String) (pre post : List (String × String))
    (h : ∀ p ∈ post, p.1 ≠ k) : memberValue k (pre ++ (k, v) :: post) = some v := by
  induction pre with
  | nil =>
    simp only [List.nil_append, memberValue, memberValue_none_of_no_name k post h, if_true]
  | cons p rest ih =>
    obtain ⟨a, b⟩ := p
    show (match memberValue k (rest ++ (k, v) :: post) with
      | some w => some w
      | none => if a = k then some b else none) = some v
    rw [ih]

theorem mem_of_memberValue (k w : String) (ms : List (String × String))
    (h : memberValue k ms = some w) : (k, w) ∈ ms := by
  induction ms with
  | nil => cases h
  | cons p rest ih =>
    obtain ⟨a, b⟩ := p
    simp only [memberValue] at h
    cases hr : memberValue k rest with
    | some w2 =>
      rw [hr] at h
      cases h
      exact List.mem_cons_of_mem _ (ih hr)
    | none =>
      rw [hr] at h
      by_cases hab : a = k
      · rw [if_pos hab] at h
        cases h
        rw [hab]
        exact List.mem_cons_self _ _
      · rw [if_neg hab] at h
        cases h

/-- Every name of a document has a value, the value of one of the members of
that name. -/
theorem memberValue_of_name (k v : String) (ms : List (String × String))
    (hmem : (k, v) ∈ ms) : ∃ w, memberValue k ms = some w ∧ (k, w) ∈ ms := by
  have hex : ∃ w, memberValue k ms = some w := by
    induction ms with
    | nil => cases hmem
    | cons p rest ih =>
      obtain ⟨a, b⟩ := p
      cases hr : memberValue k rest with
      | some w => exact ⟨w, by simp only [memberValue, hr]⟩
      | none =>
        rcases List.mem_cons.mp hmem with e | e
        · cases e
          exact ⟨v, by simp only [memberValue, hr, if_true]⟩
        · obtain ⟨w, hw⟩ := ih e
          rw [hr] at hw
          cases hw
  obtain ⟨w, hw⟩ := hex
  exact ⟨w, hw, mem_of_memberValue k w ms hw⟩

/-- Every flat document has a text of the grammar, its compact rendering,
whatever characters its names and values hold. -/
theorem renderDocument_jsonText (ms : List (String × String)) :
    Rfc8259.JsonText (renderDocument ms).toList (flatObject ms) :=
  Rfc8259.jsonText_of_parse _ _ (parse_renderDocument ms)

/-! ## Construction: the claims -/

/-- C3, as amended: for both constructors, when the session set-up and the fetch
succeed and the payload is a well-formed JSON text (RFC 8259) of a flat object of
string values with members `ms`, construction succeeds (a backend and no error
are returned), and on the constructed backend every key `k` of the document is
retrievable: `GetSecretOutput(k)` returns no `Error` and as `Value`, unchanged,
the string value of the last member named `k`. So a member `(k, v)` after which
the document has no member named `k` reads back as `v`; in particular every
member whose name the document does not repeat with another value does. -/
theorem new_backend_roundtrip (ms : List (String × String)) (payload : String)
    (hdoc : Rfc8259.JsonText payload.toList (flatObject ms)) :
    (∀ (env : Aws.Env) (backendId : String) (backendConfig : GoMap) (cfg : Aws.AwsConfig),
        env.NewAwsConfigFromBackendConfig backendId backendConfig = .ok cfg →
        env.GetSecretValue ⟨cfg⟩ (backendConfig.index "secret_id") = .ok ⟨some payload⟩ →
        ∃ b, (Aws.NewAwsSecretsManagerBackend env backendId backendConfig).1 =
              .ret (some b) none ∧
          (∀ k v, (k, v) ∈ ms → ∃ w, (k, w) ∈ ms ∧
            (Aws.GetSecretOutput b k).output = { Value := some w, Error := none }) ∧
          (∀ pre post k v, ms = pre ++ (k, v) :: post → (∀ p ∈ post, p.1 ≠ k) →
            (Aws.GetSecretOutput b k).output = { Value := some v, Error := none }) ∧
          (∀ k v, memberValue k ms = some v →
            (Aws.GetSecretOutput b k).output = { Value := some v, Error := none }) ∧
          (∀ k v, (k, v) ∈ ms → (∀ v', (k, v') ∈ ms → v' = v) →
            (Aws.GetSecretOutput b k).output = { Value := some v, Error := none })) ∧
    (∀ (env : Azure.Env) (backendId : String) (bc : List (String × Azure.RawValue))
        (backendConfig : Azure.AzureKeyVaultBackendConfig) (cfg : Azure.Authorizer),
        env.Decode bc .zero = .ok backendConfig →
        env.NewAzureConfigFromBackendConfig backendId backendConfig.AzureSession = .ok cfg →
        env.GetSecret cfg backendConfig.KeyVaultURL backendConfig.SecretId "latest" =
          .ok ⟨some payload⟩ →
        ∃ b, (Azure.NewAzureKeyVaultBackend env backendId bc).1 = .ret (some b) none ∧
          (∀ k v, (k, v) ∈ ms → ∃ w, (k, w) ∈ ms ∧
            (Azure.GetSecretOutput b k).output = { Value := some w, Error := none }) ∧
          (∀ pre post k v, ms = pre ++ (k, v) :: post → (∀ p ∈ post, p.1 ≠ k) →
            (Azure.GetSecretOutput b k).output = { Value := some v, Error := none }) ∧
          (∀ k v, memberValue k ms = some v →
            (Azure.GetSecretOutput b k).output = { Value := some v, Error := none }) ∧
          (∀ k v, (k, v) ∈ ms → (∀ v', (k, v') ∈ ms → v' = v) →
            (Azure.GetSecretOutput b k).output = { Value := some v, Error := none })) := by
  have hparse := parse_flat_of_jsonText payload.toList ms hdoc
  refine ⟨fun env backendId backendConfig cfg hs hf => ?_,
    fun env backendId bc backendConfig cfg hd hs hf => ?_⟩
  · rw [aws_new_of_payload env backendId backendConfig cfg payload hs hf,
      unmarshal_flat payload ms hparse]
    have hget : ∀ k v, memberValue k ms = some v →
        (Aws.GetSecretOutput
          { BackendId := backendId, Client := ⟨cfg⟩, Config := backendConfig,
            Secret := ms.foldl (fun acc p => acc.store p.1 p.2) GoMap.empty } k).output =
          { Value := some v, Error := none } := by
      intro k v h
      rw [aws_getSecretOutput_of_hit _ k v (lookup2_of_memberValue ms k v h)]
    refine ⟨_, rfl, fun k v hmem => ?_, fun pre post k v hms hpost => ?_, hget,
      fun k v hmem huniq => hget k v (memberValue_of_mem k v ms hmem huniq)⟩
    · obtain ⟨w, hw, hin⟩ := memberValue_of_name k v ms hmem
      exact ⟨w, hin, hget k w hw⟩
    · exact hget k v (by rw [hms]; exact memberValue_last k v pre post hpost)
  · rw [azure_new_of_payload env backendId bc backendConfig cfg payload hd hs hf,
      unmarshal_flat payload ms hparse]
    have hget : ∀ k v, memberValue k ms = some v →
        (Azure.GetSecretOutput
          { BackendId := backendId, Config := backendConfig,
            Secret := ms.foldl (fun acc p => acc.store p.1 p.2) GoMap.empty } k).output =
          { Value := some v, Error := none } := by
      intro k v h
      rw [azure_getSecretOutput_of_hit _ k v (lookup2_of_memberValue ms k v h)]
    refine ⟨_, rfl, fun k v hmem => ?_, fun pre post k v hms hpost => ?_, hget,
      fun k v hmem huniq => hget k v (memberValue_of_mem k v ms hmem huniq)⟩
    · obtain ⟨w, hw, hin⟩ := memberValue_of_name k v ms hmem
      exact ⟨w, hin, hget k w hw⟩
    · exact hget k v (by rw [hms]; exact memberValue_last k v pre post hpost)

/-- C3 as amended, on a payload with blanks between the tokens and escapes in
the strings: the payload is a text of the grammar, both constructors return a
backend, and both names read back their unescaped values. -/
theorem new_backend_roundtrip_witness :
    Rfc8259.JsonText spacedPayload.toList (flatObject spacedMembers) ∧
    (∃ b, (Aws.NewAwsSecretsManagerBackend
            (awsEnv (.ok ⟨some spacedPayload⟩)) "aws1" sampleConfig).1 =
          .ret (some b) none ∧
        (Aws.GetSecretOutput b "db_password").output =
          { Value := some "hunter2", Error := none } ∧
        (Aws.GetSecretOutput b "pa\"th").output =
          { Value := some "C:\\dirA", Error := none }) ∧
    (∃ b, (Azure.NewAzureKeyVaultBackend
            (azureEnv (.ok ⟨some spacedPayload⟩)) "az1" sampleRaw).1 =
          .ret (some b) none ∧
        (Azure.GetSecretOutput b "db_password").output =
          { Value := some "hunter2", Error := none } ∧
        (Azure.GetSecretOutput b "pa\"th").output =
          { Value := some "C:\\dirA", Error := none }) := by
  have h := new_backend_roundtrip spacedMembers spacedPayload spacedPayload_jsonText
  refine ⟨spacedPayload_jsonText, ?_, ?_⟩
  · obtain ⟨b, hb, _, hget, _, _⟩ := h.1 (awsEnv (.ok ⟨some spacedPayload⟩))
      "aws1" sampleConfig ⟨"session"⟩ rfl rfl
    exact ⟨b, hb, hget [] [("pa\"th", "C:\\dirA")] "db_password" "hunter2" rfl (by decide),
      hget [("db_password", "hunter2")] [] "pa\"th" "C:\\dirA" rfl (by decide)⟩
  · obtain ⟨b, hb, _, hget, _, _⟩ := h.2 (azureEnv (.ok ⟨some spacedPayload⟩))
      "az1" sampleRaw sampleAzure.Config ⟨"authorizer"⟩ rfl rfl rfl
    exact ⟨b, hb, hget [] [("pa\"th", "C:\\dirA")] "db_password" "hunter2" rfl (by decide),
      hget [("db_password", "hunter2")] [] "pa\"th" "C:\\dirA" rfl (by decide)⟩

/-- C3 as stated fails on a document that repeats a name: `{"a":"1","a":"2"}`
is a well-formed flat JSON object of string values in which the key `a` has the
string value `1`, and on the backend that each constructor returns for it
`GetSecretOutput("a")` returns `2`, not `1`. -/
theorem new_backend_repeated_name :
    Rfc8259.JsonText repeatedPayload.toList (flatObject [("a", "1"), ("a", "2")]) ∧
    ("a", "1") ∈ [("a", "1"), ("a", "2")] ∧
    (Aws.NewAwsSecretsManagerBackend (awsEnv (.ok ⟨some repeatedPayload⟩)) "aws1"
        sampleConfig).1 =
      .ret (some { BackendId := "aws1", Client := ⟨⟨"session"⟩⟩, Config := sampleConfig,
                   Secret := ⟨[("a", "2")]⟩ }) none ∧
    (Aws.GetSecretOutput { BackendId := "aws1", Client := ⟨⟨"session"⟩⟩,
                           Config := sampleConfig, Secret := ⟨[("a", "2")]⟩ } "a").output =
      { Value := some "2", Error := none } ∧
    (Aws.GetSecretOutput { BackendId := "aws1", Client := ⟨⟨"session"⟩⟩,
                           Config := sampleConfig, Secret := ⟨[("a", "2")]⟩ } "a").output ≠
      { Value := some "1", Error := none } ∧
    (Azure.NewAzureKeyVaultBackend (azureEnv (.ok ⟨some repeatedPayload⟩)) "az1"
        sampleRaw).1 =
      .ret (some { BackendId := "az1", Config := sampleAzure.Config,
                   Secret := ⟨[("a", "2")]⟩ }) none ∧
    (Azure.GetSecretOutput { BackendId := "az1", Config := sampleAzure.Config,
                             Secret := ⟨[("a", "2")]⟩ } "a").output =
      { Value := some "2", Error := none } ∧
    (Azure.GetSecretOutput { BackendId := "az1", Config := sampleAzure.Config,
                             Secret := ⟨[("a", "2")]⟩ } "a").output ≠
      { Value := some "1", Error := none } :=
  ⟨repeatedPayload_jsonText, by decide, by decide, by decide, by decide, by decide,
    by decide, by decide⟩


/-- Once an error is saved, decoding the remaining members keeps it. -/
theorem decodeMembers_saved (ms : List (String × Json.JsonValue)) (m : GoMap) (e : Error) :
    (Json.decodeMembers ms m (some e)).2 = some e := by
  induction ms generalizing m with
  | nil => rfl
  | cons p rest ih =>
    obtain ⟨k, v⟩ := p
    cases v <;> simp [Json.decodeMembers, Json.decodeElem, Json.saveError, ih]

/-- A member whose value is neither a string nor `null` makes the decoding of
an object end with a type error. -/
theorem decodeMembers_refused (ms : List (String × Json.JsonValue)) (m : GoMap)
    (h : (ms.any fun p => !p.2.isStringOrNull) = true) :
    ∃ e, (Json.decodeMembers ms m none).2 = some e ∧ e.isParseError = true := by
  induction ms generalizing m with
  | nil => simp at h
  | cons p rest ih =>
    obtain ⟨k, v⟩ := p
    cases v with
    | string s =>
      have h' : (rest.any fun p => !p.2.isStringOrNull) = true := by
        simpa [Json.JsonValue.isStringOrNull] using h
      simpa [Json.decodeMembers, Json.decodeElem] using ih _ h'
    | null =>
      have h' : (rest.any fun p => !p.2.isStringOrNull) = true := by
        simpa [Json.JsonValue.isStringOrNull] using h
      simpa [Json.decodeMembers, Json.decodeElem] using ih _ h'
    | bool b =>
      exact ⟨.jsonUnmarshalTypeError "bool", by
        simp [Json.decodeMembers, Json.decodeElem, Json.saveError, decodeMembers_saved], rfl⟩
    | number =>
      exact ⟨.jsonUnmarshalTypeError "number", by
        simp [Json.decodeMembers, Json.decodeElem, Json.saveError, decodeMembers_saved], rfl⟩
    | array es =>
      exact ⟨.jsonUnmarshalTypeError "array", by
        simp [Json.decodeMembers, Json.decodeElem, Json.saveError, decodeMembers_saved], rfl⟩
    | object os =>
      exact ⟨.jsonUnmarshalTypeError "object", by
        simp [Json.decodeMembers, Json.decodeElem, Json.saveError, decodeMembers_saved], rfl⟩

/-- An object whose members are all strings or `null` is decoded without error. -/
theorem decodeMembers_accepted (ms : List (String × Json.JsonValue)) (m : GoMap)
    (h : (ms.any fun p => !p.2.isStringOrNull) = false) :
    (Json.decodeMembers ms m none).2 = none := by
  induction ms generalizing m with
  | nil => rfl
  | cons p rest ih =>
    obtain ⟨k, v⟩ := p
    rw [List.any_cons, Bool.or_eq_false_iff] at h
    obtain ⟨hv, hrest⟩ := h
    cases v with
    | string s => simpa [Json.decodeMembers, Json.decodeElem] using ih _ hrest
    | null => simpa [Json.decodeMembers, Json.decodeElem] using ih _ hrest
    | bool b => simp [Json.JsonValue.isStringOrNull] at hv
    | number => simp [Json.JsonValue.isStringOrNull] at hv
    | array es => simp [Json.JsonValue.isStringOrNull] at hv
    | object os => simp [Json.JsonValue.isStringOrNull] at hv

/-- The payloads `json.Unmarshal` refuses: it returns a syntax or type error. -/
theorem unmarshal_refused (data : String) (h : refused (Json.parse data.toList) = true) :
    ∃ m e, Json.Unmarshal data GoMap.empty = (m, some e) ∧ e.isParseError = true := by
  unfold Json.Unmarshal
  cases hp : Json.parse data.toList with
  | none => exact ⟨_, _, rfl, rfl⟩
  | some v =>
    rw [hp] at h
    cases v with
    | null => simp [refused] at h
    | object ms =>
      obtain ⟨e, he, hpe⟩ := decodeMembers_refused ms GoMap.empty (by simpa [refused] using h)
      exact ⟨(Json.decodeMembers ms GoMap.empty none).1, e, Prod.ext rfl he, hpe⟩
    | string s => exact ⟨_, _, rfl, rfl⟩
    | number => exact ⟨_, _, rfl, rfl⟩
    | bool b => exact ⟨_, _, rfl, rfl⟩
    | array es => exact ⟨_, _, rfl, rfl⟩

/-- The payloads `json.Unmarshal` accepts: it returns no error. -/
theorem unmarshal_accepted (data : String) (h : refused (Json.parse data.toList) = false) :
    ∃ m, Json.Unmarshal data GoMap.empty = (m, none) := by
  unfold Json.Unmarshal
  cases hp : Json.parse data.toList with
  | none => rw [hp] at h; simp [refused] at h
  | some v =>
    rw [hp] at h
    cases v with
    | null => exact ⟨_, rfl⟩
    | object ms =>
      exact ⟨(Json.decodeMembers ms GoMap.empty none).1,
        Prod.ext rfl (decodeMembers_accepted ms GoMap.empty (by simpa [refused] using h))⟩
    | string s => simp [refused] at h
    | number => simp [refused] at h
    | bool b => simp [refused] at h
    | array es => simp [refused] at h

/-- A payload that is no text of the grammar, or the text of a value that is
neither an object nor `null`, or of an object with a member that is neither
a string nor `null`, is refused by `json.Unmarshal`. -/
theorem refused_of_not_flat (text : List Char)
    (hbad : (¬ ∃ v, Rfc8259.JsonText text v) ∨
      (∃ v, Rfc8259.JsonText text v ∧ v ≠ .null ∧ ∀ ms, v ≠ .object ms) ∨
      (∃ ms, Rfc8259.JsonText text (.object ms) ∧
        ∃ p ∈ ms, p.2 ≠ .null ∧ ∀ s, p.2 ≠ .string s)) :
    refused (Json.parse text) = true := by
  rcases hbad with h | ⟨v, hv, hn, ho⟩ | ⟨ms, hv, p, hp, hn, hs⟩
  · cases hparse : Json.parse text with
    | none => rfl
    | some v => exact absurd ⟨v, Rfc8259.jsonText_of_parse text v hparse⟩ h
  · rw [Rfc8259.parse_of_jsonText text v hv]
    by_cases hd : Rfc8259.depth v ≤ Json.maxNestingDepth
    · rw [if_pos hd]
      cases v with
      | null => exact absurd rfl hn
      | object ms => exact absurd rfl (ho ms)
      | bool b => rfl
      | number => rfl
      | string s => rfl
      | array es => rfl
    · rw [if_neg hd]
      rfl
  · rw [Rfc8259.parse_of_jsonText text _ hv]
    by_cases hd : Rfc8259.depth (.object ms) ≤ Json.maxNestingDepth
    · rw [if_pos hd]
      simp only [refused, List.any_eq_true]
      refine ⟨p, hp, ?_⟩
      obtain ⟨k, v⟩ := p
      cases v with
      | null => exact absurd rfl hn
      | string s => exact absurd rfl (hs s)
      | bool b => rfl
      | number => rfl
      | array es => rfl
      | object os => rfl
    · rw [if_neg hd]
      rfl

/-- C4, as amended: for both constructors, when the fetched payload is malformed
JSON (no text of the grammar of RFC 8259), or a JSON text whose top-level value is
neither an object nor `null`, or the text of an object with a member whose value
is neither a string nor `null` (a nested object, an array, a number, a boolean),
construction returns a parse error (a JSON syntax or type error) and no
backend. -/
theorem new_backend_parse_error (payload : String)
    (hbad : (¬ ∃ v, Rfc8259.JsonText payload.toList v) ∨
      (∃ v, Rfc8259.JsonText payload.toList v ∧ v ≠ .null ∧ ∀ ms, v ≠ .object ms) ∨
      (∃ ms, Rfc8259.JsonText payload.toList (.object ms) ∧
        ∃ p ∈ ms, p.2 ≠ .null ∧ ∀ s, p.2 ≠ .string s)) :
    (∀ (env : Aws.Env) (backendId : String) (backendConfig : GoMap) (cfg : Aws.AwsConfig),
        env.NewAwsConfigFromBackendConfig backendId backendConfig = .ok cfg →
        env.GetSecretValue ⟨cfg⟩ (backendConfig.index "secret_id") = .ok ⟨some payload⟩ →
        ∃ e, (Aws.NewAwsSecretsManagerBackend env backendId backendConfig).1 =
              .ret none (some e) ∧ e.isParseError = true) ∧
    (∀ (env : Azure.Env) (backendId : String) (bc : List (String × Azure.RawValue))
        (backendConfig : Azure.AzureKeyVaultBackendConfig) (cfg : Azure.Authorizer),
        env.Decode bc .zero = .ok backendConfig →
        env.NewAzureConfigFromBackendConfig backendId backendConfig.AzureSession = .ok cfg →
        env.GetSecret cfg backendConfig.KeyVaultURL backendConfig.SecretId "latest" =
          .ok ⟨some payload⟩ →
        ∃ e, (Azure.NewAzureKeyVaultBackend env backendId bc).1 = .ret none (some e) ∧
          e.isParseError = true) := by
  obtain ⟨m, e, hu, he⟩ := unmarshal_refused payload (refused_of_not_flat payload.toList hbad)
  refine ⟨fun env backendId backendConfig cfg hs hf => ⟨e, ?_, he⟩,
    fun env backendId bc backendConfig cfg hd hs hf => ⟨e, ?_, he⟩⟩
  · rw [aws_new_of_payload env backendId backendConfig cfg payload hs hf, hu]
  · rw [azure_new_of_payload env backendId bc backendConfig cfg payload hd hs hf, hu]

/-- C4 as amended, on three payloads: `{"a":"b"} x` is malformed (text follows
the object), `["a"]` is a JSON text whose top-level value is an array, and
`{"a": {"nested": 1}}`, the payload of the specification, is the text of an
object whose member `a` is an object. On each, both constructors return a parse
error and no backend. -/
theorem new_backend_parse_error_witness :
    ((¬ ∃ v, Rfc8259.JsonText trailingPayload.toList v) ∧
      (∃ e, (Aws.NewAwsSecretsManagerBackend
              (awsEnv (.ok ⟨some trailingPayload⟩)) "aws1" sampleConfig).1 =
            .ret none (some e) ∧ e.isParseError = true) ∧
      (∃ e, (Azure.NewAzureKeyVaultBackend
              (azureEnv (.ok ⟨some trailingPayload⟩)) "az1" sampleRaw).1 =
            .ret none (some e) ∧ e.isParseError = true)) ∧
    (Rfc8259.JsonText arrayPayload.toList (.array [.string "a"]) ∧
      (∃ e, (Aws.NewAwsSecretsManagerBackend
              (awsEnv (.ok ⟨some arrayPayload⟩)) "aws1" sampleConfig).1 =
            .ret none (some e) ∧ e.isParseError = true) ∧
      (∃ e, (Azure.NewAzureKeyVaultBackend
              (azureEnv (.ok ⟨some arrayPayload⟩)) "az1" sampleRaw).1 =
            .ret none (some e) ∧ e.isParseError = true)) ∧
    (Rfc8259.JsonText nestedPayload.toList (.object [("a", .object [("nested", .number)])]) ∧
      (∃ e, (Aws.NewAwsSecretsManagerBackend
              (awsEnv (.ok ⟨some nestedPayload⟩)) "aws1" sampleConfig).1 =
            .ret none (some e) ∧ e.isParseError = true) ∧
      (∃ e, (Azure.NewAzureKeyVaultBackend
              (azureEnv (.ok ⟨some nestedPayload⟩)) "az1" sampleRaw).1 =
            .ret none (some e) ∧ e.isParseError = true)) := by
  have h1 := new_backend_parse_error trailingPayload (Or.inl trailingPayload_not_jsonText)
  have h2 := new_backend_parse_error arrayPayload
    (Or.inr (Or.inl ⟨_, arrayPayload_jsonText, (fun h => by cases h), (fun ms h => by cases h)⟩))
  have h3 := new_backend_parse_error nestedPayload
    (Or.inr (Or.inr ⟨_, nestedPayload_jsonText, ("a", .object [("nested", .number)]),
      List.mem_cons_self _ _, (fun h => by cases h), (fun s h => by cases h)⟩))
  exact ⟨⟨trailingPayload_not_jsonText,
      h1.1 (awsEnv (.ok ⟨some trailingPayload⟩)) "aws1" sampleConfig ⟨"session"⟩ rfl rfl,
      h1.2 (azureEnv (.ok ⟨some trailingPayload⟩)) "az1" sampleRaw sampleAzure.Config
        ⟨"authorizer"⟩ rfl rfl rfl⟩,
    ⟨arrayPayload_jsonText,
      h2.1 (awsEnv (.ok ⟨some arrayPayload⟩)) "aws1" sampleConfig ⟨"session"⟩ rfl rfl,
      h2.2 (azureEnv (.ok ⟨some arrayPayload⟩)) "az1" sampleRaw sampleAzure.Config
        ⟨"authorizer"⟩ rfl rfl rfl⟩,
    ⟨nestedPayload_jsonText,
      h3.1 (awsEnv (.ok ⟨some nestedPayload⟩)) "aws1" sampleConfig ⟨"session"⟩ rfl rfl,
      h3.2 (azureEnv (.ok ⟨some nestedPayload⟩)) "az1" sampleRaw sampleAzure.Config
        ⟨"authorizer"⟩ rfl rfl rfl⟩⟩

/-- C4 as stated fails: the payload `null` has a top-level value that is not an
object, and the payload `{"a":null}` is an object with a value that is not a
string; on both, each constructor returns a backend and no error (with an empty
mapping, and with `a` mapped to the empty string). -/
theorem new_backend_null_accepted :
    Json.parse "null".toList = some .null ∧
    (Aws.NewAwsSecretsManagerBackend (awsEnv (.ok ⟨some "null"⟩)) "aws1" sampleConfig).1 =
      .ret (some { BackendId := "aws1", Client := ⟨⟨"session"⟩⟩, Config := sampleConfig,
                   Secret := ⟨[]⟩ }) none ∧
    (Azure.NewAzureKeyVaultBackend (azureEnv (.ok ⟨some "null"⟩)) "az1" sampleRaw).1 =
      .ret (some { BackendId := "az1", Config := sampleAzure.Config, Secret := ⟨[]⟩ }) none ∧
    Json.parse nullMemberPayload.toList = some (.object [("a", .null)]) ∧
    (Aws.NewAwsSecretsManagerBackend (awsEnv (.ok ⟨some nullMemberPayload⟩)) "aws1"
        sampleConfig).1 =
      .ret (some { BackendId := "aws1", Client := ⟨⟨"session"⟩⟩, Config := sampleConfig,
                   Secret := ⟨[("a", "")]⟩ }) none ∧
    (Azure.NewAzureKeyVaultBackend (azureEnv (.ok ⟨some nullMemberPayload⟩)) "az1"
        sampleRaw).1 =
      .ret (some { BackendId := "az1", Config := sampleAzure.Config,
                   Secret := ⟨[("a", "")]⟩ }) none :=
  ⟨rfl, by decide, by decide, rfl, by decide, by decide⟩

/-- C10, the failing inputs: a successful fetch whose response carries no string
payload (AWS `SecretString` nil, as for a binary secret; Azure `Value` nil)
makes each constructor fault on the dereference instead of returning. -/
theorem new_backend_nil_payload_faults :
    (Aws.NewAwsSecretsManagerBackend (awsEnv (.ok ⟨none⟩)) "aws1" sampleConfig).1 = .fault ∧
    (Azure.NewAzureKeyVaultBackend (azureEnv (.ok ⟨none⟩)) "az1" sampleRaw).1 = .fault :=
  ⟨rfl, rfl⟩


/-! ## Construction: the paths of the two constructors -/

theorem aws_new_session_error (env : Aws.Env) (backendId : String) (backendConfig : GoMap)
    (err : Error) (hs : env.NewAwsConfigFromBackendConfig backendId backendConfig = .error err) :
    Aws.NewAwsSecretsManagerBackend env backendId backendConfig =
      (.ret none (some err),
        [{ fields := [("backend_id", backendId)], err := some err, level := "error",
           msg := "failed to initialize aws session" }]) := by
  simp only [Aws.NewAwsSecretsManagerBackend, hs]

theorem aws_new_fetch_error (env : Aws.Env) (backendId : String) (backendConfig : GoMap)
    (cfg : Aws.AwsConfig) (err : Error)
    (hs : env.NewAwsConfigFromBackendConfig backendId backendConfig = .ok cfg)
    (hf : env.GetSecretValue ⟨cfg⟩ (backendConfig.index "secret_id") = .error err) :
    Aws.NewAwsSecretsManagerBackend env backendId backendConfig =
      (.ret none (some err),
        [{ fields := Aws.failureFields backendId backendConfig, err := some err,
           level := "error", msg := "failed to retrieve secret value" }]) := by
  simp only [Aws.NewAwsSecretsManagerBackend, hs, hf]

theorem aws_new_nil_payload (env : Aws.Env) (backendId : String) (backendConfig : GoMap)
    (cfg : Aws.AwsConfig)
    (hs : env.NewAwsConfigFromBackendConfig backendId backendConfig = .ok cfg)
    (hf : env.GetSecretValue ⟨cfg⟩ (backendConfig.index "secret_id") = .ok ⟨none⟩) :
    Aws.NewAwsSecretsManagerBackend env backendId backendConfig = (.fault, []) := by
  simp only [Aws.NewAwsSecretsManagerBackend, hs, hf]

theorem aws_new_parse_error (env : Aws.Env) (backendId : String) (backendConfig : GoMap)
    (cfg : Aws.AwsConfig) (s : String) (m : GoMap) (err : Error)
    (hs : env.NewAwsConfigFromBackendConfig backendId backendConfig = .ok cfg)
    (hf : env.GetSecretValue ⟨cfg⟩ (backendConfig.index "secret_id") = .ok ⟨some s⟩)
    (hu : Json.Unmarshal s GoMap.empty = (m, some err)) :
    Aws.NewAwsSecretsManagerBackend env backendId backendConfig =
      (.ret none (some err),
        [{ fields := Aws.failureFields backendId backendConfig, err := some err,
           level := "error", msg := "failed to retrieve secret value" }]) := by
  rw [aws_new_of_payload env backendId backendConfig cfg s hs hf, hu]

theorem aws_new_success (env : Aws.Env) (backendId : String) (backendConfig : GoMap)
    (cfg : Aws.AwsConfig) (s : String) (m : GoMap)
    (hs : env.NewAwsConfigFromBackendConfig backendId backendConfig = .ok cfg)
    (hf : env.GetSecretValue ⟨cfg⟩ (backendConfig.index "secret_id") = .ok ⟨some s⟩)
    (hu : Json.Unmarshal s GoMap.empty = (m, none)) :
    Aws.NewAwsSecretsManagerBackend env backendId backendConfig =
      (.ret (some { BackendId := backendId, Client := ⟨cfg⟩, Config := backendConfig,
                    Secret := m }) none, []) := by
  rw [aws_new_of_payload env backendId backendConfig cfg s hs hf, hu]

/-- The five paths of the AWS constructor; every call takes one of them. -/
theorem aws_new_paths (env : Aws.Env) (backendId : String) (backendConfig : GoMap) :
    (∃ err, env.NewAwsConfigFromBackendConfig backendId backendConfig = .error err) ∨
    (∃ cfg err, env.NewAwsConfigFromBackendConfig backendId backendConfig = .ok cfg ∧
      env.GetSecretValue ⟨cfg⟩ (backendConfig.index "secret_id") = .error err) ∨
    (∃ cfg, env.NewAwsConfigFromBackendConfig backendId backendConfig = .ok cfg ∧
      env.GetSecretValue ⟨cfg⟩ (backendConfig.index "secret_id") = .ok ⟨none⟩) ∨
    (∃ cfg s m err, env.NewAwsConfigFromBackendConfig backendId backendConfig = .ok cfg ∧
      env.GetSecretValue ⟨cfg⟩ (backendConfig.index "secret_id") = .ok ⟨some s⟩ ∧
      Json.Unmarshal s GoMap.empty = (m, some err)) ∨
    (∃ cfg s m, env.NewAwsConfigFromBackendConfig backendId backendConfig = .ok cfg ∧
      env.GetSecretValue ⟨cfg⟩ (backendConfig.index "secret_id") = .ok ⟨some s⟩ ∧
      Json.Unmarshal s GoMap.empty = (m, none)) := by
  cases hs : env.NewAwsConfigFromBackendConfig backendId backendConfig with
  | error err => exact Or.inl ⟨err, rfl⟩
  | ok cfg =>
    cases hf : env.GetSecretValue ⟨cfg⟩ (backendConfig.index "secret_id") with
    | error err => exact Or.inr (Or.inl ⟨cfg, err, rfl, hf⟩)
    | ok out =>
      obtain ⟨ss⟩ := out
      cases ss with
      | none => exact Or.inr (Or.inr (Or.inl ⟨cfg, rfl, hf⟩))
      | some s =>
        cases hu : Json.Unmarshal s GoMap.empty with
        | mk m oe =>
          cases oe with
          | none => exact Or.inr (Or.inr (Or.inr (Or.inr ⟨cfg, s, m, rfl, hf, hu⟩)))
          | some err => exact Or.inr (Or.inr (Or.inr (Or.inl ⟨cfg, s, m, err, rfl, hf, hu⟩)))

theorem azure_new_decode_error (env : Azure.Env) (backendId : String)
    (bc : List (String × Azure.RawValue)) (err : Error) (hd : env.Decode bc .zero = .error err) :
    Azure.NewAzureKeyVaultBackend env backendId bc =
      (.ret none (some err),
        [{ fields := [], err := some err, level := "error",
           msg := "failed to map backend configuration" }]) := by
  simp only [Azure.NewAzureKeyVaultBackend, hd]

theorem azure_new_session_error (env : Azure.Env) (backendId : String)
    (bc : List (String × Azure.RawValue)) (backendConfig : Azure.AzureKeyVaultBackendConfig)
    (err : Error) (hd : env.Decode bc .zero = .ok backendConfig)
    (hs : env.NewAzureConfigFromBackendConfig backendId backendConfig.AzureSession =
      .error err) :
    Azure.NewAzureKeyVaultBackend env backendId bc =
      (.ret none (some err),
        [{ fields := [("backend_id", backendId)], err := some err, level := "error",
           msg := "failed to initialize Azure session" }]) := by
  simp only [Azure.NewAzureKeyVaultBackend, hd, hs]

theorem azure_new_fetch_error (env : Azure.Env) (backendId : String)
    (bc : List (String × Azure.RawValue)) (backendConfig : Azure.AzureKeyVaultBackendConfig)
    (cfg : Azure.Authorizer) (err : Error) (hd : env.Decode bc .zero = .ok backendConfig)
    (hs : env.NewAzureConfigFromBackendConfig backendId backendConfig.AzureSession = .ok cfg)
    (hf : env.GetSecret cfg backendConfig.KeyVaultURL backendConfig.SecretId "latest" =
      .error err) :
    Azure.NewAzureKeyVaultBackend env backendId bc =
      (.ret none (some err),
        [{ fields := Azure.failureFields backendId backendConfig, err := some err,
           level := "error", msg := "failed to retrieve secret value" }]) := by
  simp only [Azure.NewAzureKeyVaultBackend, hd, hs, hf]

theorem azure_new_nil_payload (env : Azure.Env) (backendId : String)
    (bc : List (String × Azure.RawValue)) (backendConfig : Azure.AzureKeyVaultBackendConfig)
    (cfg : Azure.Authorizer) (hd : env.Decode bc .zero = .ok backendConfig)
    (hs : env.NewAzureConfigFromBackendConfig backendId backendConfig.AzureSession = .ok cfg)
    (hf : env.GetSecret cfg backendConfig.KeyVaultURL backendConfig.SecretId "latest" =
      .ok ⟨none⟩) :
    Azure.NewAzureKeyVaultBackend env backendId bc = (.fault, []) := by
  simp only [Azure.NewAzureKeyVaultBackend, hd, hs, hf]

theorem azure_new_parse_error (env : Azure.Env) (backendId : String)
    (bc : List (String × Azure.RawValue)) (backendConfig : Azure.AzureKeyVaultBackendConfig)
    (cfg : Azure.Authorizer) (s : String) (m : GoMap) (err : Error)
    (hd : env.Decode bc .zero = .ok backendConfig)
    (hs : env.NewAzureConfigFromBackendConfig backendId backendConfig.AzureSession = .ok cfg)
    (hf : env.GetSecret cfg backendConfig.KeyVaultURL backendConfig.SecretId "latest" =
      .ok ⟨some s⟩)
    (hu : Json.Unmarshal s GoMap.empty = (m, some err)) :
    Azure.NewAzureKeyVaultBackend env backendId bc =
      (.ret none (some err),
        [{ fields := Azure.failureFields backendId backendConfig, err := some err,
           level := "error", msg := "failed to retrieve secret value" }]) := by
  rw [azure_new_of_payload env backendId bc backendConfig cfg s hd hs hf, hu]

theorem azure_new_success (env : Azure.Env) (backendId : String)
    (bc : List (String × Azure.RawValue)) (backendConfig : Azure.AzureKeyVaultBackendConfig)
    (cfg : Azure.Authorizer) (s : String) (m : GoMap)
    (hd : env.Decode bc .zero = .ok backendConfig)
    (hs : env.NewAzureConfigFromBackendConfig backendId backendConfig.AzureSession = .ok cfg)
    (hf : env.GetSecret cfg backendConfig.KeyVaultURL backendConfig.SecretId "latest" =
      .ok ⟨some s⟩)
    (hu : Json.Unmarshal s GoMap.empty = (m, none)) :
    Azure.NewAzureKeyVaultBackend env backendId bc =
      (.ret (some { BackendId := backendId, Config := backendConfig, Secret := m }) none,
        []) := by
  rw [azure_new_of_payload env backendId bc backendConfig cfg s hd hs hf, hu]

/-- The six paths of the Azure constructor; every call takes one of them. -/
theorem azure_new_paths (env : Azure.Env) (backendId : String)
    (bc : List (String × Azure.RawValue)) :
    (∃ err, env.Decode bc .zero = .error err) ∨
    (∃ backendConfig err, env.Decode bc .zero = .ok backendConfig ∧
      env.NewAzureConfigFromBackendConfig backendId backendConfig.AzureSession =
        .error err) ∨
    (∃ backendConfig cfg err, env.Decode bc .zero = .ok backendConfig ∧
      env.NewAzureConfigFromBackendConfig backendId backendConfig.AzureSession = .ok cfg ∧
      env.GetSecret cfg backendConfig.KeyVaultURL backendConfig.SecretId "latest" =
        .error err) ∨
    (∃ backendConfig cfg, env.Decode bc .zero = .ok backendConfig ∧
      env.NewAzureConfigFromBackendConfig backendId backendConfig.AzureSession = .ok cfg ∧
      env.GetSecret cfg backendConfig.KeyVaultURL backendConfig.SecretId "latest" =
        .ok ⟨none⟩) ∨
    (∃ backendConfig cfg s m err, env.Decode bc .zero = .ok backendConfig ∧
      env.NewAzureConfigFromBackendConfig backendId backendConfig.AzureSession = .ok cfg ∧
      env.GetSecret cfg backendConfig.KeyVaultURL backendConfig.SecretId "latest" =
        .ok ⟨some s⟩ ∧
      Json.Unmarshal s GoMap.empty = (m, some err)) ∨
    (∃ backendConfig cfg s m, env.Decode bc .zero = .ok backendConfig ∧
      env.NewAzureConfigFromBackendConfig backendId backendConfig.AzureSession = .ok cfg ∧
      env.GetSecret cfg backendConfig.KeyVaultURL backendConfig.SecretId "latest" =
        .ok ⟨some s⟩ ∧
      Json.Unmarshal s GoMap.empty = (m, none)) := by
  cases hd : env.Decode bc .zero with
  | error err => exact Or.inl ⟨err, rfl⟩
  | ok backendConfig =>
    cases hs : env.NewAzureConfigFromBackendConfig backendId backendConfig.AzureSession with
    | error err => exact Or.inr (Or.inl ⟨backendConfig, err, rfl, hs⟩)
    | ok cfg =>
      cases hf : env.GetSecret cfg backendConfig.KeyVaultURL backendConfig.SecretId
          "latest" with
      | error err => exact Or.inr (Or.inr (Or.inl ⟨backendConfig, cfg, err, rfl, hs, hf⟩))
      | ok out =>
        obtain ⟨ss⟩ := out
        cases ss with
        | none => exact Or.inr (Or.inr (Or.inr (Or.inl ⟨backendConfig, cfg, rfl, hs, hf⟩)))
        | some s =>
          cases hu : Json.Unmarshal s GoMap.empty with
          | mk m oe =>
            cases oe with
            | none =>
              exact Or.inr (Or.inr (Or.inr (Or.inr (Or.inr
                ⟨backendConfig, cfg, s, m, rfl, hs, hf, hu⟩))))
            | some err =>
              exact Or.inr (Or.inr (Or.inr (Or.inr (Or.inl
                ⟨backendConfig, cfg, s, m, err, rfl, hs, hf, hu⟩))))


/-- C5: for every input of `NewAwsSecretsManagerBackend` and of
`NewAzureKeyVaultBackend`, a returned pair is either (backend, no error) or (no
backend, error), never both and never neither; if the config decoding, the
session initialisation, the remote fetch or the JSON parsing fails, the returned
backend is nil and the returned error is the error of that step; a backend is
returned only when all steps succeeded. A pair is returned on every input but
one: a fetch that succeeds with a nil payload ends in a fault. -/
theorem new_backend_xor_error :
    (∀ (env : Aws.Env) (backendId : String) (backendConfig : GoMap),
      (∀ b e, (Aws.NewAwsSecretsManagerBackend env backendId backendConfig).1 = .ret b e →
        (b.isSome = true ∧ e = none) ∨ (b = none ∧ e.isSome = true)) ∧
      (∀ err, env.NewAwsConfigFromBackendConfig backendId backendConfig = .error err →
        (Aws.NewAwsSecretsManagerBackend env backendId backendConfig).1 =
          .ret none (some err)) ∧
      (∀ cfg err, env.NewAwsConfigFromBackendConfig backendId backendConfig = .ok cfg →
        env.GetSecretValue ⟨cfg⟩ (backendConfig.index "secret_id") = .error err →
        (Aws.NewAwsSecretsManagerBackend env backendId backendConfig).1 =
          .ret none (some err)) ∧
      (∀ cfg s m err, env.NewAwsConfigFromBackendConfig backendId backendConfig = .ok cfg →
        env.GetSecretValue ⟨cfg⟩ (backendConfig.index "secret_id") = .ok ⟨some s⟩ →
        Json.Unmarshal s GoMap.empty = (m, some err) →
        (Aws.NewAwsSecretsManagerBackend env backendId backendConfig).1 =
          .ret none (some err)) ∧
      (∀ b e, (Aws.NewAwsSecretsManagerBackend env backendId backendConfig).1 =
          .ret (some b) e →
        ∃ cfg s, env.NewAwsConfigFromBackendConfig backendId backendConfig = .ok cfg ∧
          env.GetSecretValue ⟨cfg⟩ (backendConfig.index "secret_id") = .ok ⟨some s⟩ ∧
          Json.Unmarshal s GoMap.empty = (b.Secret, none)) ∧
      ((Aws.NewAwsSecretsManagerBackend env backendId backendConfig).1 = .fault ↔
        ∃ cfg, env.NewAwsConfigFromBackendConfig backendId backendConfig = .ok cfg ∧
          env.GetSecretValue ⟨cfg⟩ (backendConfig.index "secret_id") = .ok ⟨none⟩)) ∧
    (∀ (env : Azure.Env) (backendId : String) (bc : List (String × Azure.RawValue)),
      (∀ b e, (Azure.NewAzureKeyVaultBackend env backendId bc).1 = .ret b e →
        (b.isSome = true ∧ e = none) ∨ (b = none ∧ e.isSome = true)) ∧
      (∀ err, env.Decode bc .zero = .error err →
        (Azure.NewAzureKeyVaultBackend env backendId bc).1 = .ret none (some err)) ∧
      (∀ backendConfig err, env.Decode bc .zero = .ok backendConfig →
        env.NewAzureConfigFromBackendConfig backendId backendConfig.AzureSession =
          .error err →
        (Azure.NewAzureKeyVaultBackend env backendId bc).1 = .ret none (some err)) ∧
      (∀ backendConfig cfg err, env.Decode bc .zero = .ok backendConfig →
        env.NewAzureConfigFromBackendConfig backendId backendConfig.AzureSession = .ok cfg →
        env.GetSecret cfg backendConfig.KeyVaultURL backendConfig.SecretId "latest" =
          .error err →
        (Azure.NewAzureKeyVaultBackend env backendId bc).1 = .ret none (some err)) ∧
      (∀ backendConfig cfg s m err, env.Decode bc .zero = .ok backendConfig →
        env.NewAzureConfigFromBackendConfig backendId backendConfig.AzureSession = .ok cfg →
        env.GetSecret cfg backendConfig.KeyVaultURL backendConfig.SecretId "latest" =
          .ok ⟨some s⟩ →
        Json.Unmarshal s GoMap.empty = (m, some err) →
        (Azure.NewAzureKeyVaultBackend env backendId bc).1 = .ret none (some err)) ∧
      (∀ b e, (Azure.NewAzureKeyVaultBackend env backendId bc).1 = .ret (some b) e →
        ∃ cfg s, env.Decode bc .zero = .ok b.Config ∧
          env.NewAzureConfigFromBackendConfig backendId b.Config.AzureSession = .ok cfg ∧
          env.GetSecret cfg b.Config.KeyVaultURL b.Config.SecretId "latest" =
            .ok ⟨some s⟩ ∧
          Json.Unmarshal s GoMap.empty = (b.Secret, none)) ∧
      ((Azure.NewAzureKeyVaultBackend env backendId bc).1 = .fault ↔
        ∃ backendConfig cfg, env.Decode bc .zero = .ok backendConfig ∧
          env.NewAzureConfigFromBackendConfig backendId backendConfig.AzureSession =
            .ok cfg ∧
          env.GetSecret cfg backendConfig.KeyVaultURL backendConfig.SecretId "latest" =
            .ok ⟨none⟩)) := by
  constructor
  · intro env backendId backendConfig
    refine ⟨?_, fun err hs => by rw [aws_new_session_error env _ _ err hs],
      fun cfg err hs hf => by rw [aws_new_fetch_error env _ _ cfg err hs hf],
      fun cfg s m err hs hf hu => by rw [aws_new_parse_error env _ _ cfg s m err hs hf hu],
      ?_, ?_, ?_⟩
    · intro b e h
      rcases aws_new_paths env backendId backendConfig with
        ⟨err, hs⟩ | ⟨cfg, err, hs, hf⟩ | ⟨cfg, hs, hf⟩ | ⟨cfg, s, m, err, hs, hf, hu⟩ |
        ⟨cfg, s, m, hs, hf, hu⟩
      · rw [aws_new_session_error env _ _ err hs] at h
        cases h; exact Or.inr ⟨rfl, rfl⟩
      · rw [aws_new_fetch_error env _ _ cfg err hs hf] at h
        cases h; exact Or.inr ⟨rfl, rfl⟩
      · rw [aws_new_nil_payload env _ _ cfg hs hf] at h
        cases h
      · rw [aws_new_parse_error env _ _ cfg s m err hs hf hu] at h
        cases h; exact Or.inr ⟨rfl, rfl⟩
      · rw [aws_new_success env _ _ cfg s m hs hf hu] at h
        cases h; exact Or.inl ⟨rfl, rfl⟩
    · intro b e h
      rcases aws_new_paths env backendId backendConfig with
        ⟨err, hs⟩ | ⟨cfg, err, hs, hf⟩ | ⟨cfg, hs, hf⟩ | ⟨cfg, s, m, err, hs, hf, hu⟩ |
        ⟨cfg, s, m, hs, hf, hu⟩
      · rw [aws_new_session_error env _ _ err hs] at h
        cases h
      · rw [aws_new_fetch_error env _ _ cfg err hs hf] at h
        cases h
      · rw [aws_new_nil_payload env _ _ cfg hs hf] at h
        cases h
      · rw [aws_new_parse_error env _ _ cfg s m err hs hf hu] at h
        cases h
      · rw [aws_new_success env _ _ cfg s m hs hf hu] at h
        cases h; exact ⟨cfg, s, hs, hf, hu⟩
    · intro h
      rcases aws_new_paths env backendId backendConfig with
        ⟨err, hs⟩ | ⟨cfg, err, hs, hf⟩ | ⟨cfg, hs, hf⟩ | ⟨cfg, s, m, err, hs, hf, hu⟩ |
        ⟨cfg, s, m, hs, hf, hu⟩
      · rw [aws_new_session_error env _ _ err hs] at h
        cases h
      · rw [aws_new_fetch_error env _ _ cfg err hs hf] at h
        cases h
      · exact ⟨cfg, hs, hf⟩
      · rw [aws_new_parse_error env _ _ cfg s m err hs hf hu] at h
        cases h
      · rw [aws_new_success env _ _ cfg s m hs hf hu] at h
        cases h
    · rintro ⟨cfg, hs, hf⟩
      rw [aws_new_nil_payload env _ _ cfg hs hf]
  · intro env backendId bc
    refine ⟨?_, fun err hd => by rw [azure_new_decode_error env _ _ err hd],
      fun c err hd hs => by rw [azure_new_session_error env _ _ c err hd hs],
      fun c cfg err hd hs hf => by rw [azure_new_fetch_error env _ _ c cfg err hd hs hf],
      fun c cfg s m err hd hs hf hu => by
        rw [azure_new_parse_error env _ _ c cfg s m err hd hs hf hu],
      ?_, ?_, ?_⟩
    · intro b e h
      rcases azure_new_paths env backendId bc with
        ⟨err, hd⟩ | ⟨c, err, hd, hs⟩ | ⟨c, cfg, err, hd, hs, hf⟩ | ⟨c, cfg, hd, hs, hf⟩ |
        ⟨c, cfg, s, m, err, hd, hs, hf, hu⟩ | ⟨c, cfg, s, m, hd, hs, hf, hu⟩
      · rw [azure_new_decode_error env _ _ err hd] at h
        cases h; exact Or.inr ⟨rfl, rfl⟩
      · rw [azure_new_session_error env _ _ c err hd hs] at h
        cases h; exact Or.inr ⟨rfl, rfl⟩
      · rw [azure_new_fetch_error env _ _ c cfg err hd hs hf] at h
        cases h; exact Or.inr ⟨rfl, rfl⟩
      · rw [azure_new_nil_payload env _ _ c cfg hd hs hf] at h
        cases h
      · rw [azure_new_parse_error env _ _ c cfg s m err hd hs hf hu] at h
        cases h; exact Or.inr ⟨rfl, rfl⟩
      · rw [azure_new_success env _ _ c cfg s m hd hs hf hu] at h
        cases h; exact Or.inl ⟨rfl, rfl⟩
    · intro b e h
      rcases azure_new_paths env backendId bc with
        ⟨err, hd⟩ | ⟨c, err, hd, hs⟩ | ⟨c, cfg, err, hd, hs, hf⟩ | ⟨c, cfg, hd, hs, hf⟩ |
        ⟨c, cfg, s, m, err, hd, hs, hf, hu⟩ | ⟨c, cfg, s, m, hd, hs, hf, hu⟩
      · rw [azure_new_decode_error env _ _ err hd] at h
        cases h
      · rw [azure_new_session_error env _ _ c err hd hs] at h
        cases h
      · rw [azure_new_fetch_error env _ _ c cfg err hd hs hf] at h
        cases h
      · rw [azure_new_nil_payload env _ _ c cfg hd hs hf] at h
        cases h
      · rw [azure_new_parse_error env _ _ c cfg s m err hd hs hf hu] at h
        cases h
      · rw [azure_new_success env _ _ c cfg s m hd hs hf hu] at h
        cases h; exact ⟨cfg, s, hd, hs, hf, hu⟩
    · intro h
      rcases azure_new_paths env backendId bc with
        ⟨err, hd⟩ | ⟨c, err, hd, hs⟩ | ⟨c, cfg, err, hd, hs, hf⟩ | ⟨c, cfg, hd, hs, hf⟩ |
        ⟨c, cfg, s, m, err, hd, hs, hf, hu⟩ | ⟨c, cfg, s, m, hd, hs, hf, hu⟩
      · rw [azure_new_decode_error env _ _ err hd] at h
        cases h
      · rw [azure_new_session_error env _ _ c err hd hs] at h
        cases h
      · rw [azure_new_fetch_error env _ _ c cfg err hd hs hf] at h
        cases h
      · exact ⟨c, cfg, hd, hs, hf⟩
      · rw [azure_new_parse_error env _ _ c cfg s m err hd hs hf hu] at h
        cases h
      · rw [azure_new_success env _ _ c cfg s m hd hs hf hu] at h
        cases h
    · rintro ⟨c, cfg, hd, hs, hf⟩
      rw [azure_new_nil_payload env _ _ c cfg hd hs hf]

/-- C5 at concrete inputs: a failing AWS session factory and a failing Azure
config decoding each give (no backend, that error). -/
theorem new_backend_xor_error_witness :
    (Aws.NewAwsSecretsManagerBackend awsEnvNoSession "aws1" sampleConfig).1 =
      .ret none (some (.external "no credentials")) ∧
    (Azure.NewAzureKeyVaultBackend azureEnvNoDecode "az1" sampleRaw).1 =
      .ret none (some (.external "expected a map")) :=
  ⟨(new_backend_xor_error.1 awsEnvNoSession "aws1" sampleConfig).2.1
      (.external "no credentials") rfl,
   (new_backend_xor_error.2 azureEnvNoDecode "az1" sampleRaw).2.1
      (.external "expected a map") rfl⟩


/-! ## Diagnostics -/

/-- C8, as amended: on the fetch-failure and parse-failure paths of either
constructor and on the key-not-found path of either lookup, exactly one record
is emitted and it is keyed by `backend_id`, `backend_type` and the provider
identifiers (`secret_id`; with `aws_access_key_id` and `aws_profile` in the AWS
constructor, `keyvaulturl` for Azure, and `secret_key` in the Azure lookup). -/
theorem failure_log_fields :
    (∀ (env : Aws.Env) (backendId : String) (backendConfig : GoMap),
      (∀ cfg err, env.NewAwsConfigFromBackendConfig backendId backendConfig = .ok cfg →
        env.GetSecretValue ⟨cfg⟩ (backendConfig.index "secret_id") = .error err →
        (Aws.NewAwsSecretsManagerBackend env backendId backendConfig).2.map
          LogRecord.fields =
          [[("backend_id", backendId),
            ("backend_type", backendConfig.index "backend_type"),
            ("secret_id", backendConfig.index "secret_id"),
            ("aws_access_key_id", backendConfig.index "aws_access_key_id"),
            ("aws_profile", backendConfig.index "aws_profile")]]) ∧
      (∀ cfg s m err, env.NewAwsConfigFromBackendConfig backendId backendConfig = .ok cfg →
        env.GetSecretValue ⟨cfg⟩ (backendConfig.index "secret_id") = .ok ⟨some s⟩ →
        Json.Unmarshal s GoMap.empty = (m, some err) →
        (Aws.NewAwsSecretsManagerBackend env backendId backendConfig).2.map
          LogRecord.fields =
          [[("backend_id", backendId),
            ("backend_type", backendConfig.index "backend_type"),
            ("secret_id", backendConfig.index "secret_id"),
            ("aws_access_key_id", backendConfig.index "aws_access_key_id"),
            ("aws_profile", backendConfig.index "aws_profile")]])) ∧
    (∀ (env : Azure.Env) (backendId : String) (bc : List (String × Azure.RawValue)),
      (∀ backendConfig cfg err, env.Decode bc .zero = .ok backendConfig →
        env.NewAzureConfigFromBackendConfig backendId backendConfig.AzureSession = .ok cfg →
        env.GetSecret cfg backendConfig.KeyVaultURL backendConfig.SecretId "latest" =
          .error err →
        (Azure.NewAzureKeyVaultBackend env backendId bc).2.map LogRecord.fields =
          [[("backend_id", backendId), ("backend_type", backendConfig.BackendType),
            ("secret_id", backendConfig.SecretId),
            ("keyvaulturl", backendConfig.KeyVaultURL)]]) ∧
      (∀ backendConfig cfg s m err, env.Decode bc .zero = .ok backendConfig →
        env.NewAzureConfigFromBackendConfig backendId backendConfig.AzureSession = .ok cfg →
        env.GetSecret cfg backendConfig.KeyVaultURL backendConfig.SecretId "latest" =
          .ok ⟨some s⟩ →
        Json.Unmarshal s GoMap.empty = (m, some err) →
        (Azure.NewAzureKeyVaultBackend env backendId bc).2.map LogRecord.fields =
          [[("backend_id", backendId), ("backend_type", backendConfig.BackendType),
            ("secret_id", backendConfig.SecretId),
            ("keyvaulturl", backendConfig.KeyVaultURL)]])) ∧
    (∀ (b : Aws.AwsSecretsManagerBackend) (k : String), (b.Secret.lookup2 k).2 = false →
      (Aws.GetSecretOutput b k).log.map LogRecord.fields =
        [[("backend_id", b.BackendId), ("backend_type", b.Config.index "backend_type"),
          ("secret_id", b.Config.index "secret_id")]]) ∧
    (∀ (b : Azure.AzureKeyVaultBackend) (k : String), (b.Secret.lookup2 k).2 = false →
      (Azure.GetSecretOutput b k).log.map LogRecord.fields =
        [[("backend_id", b.BackendId), ("backend_type", b.Config.BackendType),
          ("secret_id", b.Config.SecretId), ("keyvaulturl", b.Config.KeyVaultURL),
          ("secret_key", k)]]) := by
  refine ⟨fun env backendId backendConfig => ⟨fun cfg err hs hf => ?_,
      fun cfg s m err hs hf hu => ?_⟩,
    fun env backendId bc => ⟨fun c cfg err hd hs hf => ?_,
      fun c cfg s m err hd hs hf hu => ?_⟩,
    fun b k h => ?_, fun b k h => ?_⟩
  · rw [aws_new_fetch_error env _ _ cfg err hs hf]; rfl
  · rw [aws_new_parse_error env _ _ cfg s m err hs hf hu]; rfl
  · rw [azure_new_fetch_error env _ _ c cfg err hd hs hf]; rfl
  · rw [azure_new_parse_error env _ _ c cfg s m err hd hs hf hu]; rfl
  · rw [aws_getSecretOutput_of_miss b k h]; rfl
  · rw [azure_getSecretOutput_of_miss b k h]; rfl

/-- C8 as amended, at concrete inputs: an AWS fetch that fails, an Azure parse
that fails and an Azure lookup of a missing key each log one record with the
stated fields. -/
theorem failure_log_fields_witness :
    (Aws.NewAwsSecretsManagerBackend (awsEnv (.error (.external "access denied"))) "aws1"
        sampleConfig).2.map LogRecord.fields =
      [[("backend_id", "aws1"), ("backend_type", "aws.secretsmanager"), ("secret_id", "s1"),
        ("aws_access_key_id", ""), ("aws_profile", "default")]] ∧
    (Azure.NewAzureKeyVaultBackend (azureEnv (.ok ⟨some nestedPayload⟩)) "az1"
        sampleRaw).2.map LogRecord.fields =
      [[("backend_id", "az1"), ("backend_type", "azure.keyvault"), ("secret_id", "s1"),
        ("keyvaulturl", "https://vault.example")]] ∧
    (Azure.GetSecretOutput sampleAzure "missing").log.map LogRecord.fields =
      [[("backend_id", "az1"), ("backend_type", "azure.keyvault"), ("secret_id", "s1"),
        ("keyvaulturl", "https://vault.example"), ("secret_key", "missing")]] :=
  ⟨(failure_log_fields.1 (awsEnv (.error (.external "access denied"))) "aws1"
      sampleConfig).1 ⟨"session"⟩ (.external "access denied") rfl rfl,
   (failure_log_fields.2.1 (azureEnv (.ok ⟨some nestedPayload⟩)) "az1" sampleRaw).2
      sampleAzure.Config ⟨"authorizer"⟩ nestedPayload
      ⟨[("a", "")]⟩ (.jsonUnmarshalTypeError "object") rfl rfl rfl (by decide),
   failure_log_fields.2.2.2 sampleAzure "missing" (by decide)⟩

/-- C8 as stated fails: when the AWS or the Azure session factory fails, the
constructor returns that error and the one record emitted is keyed by
`backend_id` alone; when the Azure config decoding fails, the constructor
returns that error and the one record emitted has no key at all. None of these
records carries `backend_type` or a provider identifier. -/
theorem failure_log_without_backend_type :
    ((Aws.NewAwsSecretsManagerBackend awsEnvNoSession "aws1" sampleConfig).1 =
        .ret none (some (.external "no credentials")) ∧
      (Aws.NewAwsSecretsManagerBackend awsEnvNoSession "aws1" sampleConfig).2.map
        LogRecord.keys = [["backend_id"]]) ∧
    ((Azure.NewAzureKeyVaultBackend azureEnvNoSession "az1" sampleRaw).1 =
        .ret none (some (.external "no credentials")) ∧
      (Azure.NewAzureKeyVaultBackend azureEnvNoSession "az1" sampleRaw).2.map
        LogRecord.keys = [["backend_id"]]) ∧
    ((Azure.NewAzureKeyVaultBackend azureEnvNoDecode "az1" sampleRaw).1 =
        .ret none (some (.external "expected a map")) ∧
      (Azure.NewAzureKeyVaultBackend azureEnvNoDecode "az1" sampleRaw).2.map
        LogRecord.keys = [[]]) :=
  ⟨⟨by decide, by decide⟩, ⟨by decide, by decide⟩, ⟨by decide, by decide⟩⟩

end SecretBackend
